import Mathlib

/-!
Verification of the mutation-capture-and-replay daemon of
`src/hooks/useEditorHTMLDaemon.ts` (react-magic-draft).

The daemon observes raw DOM mutations on a watched editable root, rolls the
structural mutations back, compiles them into an operation log addressed by
XPath strings, and replays the log against a detached mirror document.

Embedding conventions:
* DOM trees are modelled by the mutual inductive `DomNode`/`DomForest`.
  Every node carries a numeric identity `nid`, standing for JavaScript object
  identity of DOM nodes: the source manipulates nodes through references
  (`mutation.target`, `mutation.addedNodes[i]`, ...), which the model renders
  as lookups by `nid`.  Well-formed trees have pairwise distinct `nid`s.
* XPath strings produced by `getXPathFromNode` are modelled by the structured
  type `XP`, mirroring the exact grammar the source emits
  (`//*[@id="..."]`, `//body`, `.../text()[k]`, `.../tag[k]`); the empty
  string result is `XP.empty`.  `document.evaluate` with
  `FIRST_ORDERED_NODE_TYPE` is modelled by `getNodeFromXPath` on that
  structured form, with the document rooted at the mirror body.
* Mutation records are generated from primitive edit scripts
  (`DomEdit`/`applyEdit`), one record per primitive DOM operation, exactly as
  a `MutationObserver` reports `insertBefore`/`removeChild`/character-data
  writes.  `applyEdit` returns `none` on edits that would throw in the DOM
  (detached targets, foreign reference nodes), so validity of a script is
  the hypothesis `applyScript ... = some ...`.
* Operations that would throw on the mirror document
  (`removeChild`/`insertBefore` with a resolved node that is not a child of
  the resolved parent) are modelled in `Except Unit`; the paths the source
  guards with early returns (`if (!XPath) return` etc.) are faithful skips.
-/

set_option maxHeartbeats 1000000

mutual
/-- DOM nodes: elements with tag name, id attribute, class attribute and
children, and text nodes with their character data.  `nid` models JavaScript
object identity. -/
inductive DomNode where
  | elem (nid : Nat) (tag attrId cls : String) (children : DomForest)
  | txt (nid : Nat) (content : String)
deriving DecidableEq, Repr
inductive DomForest where
  | nil
  | cons (head : DomNode) (tail : DomForest)
deriving DecidableEq, Repr
end

/-- Identity of a node (JavaScript object identity). -/
def DomNode.nid : DomNode → Nat
  | .elem n _ _ _ _ => n
  | .txt n _ => n

/-- The id attribute; text nodes have none (`(node as HTMLElement).id` is
undefined, hence falsy). -/
def DomNode.attrIdOf : DomNode → String
  | .elem _ _ i _ _ => i
  | .txt _ _ => ""

/-- Whether the node is a text node (`nodeType === Node.TEXT_NODE`). -/
def DomNode.isText : DomNode → Bool
  | .elem _ _ _ _ _ => false
  | .txt _ _ => true

/-- Child at a forest position. -/
def DomForest.get? : DomForest → Nat → Option DomNode
  | .nil, _ => none
  | .cons y _, 0 => some y
  | .cons _ ys, n+1 => ys.get? n

def DomForest.append : DomForest → DomForest → DomForest
  | .nil, g => g
  | .cons y ys, g => .cons y (ys.append g)

def DomForest.length : DomForest → Nat
  | .nil => 0
  | .cons _ ys => 1 + ys.length

/-- The first `i` children of a forest (the preceding siblings of index `i`). -/
def DomForest.take : DomForest → Nat → DomForest
  | .nil, _ => .nil
  | .cons _ _, 0 => .nil
  | .cons y ys, n+1 => .cons y (ys.take n)

/-- Number of text-node children, as counted by the `previousSibling` walk of
`getXPathFromNode` for text nodes. -/
def DomForest.countTexts : DomForest → Nat
  | .nil => 0
  | .cons y ys => (if y.isText then 1 else 0) + ys.countTexts

/-- Number of element children with the given tag name, as counted by the
sibling loop of `getXPathFromNode` for element nodes
(`sibling.nodeType === 1 && sibling.nodeName === node.nodeName`). -/
def DomForest.countTag (tg : String) : DomForest → Nat
  | .nil => 0
  | .cons y ys =>
      (match y with
        | .elem _ t _ _ _ => if t = tg then 1 else 0
        | .txt _ _ => 0) + ys.countTag tg

/-- A path of child indices from a root node down to a descendant.  Two
occurrences of the same path in the same tree denote the identical node, so
paths model node identity relative to a fixed tree. -/
abbrev DomPath := List Nat

/-- Resolve a path to the node it denotes. -/
def nodeAt : DomNode → DomPath → Option DomNode
  | t, [] => some t
  | .elem _ _ _ _ cs, i :: p =>
      match cs.get? i with
      | some c => nodeAt c p
      | none => none
  | .txt _ _, _ :: _ => none

mutual
/-- All identities occurring in a node (preorder). -/
def nidsOf : DomNode → List Nat
  | .elem n _ _ _ cs => n :: nidsOfF cs
  | .txt n _ => [n]
def nidsOfF : DomForest → List Nat
  | .nil => []
  | .cons y ys => nidsOf y ++ nidsOfF ys
end

mutual
/-- All nonempty id attributes occurring in a node (preorder, document
order). -/
def idsOf : DomNode → List String
  | .elem _ _ i _ cs => (if i = "" then [] else [i]) ++ idsOfF cs
  | .txt _ _ => []
def idsOfF : DomForest → List String
  | .nil => []
  | .cons y ys => idsOf y ++ idsOfF ys
end

mutual
/-- Look a node up by identity (document order; unique in well-formed
trees). -/
def findByNid (n : Nat) : DomNode → Option DomNode
  | .elem m t i c cs => if m = n then some (.elem m t i c cs) else findByNidF n cs
  | .txt m s => if m = n then some (.txt m s) else none
def findByNidF (n : Nat) : DomForest → Option DomNode
  | .nil => none
  | .cons y ys =>
      match findByNid n y with
      | some r => some r
      | none => findByNidF n ys
end

mutual
/-- Path of the node with the given identity. -/
def pathOfNid (n : Nat) : DomNode → Option DomPath
  | .elem m _ _ _ cs => if m = n then some [] else pathOfNidF n 0 cs
  | .txt m _ => if m = n then some [] else none
def pathOfNidF (n : Nat) (idx : Nat) : DomForest → Option DomPath
  | .nil => none
  | .cons y ys =>
      match pathOfNid n y with
      | some p => some (idx :: p)
      | none => pathOfNidF n (idx + 1) ys
end

mutual
/-- Whether some element of the tree has an immediate child with identity `c`
(models `node.parentNode` being non-null for a node of the live tree). -/
def hasParentIn (c : Nat) : DomNode → Bool
  | .elem _ _ _ _ cs => childHere c cs || hasParentInF c cs
  | .txt _ _ => false
def childHere (c : Nat) : DomForest → Bool
  | .nil => false
  | .cons y ys => (y.nid == c) || childHere c ys
def hasParentInF (c : Nat) : DomForest → Bool
  | .nil => false
  | .cons y ys => hasParentIn c y || hasParentInF c ys
end

mutual
/-- Concatenated descendant character data (`Node.textContent` as a getter). -/
def textContent : DomNode → String
  | .elem _ _ _ _ cs => textContentF cs
  | .txt _ s => s
def textContentF : DomForest → String
  | .nil => ""
  | .cons y ys => textContent y ++ textContentF ys
end

mutual
/-- Erase node identities; two trees with the same erasure are structurally
identical documents (same shape, tags, attributes and text). -/
def eraseNids : DomNode → DomNode
  | .elem _ t i c cs => .elem 0 t i c (eraseNidsF cs)
  | .txt _ s => .txt 0 s
def eraseNidsF : DomForest → DomForest
  | .nil => .nil
  | .cons y ys => .cons (eraseNids y) (eraseNidsF ys)
end

mutual
/-- Erase character data, keeping structure, identities and attributes: the
structural skeleton of a tree. -/
def stripText : DomNode → DomNode
  | .elem n t i c cs => .elem n t i c (stripTextF cs)
  | .txt n _ => .txt n ""
def stripTextF : DomForest → DomForest
  | .nil => .nil
  | .cons y ys => .cons (stripText y) (stripTextF ys)
end

/-- Insert `node` into a child list immediately before the child with identity
`r`; if no child matches, the node ends up appended last (the valid uses
always have `r` among the children). -/
def insRefF (r : Nat) (node : DomNode) : DomForest → DomForest
  | .nil => .cons node .nil
  | .cons y ys =>
      if y.nid = r then .cons node (.cons y ys)
      else .cons y (insRefF r node ys)

/-- The child-list effect of `parent.insertBefore(node, ref)`: before the
reference child when `ref` is a node, appended last when `ref` is null. -/
def insChildF (node : DomNode) : Option Nat → DomForest → DomForest
  | none, cs => cs.append (.cons node .nil)
  | some r, cs => insRefF r node cs

/-- Remove the first child with identity `c` from a child list (the child
list of one element; not recursive). -/
def removeNidF (c : Nat) : DomForest → DomForest
  | .nil => .nil
  | .cons y ys => if y.nid = c then ys else .cons y (removeNidF c ys)

mutual
/-- Tree effect of `target.insertBefore(node, ref)` where `target` is the
element with identity `p`: the first (in well-formed trees: the only)
element with that identity receives the new child. -/
def insertBeforeNid (p : Nat) (node : DomNode) (ref : Option Nat) : DomNode → DomNode
  | .elem m t i c cs =>
      if m = p then .elem m t i c (insChildF node ref cs)
      else .elem m t i c (insertBeforeNidF p node ref cs)
  | .txt m s => .txt m s
def insertBeforeNidF (p : Nat) (node : DomNode) (ref : Option Nat) : DomForest → DomForest
  | .nil => .nil
  | .cons y ys => .cons (insertBeforeNid p node ref y) (insertBeforeNidF p node ref ys)
end

mutual
/-- Tree effect of `target.removeChild(child)` where `target` is the element
with identity `p` and `child` has identity `c`. -/
def removeChildNid (p c : Nat) : DomNode → DomNode
  | .elem m t i cl cs =>
      if m = p then .elem m t i cl (removeNidF c cs)
      else .elem m t i cl (removeChildNidF p c cs)
  | .txt m s => .txt m s
def removeChildNidF (p c : Nat) : DomForest → DomForest
  | .nil => .nil
  | .cons y ys => .cons (removeChildNid p c y) (removeChildNidF p c ys)
end

mutual
/-- Tree effect of writing the character data of the text node with identity
`x` (a `characterData` mutation). -/
def setTextNid (x : Nat) (v : String) : DomNode → DomNode
  | .elem m t i c cs => .elem m t i c (setTextNidF x v cs)
  | .txt m s => if m = x then .txt m v else .txt m s
def setTextNidF (x : Nat) (v : String) : DomForest → DomForest
  | .nil => .nil
  | .cons y ys => .cons (setTextNid x v y) (setTextNidF x v ys)
end

/-- Structured form of the XPath strings emitted by `getXPathFromNode`:
`byId s` is the string made of two slashes then `*[@id="s"]`; `body` is the
two-slash body sentinel; `textIdx pa k` renders as the parent string followed
by `/text()[k]`; `elemIdx pa tg k` renders as the parent string followed by
`/tg[k]`; `empty` is the empty string, which every consumer guards with
`if (!XPath)`. -/
inductive XP where
  | byId (s : String)
  | body
  | textIdx (parent : XP) (k : Nat)
  | elemIdx (parent : XP) (tag : String) (k : Nat)
  | empty
deriving DecidableEq, Repr

/-- Element test of the Watched-Root upper limit in `getXPathFromNode`:
`className === WatchElementRef.current.className && tagName === ...tagName`.
Text nodes have undefined `className`/`tagName` and never match. -/
def isRootLike (wTag wCls : String) : DomNode → Bool
  | .elem _ t _ c _ => t == wTag && c == wCls
  | .txt _ _ => false

/-- Address of the child at index `i` of the child list `cs`, given the
address `cur` of the parent: the id short-circuit, the Watched-Root
short-circuit, the text-node branch counting preceding text siblings, and the
element branch counting preceding same-tag element siblings, in the source's
priority order. -/
def childXP (wTag wCls : String) (cur : XP) (cs : DomForest) (i : Nat) (c : DomNode) : XP :=
  if c.attrIdOf ≠ "" then .byId c.attrIdOf
  else if isRootLike wTag wCls c then .body
  else match c with
    | .txt _ _ => .textIdx cur (1 + (cs.take i).countTexts)
    | .elem _ tg _ _ _ => .elemIdx cur tg (1 + (cs.take i).countTag tg)

/-- Address of the descendant reached by path `p` from the node `t` whose own
address is `cur`.  This is the upward recursion of `getXPathFromNode`
unrolled top-down along the path: the source recomputes the parent's address
recursively where this embedding passes it down as `cur`. -/
def xpathFrom (wTag wCls : String) : DomNode → XP → DomPath → XP
  | _, cur, [] => cur
  | .elem _ _ _ _ cs, cur, i :: p =>
      (match cs.get? i with
        | some c => xpathFrom wTag wCls c (childXP wTag wCls cur cs i c) p
        | none => XP.empty)
  | .txt _ _, _, _ :: _ => XP.empty

/-- Address of the tree root itself.  For the watched root the source's
second branch always fires when the root carries no id (it compares the node
against itself), so the fall-through to the parent walk above the watched
root is unreachable and modelled as the empty address. -/
def rootXP (wTag wCls : String) (t : DomNode) : XP :=
  if t.attrIdOf ≠ "" then .byId t.attrIdOf
  else if isRootLike wTag wCls t then .body
  else .empty

/-- Model of `getXPathFromNode`, addressing the node at path `p` of the
watched tree `t` whose root element has tag `wTag` and class `wCls`. -/
def getXPathFromNode (wTag wCls : String) (t : DomNode) (p : DomPath) : XP :=
  xpathFrom wTag wCls t (rootXP wTag wCls t) p

/-- Model of `getXPathFromNode` applied to a node reference of the live tree
(the source receives the node itself; the model locates it by identity). -/
def getXPathOfNid (wTag wCls : String) (t : DomNode) (n : Nat) : XP :=
  match pathOfNid n t with
  | some p => getXPathFromNode wTag wCls t p
  | none => XP.empty

/-- Index of the `k`-th (1-based) text-node child, as selected by the XPath
step `text()[k]`. -/
def textNth : DomForest → Nat → Option Nat
  | .nil, _ => none
  | .cons y ys, k =>
      if y.isText then
        if k ≤ 1 then some 0 else (textNth ys (k - 1)).map (· + 1)
      else (textNth ys k).map (· + 1)

/-- Index of the `k`-th (1-based) element child with tag `tg`, as selected by
the XPath step `tg[k]`. -/
def elemNth (tg : String) : DomForest → Nat → Option Nat
  | .nil, _ => none
  | .cons y ys, k =>
      (match y with
        | .elem _ t _ _ _ =>
            if t = tg then
              if k ≤ 1 then some 0 else (elemNth tg ys (k - 1)).map (· + 1)
            else (elemNth tg ys k).map (· + 1)
        | .txt _ _ => (elemNth tg ys k).map (· + 1))

mutual
/-- Path of the first node in document order (preorder) whose id attribute is
`s`: the evaluation of the two-slash `*[@id="s"]` lookup under
`FIRST_ORDERED_NODE_TYPE`. -/
def findIdPath (s : String) : DomNode → Option DomPath
  | .elem _ _ i _ cs => if i = s then some [] else findIdPathF s 0 cs
  | .txt _ _ => none
def findIdPathF (s : String) (idx : Nat) : DomForest → Option DomPath
  | .nil => none
  | .cons y ys =>
      match findIdPath s y with
      | some p => some (idx :: p)
      | none => findIdPathF s (idx + 1) ys
end

/-- Model of `doc.evaluate(XPath, doc, null, FIRST_ORDERED_NODE_TYPE)` over
the address grammar the daemon emits, on a document whose body is `doc`
(the mirror document's body corresponds to the watched root, so the `//body`
sentinel resolves to the root of the modelled tree).  Returns the path of
the first matching node, or `none` when `singleNodeValue` is null. -/
def getNodeFromXPath (doc : DomNode) : XP → Option DomPath
  | .byId s => findIdPath s doc
  | .body => some []
  | .textIdx pa k =>
      (match getNodeFromXPath doc pa with
        | some p =>
            (match nodeAt doc p with
              | some (.elem _ _ _ _ cs) => (textNth cs k).map (fun i => p ++ [i])
              | _ => none)
        | none => none)
  | .elemIdx pa tg k =>
      (match getNodeFromXPath doc pa with
        | some p =>
            (match nodeAt doc p with
              | some (.elem _ _ _ _ cs) => (elemNth tg cs k).map (fun i => p ++ [i])
              | _ => none)
        | none => none)
  | .empty => none

/-- Index of the first child with identity `c` in a child list. -/
def idxOfNidF (c : Nat) : DomForest → Option Nat
  | .nil => none
  | .cons y ys => if y.nid = c then some 0 else (idxOfNidF c ys).map (· + 1)

/-- Child list of the element with identity `p`, when it exists. -/
def childrenOfNid (t : DomNode) (p : Nat) : Option DomForest :=
  match findByNid p t with
  | some (.elem _ _ _ _ cs) => some cs
  | _ => none

/-- Character data of the node with identity `x` (`node.textContent` read on
a node reference of the live tree). -/
def textContentOfNid (t : DomNode) (x : Nat) : String :=
  match findByNid x t with
  | some n => textContent n
  | none => ""

/-- Primitive DOM operations on the live tree, each of which the
`MutationObserver` reports as one mutation record: `insertBefore` of a node
not currently in the tree, `removeChild`, and a character-data write on a
text node. -/
inductive DomEdit where
  | insB (parentNid : Nat) (node : DomNode) (refNid : Option Nat)
  | remC (parentNid : Nat) (childNid : Nat)
  | setT (targetNid : Nat) (newText : String)
deriving DecidableEq, Repr

/-- One mutation record, with the fields the daemon reads: `type` and
`oldValue` for character data, `target`, `addedNodes`, `removedNodes` and
`nextSibling`.  Node references are identities; `added` keeps the
insertion-time value alongside the identity because the source holds a live
object reference (the value is consulted again at flush time through
`findByNid`, with the stored value as the out-of-tree fallback), while
`removed` stores the detached node, frozen until the rollback reinserts
it. -/
structure MRec where
  charData : Bool
  targetNid : Nat
  oldValue : Option String
  added : List (Nat × DomNode)
  removed : List DomNode
  nextSibNid : Option Nat
deriving DecidableEq, Repr

/-- Validity of the `insertBefore` reference argument: null, or an immediate
child of the target. -/
def refOkB (cs : DomForest) : Option Nat → Bool
  | none => true
  | some r => childHere r cs

/-- Apply one primitive edit, producing the new live tree and the mutation
record the observer delivers for it.  Returns `none` exactly when the DOM
call would throw or target a node outside the live tree (the observer only
reports operations that succeeded on observed nodes): insertion requires the
target element in the tree, fresh identities and a reference child of the
target; removal requires an immediate child; a character-data write requires
a text node of the tree. -/
def applyEdit (t : DomNode) : DomEdit → Option (DomNode × MRec)
  | .insB p node ref =>
      (match childrenOfNid t p with
        | none => none
        | some cs =>
            if ((nidsOf node).all fun n => !(decide (n ∈ nidsOf t)))
                && decide (nidsOf node).Nodup
                && refOkB cs ref then
              some (insertBeforeNid p node ref t,
                ⟨false, p, none, [(node.nid, node)], [], ref⟩)
            else none)
  | .remC p c =>
      (match childrenOfNid t p with
        | none => none
        | some cs =>
            (match idxOfNidF c cs with
              | none => none
              | some j =>
                  (match cs.get? j with
                    | none => none
                    | some child =>
                        some (removeChildNid p c t,
                          ⟨false, p, none, [], [child], (cs.get? (j+1)).map DomNode.nid⟩))))
  | .setT x v =>
      (match findByNid x t with
        | some (.txt _ s) => some (setTextNid x v t, ⟨true, x, some s, [], [], none⟩)
        | _ => none)

/-- Apply a batch of primitive edits; the records accumulate in delivery
order (oldest first), which is the order of the daemon's `MutationQueue`. -/
def applyScript (t : DomNode) : List DomEdit → Option (DomNode × List MRec)
  | [] => some (t, [])
  | e :: es =>
      (match applyEdit t e with
        | some (t1, r) =>
            (match applyScript t1 es with
              | some (t2, rs) => some (t2, r :: rs)
              | none => none)
        | none => none)

/-- Entries of the compiled operation log (`TOperationLog`): `TEXT` carries
the address and the current text, `ADD` carries the deep clone plus parent
and sibling addresses, `REMOVE` carries the node and parent addresses.
Optional fields model the `?:`-typed `parentNode`/`siblingNode` and a null
`nodeText`. -/
inductive TOp where
  | text (node : XP) (nodeText : Option String)
  | add (node : DomNode) (parentNode : Option XP) (siblingNode : Option XP)
  | remove (node : XP) (parentNode : Option XP)
deriving DecidableEq, Repr

/-- Push a `TEXT` operation unless it equals the immediately preceding
emitted operation (`JSON.stringify(latestOperationLog) !==
JSON.stringify(Operation)`; on these records JSON equality coincides with
structural equality, and operations of different types always differ). -/
def pushText (log : List TOp) (op : TOp) : List TOp :=
  if log.getLast? = some op then log else log ++ [op]

/-- The removed-nodes loop of `FlushQueue` for one record, iterating
`removedNodes` from the last index down to 0 (the argument list is already
reversed): reinsert before the recorded next sibling, then emit `REMOVE`
with the addresses computed on the rolled-back tree. -/
def procRemoved (wTag wCls : String) (targetNid : Nat) (nextSib : Option Nat) :
    DomNode → List TOp → List DomNode → DomNode × List TOp
  | t, log, [] => (t, log)
  | t, log, rn :: rest =>
      let t1 := insertBeforeNid targetNid rn nextSib t
      let log1 := log ++ [.remove (getXPathOfNid wTag wCls t1 rn.nid)
                            (some (getXPathOfNid wTag wCls t1 targetNid))]
      procRemoved wTag wCls targetNid nextSib t1 log1 rest

/-- The added-nodes loop of `FlushQueue` for one record, iterating
`addedNodes` from the last index down to 0 (the argument list is already
reversed): detach the node if it still has a parent, then emit `ADD` with a
deep clone and parent/sibling addresses computed on the rolled-back tree. -/
def procAdded (wTag wCls : String) (targetNid : Nat) (nextSib : Option Nat) :
    DomNode → List TOp → List (Nat × DomNode) → DomNode × List TOp
  | t, log, [] => (t, log)
  | t, log, (n, v) :: rest =>
      let clone := (findByNid n t).getD v
      let t1 := if hasParentIn n t then removeChildNid targetNid n t else t
      let log1 := log ++ [.add clone (some (getXPathOfNid wTag wCls t1 targetNid))
                            (match nextSib with
                              | none => none
                              | some sb => some (getXPathOfNid wTag wCls t1 sb))]
      procAdded wTag wCls targetNid nextSib t1 log1 rest

/-- The body of `FlushQueue`'s while loop for one popped record: the
character-data branch (no rollback; address and current text recorded, with
the consecutive-duplicate check), then removed nodes, then added nodes. -/
def procRecord (wTag wCls : String) (t : DomNode) (log : List TOp) (r : MRec) :
    DomNode × List TOp :=
  let log1 :=
    if r.oldValue ≠ none ∧ r.charData then
      pushText log (.text (getXPathOfNid wTag wCls t r.targetNid)
        (some (textContentOfNid t r.targetNid)))
    else log
  let tl2 := procRemoved wTag wCls r.targetNid r.nextSibNid t log1 r.removed.reverse
  procAdded wTag wCls r.targetNid r.nextSibNid tl2.1 tl2.2 r.added.reverse

/-- The while loop of `FlushQueue`: `MutationQueue.pop()` until empty, so
the records are consumed newest first; the caller passes the queue already
reversed. -/
def flushLoop (wTag wCls : String) : DomNode → List TOp → List MRec → DomNode × List TOp
  | t, log, [] => (t, log)
  | t, log, r :: rest =>
      let tl := procRecord wTag wCls t log r
      flushLoop wTag wCls tl.1 tl.2 rest

/-- The target path, when it denotes an immediate child of the parent path:
`asChildOf pp ps = some i` means the node at `ps` is child number `i` of the
node at `pp`, which is the DOM precondition of
`parentNode.removeChild(targetNode)` and of `insertBefore` with a non-null
reference. -/
def asChildOf (pp ps : DomPath) : Option Nat :=
  if ps.take pp.length = pp ∧ ps.length = pp.length + 1 then ps.getLast? else none

/-- Replace the child at one forest position. -/
def replaceAtF (cs : DomForest) (j : Nat) (f : DomNode → DomNode) : DomForest :=
  match cs, j with
  | .nil, _ => .nil
  | .cons y ys, 0 => .cons (f y) ys
  | .cons y ys, j+1 => .cons y (replaceAtF ys j f)

/-- Remove the child at one forest position. -/
def removeIdxF (cs : DomForest) (j : Nat) : DomForest :=
  match cs, j with
  | .nil, _ => .nil
  | .cons _ ys, 0 => ys
  | .cons y ys, j+1 => .cons y (removeIdxF ys j)

/-- Insert a node at one forest position (`none`: append last). -/
def insertIdxF (cs : DomForest) (j : Option Nat) (node : DomNode) : DomForest :=
  match j with
  | none => cs.append (.cons node .nil)
  | some 0 => .cons node cs
  | some (j+1) =>
      (match cs with
        | .nil => .cons node .nil
        | .cons y ys => .cons y (insertIdxF ys (some j) node))

/-- Write `textContent` on the node at a path: on a text node this writes the
character data; on an element it replaces the children with one fresh text
node (none when the string is empty), per the DOM `textContent` setter. -/
def setTextAtPath : DomNode → DomPath → String → DomNode
  | .txt n _, [], v => .txt n v
  | .elem n t i c _, [], v =>
      .elem n t i c (if v = "" then .nil else .cons (.txt 0 v) .nil)
  | .elem n t i c cs, j :: p, v => .elem n t i c (replaceAtF cs j (fun y => setTextAtPath y p v))
  | .txt n s, _ :: _, _ => .txt n s

/-- Remove child number `i` of the element at a path. -/
def removeNthChildAt : DomNode → DomPath → Nat → DomNode
  | .elem n t a c cs, [], i => .elem n t a c (removeIdxF cs i)
  | .elem n t a c cs, j :: p, i => .elem n t a c (replaceAtF cs j (fun y => removeNthChildAt y p i))
  | .txt n s, _, _ => .txt n s

/-- Insert a node as child number `i` (or last, for `none`) of the element at
a path. -/
def insertChildAt : DomNode → DomPath → Option Nat → DomNode → DomNode
  | .elem n t a c cs, [], i, nd => .elem n t a c (insertIdxF cs i nd)
  | .elem n t a c cs, j :: p, i, nd =>
      .elem n t a c (replaceAtF cs j (fun y => insertChildAt y p i nd))
  | .txt n s, _, _, _ => .txt n s

/-- Model of `UpdateMirrorDocument.Text`: guard on a missing address, resolve
it, then write `textContent` (null becomes the empty string); an unresolved
address leaves the mirror untouched. -/
def UpdateMirrorText (m : DomNode) (xp : XP) (text : Option String) : DomNode :=
  if xp = XP.empty then m
  else
    match getNodeFromXPath m xp with
    | none => m
    | some p => setTextAtPath m p (text.getD "")

/-- Model of `UpdateMirrorDocument.Remove`: guard on missing addresses,
resolve parent then target, skipping on either failing to resolve;
`parentNode.removeChild(targetNode)` throws (`.error`) when the resolved
target is not an immediate child of the resolved parent. -/
def UpdateMirrorRemove (m : DomNode) (xpParent : Option XP) (xpSelf : XP) :
    Except Unit DomNode :=
  match xpParent with
  | none => .ok m
  | some xpp =>
      if xpp = XP.empty ∨ xpSelf = XP.empty then .ok m
      else
        match getNodeFromXPath m xpp with
        | none => .ok m
        | some pp =>
            match getNodeFromXPath m xpSelf with
            | none => .ok m
            | some ps =>
                match asChildOf pp ps with
                | some i => .ok (removeNthChildAt m pp i)
                | none => .error ()

/-- Model of `UpdateMirrorDocument.Add`: guard on a missing parent address,
resolve it, skip when unresolved; the sibling address, when present and
resolvable, gives the insertion point, and otherwise the node is inserted
with a null reference, i.e. appended as the last child.  `insertBefore`
throws when a resolved sibling is not a child of the resolved parent, or the
parent is not an element. -/
def UpdateMirrorAdd (m : DomNode) (xpParent : Option XP) (node : DomNode)
    (xpSibling : Option XP) : Except Unit DomNode :=
  match xpParent with
  | none => .ok m
  | some xpp =>
      if xpp = XP.empty then .ok m
      else
        match getNodeFromXPath m xpp with
        | none => .ok m
        | some pp =>
            match nodeAt m pp with
            | some (.elem _ _ _ _ _) =>
                (match xpSibling with
                  | none => .ok (insertChildAt m pp none node)
                  | some sxp =>
                      if sxp = XP.empty then .ok (insertChildAt m pp none node)
                      else
                        match getNodeFromXPath m sxp with
                        | none => .ok (insertChildAt m pp none node)
                        | some sp =>
                            match asChildOf pp sp with
                            | some i => .ok (insertChildAt m pp (some i) node)
                            | none => .error ())
            | _ => .error ()

/-- Apply one compiled operation to the mirror (the dispatch inside
`SyncToMirror`'s while loop). -/
def applyOp (m : DomNode) : TOp → Except Unit DomNode
  | .text xp t => .ok (UpdateMirrorText m xp t)
  | .remove xps xpp => UpdateMirrorRemove m xpp xps
  | .add nd xpp xps => UpdateMirrorAdd m xpp nd xps

/-- The while loop of `SyncToMirror` after accounting for `Operations.pop()`:
the caller passes the log reversed, so operations are applied newest-emitted
last, i.e. in chronological order of the original edits. -/
def syncRev (m : DomNode) : List TOp → Except Unit DomNode
  | [] => .ok m
  | op :: rest =>
      match applyOp m op with
      | .ok m1 => syncRev m1 rest
      | .error e => .error e

/-- Model of `SyncToMirror`: drain the operation list from the end. -/
def SyncToMirror (m : DomNode) (ops : List TOp) : Except Unit DomNode :=
  syncRev m ops.reverse

/-- Daemon state (`TDaemonState` plus observer status): the `MutationQueue`,
the records delivered to the observer but not yet taken (in-flight), whether
the observer is connected, and whether the watched element ref is
non-null. -/
structure DaemonState where
  queue : List MRec
  obsPending : List MRec
  observing : Bool
  watchedPresent : Bool
deriving DecidableEq, Repr

/-- Model of `toggleObserve`: `false` disconnects the observer — per the DOM
specification `disconnect()` also empties the observer's record queue, so
in-flight records are discarded; `true` starts observing the watched element
when the ref is present, leaving queued records alone. -/
def toggleObserve (b : Bool) (s : DaemonState) : DaemonState :=
  if !b then { s with observing := false, obsPending := [] }
  else if !s.watchedPresent then s
  else { s with observing := true }

/-- Result of one `FlushQueue` call: daemon state, live tree, mirror (or the
propagated exception) and whether `FinalizeChanges` was invoked. -/
structure FlushResult where
  state : DaemonState
  tree : DomNode
  mirror : Except Unit DomNode
  finalized : Bool
deriving Repr

/-- Model of `FlushQueue`: merge `takeRecords()` into the queue, return if
empty, otherwise stop observing, drain the queue newest-first through the
compile loop, replay onto the mirror, invoke the finalize callback and
restart observation.  An exception from the replay propagates (the source
has no handler), skipping finalize and the restart. -/
def FlushQueue (wTag wCls : String) (s : DaemonState) (t m : DomNode) : FlushResult :=
  let q := s.queue ++ s.obsPending
  let s1 : DaemonState := { s with queue := q, obsPending := [] }
  if q.isEmpty then ⟨s1, t, .ok m, false⟩
  else
    let s2 := toggleObserve false s1
    let tl := flushLoop wTag wCls t [] q.reverse
    let s3 : DaemonState := { s2 with queue := [] }
    match SyncToMirror m tl.2 with
    | .error e => ⟨s3, tl.1, .error e, false⟩
    | .ok m1 => ⟨toggleObserve true s3, tl.1, .ok m1, true⟩

theorem toggleObserve_false_spec (s : DaemonState) :
    toggleObserve false s = { s with observing := false, obsPending := [] } := rfl

theorem toggleObserve_true_spec (s : DaemonState) :
    toggleObserve true s =
      if s.watchedPresent then { s with observing := true } else s := by
  simp only [toggleObserve]
  cases s.watchedPresent <;> simp

/-- Claim C7: calling `FlushQueue` when the mutation queue, after merging the
records pending in the observer, is empty performs no operation on the
mirror document, leaves the live tree alone and does not invoke the
`FinalizeChanges` callback. -/
theorem flushQueue_empty_noop (wTag wCls : String) (s : DaemonState) (t m : DomNode)
    (h : s.queue ++ s.obsPending = []) :
    (FlushQueue wTag wCls s t m).mirror = .ok m ∧
    (FlushQueue wTag wCls s t m).tree = t ∧
    (FlushQueue wTag wCls s t m).finalized = false := by
  unfold FlushQueue
  simp [h]

/-- Witness for C7 at a concrete daemon state. -/
theorem flushQueue_empty_noop_witness :
    (FlushQueue "main" "cls" ⟨[], [], true, true⟩ (.txt 0 "a") (.txt 1 "a")).mirror
        = .ok (.txt 1 "a") ∧
    (FlushQueue "main" "cls" ⟨[], [], true, true⟩ (.txt 0 "a") (.txt 1 "a")).tree
        = .txt 0 "a" ∧
    (FlushQueue "main" "cls" ⟨[], [], true, true⟩ (.txt 0 "a") (.txt 1 "a")).finalized
        = false :=
  flushQueue_empty_noop "main" "cls" ⟨[], [], true, true⟩ (.txt 0 "a") (.txt 1 "a") rfl

/-- Claim C10: every `FlushQueue` call returns with the daemon's
`MutationQueue` empty and no records left pending inside the observer: the
pending records are merged by `takeRecords` and the compile loop pops every
record, so no raw mutation record is carried over to a later flush. -/
theorem flushQueue_drains_queue (wTag wCls : String) (s : DaemonState) (t m : DomNode) :
    (FlushQueue wTag wCls s t m).state.queue = [] ∧
    (FlushQueue wTag wCls s t m).state.obsPending = [] := by
  unfold FlushQueue
  by_cases hq : (s.queue ++ s.obsPending).isEmpty
  · rw [List.isEmpty_iff] at hq
    simp [hq]
  · simp only [hq, if_neg, Bool.false_eq_true, not_false_eq_true, if_false]
    cases hs : SyncToMirror m (flushLoop wTag wCls t [] (s.queue ++ s.obsPending).reverse).2 with
    | error e => simp [toggleObserve]
    | ok m1 => simp [toggleObserve]; split <;> simp

/-- Claim C8, counterexample: with one in-flight record pending in the
observer, `toggleObserve(false)` leaves the record neither in the
`MutationQueue` nor pending — `disconnect()` empties the observer's record
queue, so the in-flight record is discarded, not merged into the queue as
the claim states. -/
theorem toggleObserve_false_loses_inflight :
    ¬ ((⟨true, 1, some "A", [], [], none⟩ : MRec) ∈
          (toggleObserve false ⟨[], [⟨true, 1, some "A", [], [], none⟩], true, true⟩).queue) ∧
    (toggleObserve false ⟨[], [⟨true, 1, some "A", [], [], none⟩], true, true⟩).obsPending
        = [] := by
  constructor
  · simp [toggleObserve]
  · rfl

/-- Claim C8, amended: `toggleObserve(false)` disconnects the observer and
discards any in-flight undelivered records (it does not merge them into the
queue); the merge that prevents edit loss is performed by `FlushQueue`,
which folds the observer's pending records into the queue via
`takeRecords()` before stopping observation, so flushing behaves exactly as
if the pending records had already been queued; and starting while already
started, or stopping while already stopped, changes nothing further
(`toggleObserve` is idempotent for both values). -/
theorem toggleObserve_contract :
    (∀ s : DaemonState,
        (toggleObserve false s).observing = false ∧
        (toggleObserve false s).obsPending = [] ∧
        (toggleObserve false s).queue = s.queue) ∧
    (∀ (wTag wCls : String) (s : DaemonState) (t m : DomNode),
        FlushQueue wTag wCls s t m =
          FlushQueue wTag wCls ⟨s.queue ++ s.obsPending, [], s.observing, s.watchedPresent⟩ t m) ∧
    (∀ (b : Bool) (s : DaemonState), toggleObserve b (toggleObserve b s) = toggleObserve b s) := by
  refine ⟨fun s => ⟨rfl, rfl, rfl⟩, fun wTag wCls s t m => ?_, fun b s => ?_⟩
  · unfold FlushQueue
    simp
  · cases b with
    | false => rfl
    | true =>
        simp only [toggleObserve, Bool.not_true, Bool.false_eq_true, if_false]
        by_cases h : s.watchedPresent <;> simp [h]

theorem get?_replaceAtF (cs : DomForest) (j : Nat) (f : DomNode → DomNode) (k : Nat) :
    (replaceAtF cs j f).get? k = if k = j then (cs.get? k).map f else cs.get? k := by
  cases cs with
  | nil => simp [replaceAtF, DomForest.get?]
  | cons y ys =>
      cases j with
      | zero =>
          cases k with
          | zero => simp [replaceAtF, DomForest.get?]
          | succ k => simp [replaceAtF, DomForest.get?]
      | succ j =>
          cases k with
          | zero => simp [replaceAtF, DomForest.get?]
          | succ k =>
              simp only [replaceAtF, DomForest.get?]
              rw [get?_replaceAtF ys j f k]
              by_cases hk : k = j <;> simp [hk]

theorem nodeAt_insertChildAt_self (pp : DomPath) (m : DomNode) (i : Option Nat)
    (nd : DomNode) (n : Nat) (tg a c : String) (cs : DomForest)
    (h : nodeAt m pp = some (.elem n tg a c cs)) :
    nodeAt (insertChildAt m pp i nd) pp = some (.elem n tg a c (insertIdxF cs i nd)) := by
  induction pp generalizing m with
  | nil =>
      simp only [nodeAt, Option.some.injEq] at h
      subst h
      rfl
  | cons j p ih =>
      cases m with
      | txt nn s => simp [nodeAt] at h
      | elem nn tt aa cc css =>
          simp only [nodeAt] at h
          cases hc : css.get? j with
          | none => rw [hc] at h; exact absurd h (by simp)
          | some ch =>
              rw [hc] at h
              simp only [insertChildAt, nodeAt, get?_replaceAtF, if_pos rfl, hc,
                Option.map_some]
              exact ih ch h

/-- A `parentNode` address field that fails the source's guards or fails to
resolve: undefined, the empty string, or no match in the mirror. -/
def parentMissing (m : DomNode) : Option XP → Prop
  | none => True
  | some x => x = XP.empty ∨ getNodeFromXPath m x = none

/-- A compiled operation that the mirror replicator skips: its address does
not resolve against the mirror or a required field is missing. -/
def opSkippable (m : DomNode) : TOp → Prop
  | .text xp _ => xp = XP.empty ∨ getNodeFromXPath m xp = none
  | .remove xps xpp =>
      parentMissing m xpp ∨ xps = XP.empty ∨ getNodeFromXPath m xps = none
  | .add _ xpp _ => parentMissing m xpp

theorem applyOp_skippable (m : DomNode) (op : TOp) (h : opSkippable m op) :
    applyOp m op = .ok m := by
  cases op with
  | text xp t =>
      rcases h with h | h
      · simp [applyOp, UpdateMirrorText, h]
      · by_cases he : xp = XP.empty
        · simp [applyOp, UpdateMirrorText, he]
        · simp [applyOp, UpdateMirrorText, he, h]
  | remove xps xpp =>
      cases xpp with
      | none => simp [applyOp, UpdateMirrorRemove]
      | some x =>
          simp only [applyOp, UpdateMirrorRemove]
          rcases h with h | h | h
          · rcases h with h | h
            · simp [h]
            · by_cases he : x = XP.empty ∨ xps = XP.empty
              · simp [he]
              · simp only [he, if_false, h]
          · simp [h]
          · by_cases he : x = XP.empty ∨ xps = XP.empty
            · simp [he]
            · simp only [he, if_false]
              cases hp : getNodeFromXPath m x with
              | none => rfl
              | some pp => simp [h]
  | add nd xpp xps =>
      cases xpp with
      | none => simp [applyOp, UpdateMirrorAdd]
      | some x =>
          simp only [applyOp, UpdateMirrorAdd]
          rcases h with h | h
          · simp [h]
          · by_cases he : x = XP.empty
            · simp [he]
            · simp [he, h]

/-- Claim C6: a compiled operation whose address does not resolve against
the mirror document, or that is missing a required field, is skipped without
raising: applying it yields the mirror unchanged with no exception, and the
replay of the batch continues exactly as if the operation were absent, so
every remaining operation is still applied. -/
theorem syncToMirror_isolates_bad_op (m : DomNode) (op : TOp) (rest : List TOp)
    (h : opSkippable m op) :
    applyOp m op = .ok m ∧ syncRev m (op :: rest) = syncRev m rest := by
  have hs := applyOp_skippable m op h
  exact ⟨hs, by simp [syncRev, hs]⟩

/-- Witness for C6: a `REMOVE` whose target address finds no match in a
one-node mirror is skipped and the rest of the batch still applies. -/
theorem syncToMirror_isolates_bad_op_witness :
    applyOp (.elem 0 "body" "" "" .nil) (.remove (XP.byId "zz") (some XP.body))
        = .ok (.elem 0 "body" "" "" .nil) ∧
    syncRev (.elem 0 "body" "" "" .nil)
        [.remove (XP.byId "zz") (some XP.body), .text XP.body (some "x")] =
      syncRev (.elem 0 "body" "" "" .nil) [.text XP.body (some "x")] :=
  syncToMirror_isolates_bad_op (.elem 0 "body" "" "" .nil)
    (.remove (XP.byId "zz") (some XP.body)) [.text XP.body (some "x")]
    (Or.inr (Or.inr (by decide)))

/-- Claim C9: an `ADD` operation whose parent address resolves to an element
of the mirror but whose non-null sibling address finds no match is not
skipped: the resolver's null result is kept as a null `insertBefore`
reference, so the new node is appended as the parent's last child. -/
theorem updateMirrorAdd_appends_on_unresolved_sibling
    (m : DomNode) (xpp sxp : XP) (nd : DomNode) (pp : DomPath)
    (n : Nat) (tg a c : String) (cs : DomForest)
    (hpp : xpp ≠ XP.empty) (hres : getNodeFromXPath m xpp = some pp)
    (hel : nodeAt m pp = some (.elem n tg a c cs))
    (hsx : sxp ≠ XP.empty) (hsib : getNodeFromXPath m sxp = none) :
    UpdateMirrorAdd m (some xpp) nd (some sxp) = .ok (insertChildAt m pp none nd) ∧
    nodeAt (insertChildAt m pp none nd) pp =
      some (.elem n tg a c (cs.append (.cons nd .nil))) := by
  constructor
  · simp [UpdateMirrorAdd, hpp, hres, hel, hsx, hsib]
  · simpa [insertIdxF] using
      nodeAt_insertChildAt_self pp m none nd n tg a c cs hel

/-- Witness for C9: adding under the root with a dangling sibling address
appends last. -/
theorem updateMirrorAdd_appends_on_unresolved_sibling_witness :
    UpdateMirrorAdd (.elem 0 "body" "" "" (.cons (.txt 1 "a") .nil))
        (some XP.body) (.txt 9 "z") (some (XP.byId "gone"))
      = .ok (insertChildAt (.elem 0 "body" "" "" (.cons (.txt 1 "a") .nil)) [] none (.txt 9 "z")) ∧
    nodeAt (insertChildAt (.elem 0 "body" "" "" (.cons (.txt 1 "a") .nil)) [] none (.txt 9 "z")) []
      = some (.elem 0 "body" "" ""
          ((DomForest.cons (.txt 1 "a") .nil).append (.cons (.txt 9 "z") .nil))) :=
  updateMirrorAdd_appends_on_unresolved_sibling
    (.elem 0 "body" "" "" (.cons (.txt 1 "a") .nil)) XP.body (XP.byId "gone")
    (.txt 9 "z") [] 0 "body" "" "" (.cons (.txt 1 "a") .nil)
    (by decide) (by decide) (by decide) (by decide) (by decide)

theorem nodeAt_append (p : DomPath) (t : DomNode) (q : DomPath) :
    nodeAt t (p ++ q) = (nodeAt t p).bind (fun s => nodeAt s q) := by
  induction p generalizing t with
  | nil => simp [nodeAt]
  | cons j p ih =>
      cases t with
      | txt n s => simp [nodeAt]
      | elem n tg a c cs =>
          simp only [List.cons_append, nodeAt]
          cases cs.get? j with
          | none => simp
          | some ch => simpa using ih ch

mutual
theorem findIdPath_mem (s : String) (t : DomNode) (p : DomPath)
    (hne : s ≠ "") (h : findIdPath s t = some p) : s ∈ idsOf t := by
  cases t with
  | txt n c => simp [findIdPath] at h
  | elem n tg i c cs =>
      simp only [findIdPath] at h
      by_cases hi : i = s
      · subst hi
        simp [idsOf, hne]
      · rw [if_neg hi] at h
        have := findIdPathF_mem s 0 cs p hne h
        simp [idsOf]
        right
        exact this
theorem findIdPathF_mem (s : String) (idx : Nat) (cs : DomForest) (p : DomPath)
    (hne : s ≠ "") (h : findIdPathF s idx cs = some p) : s ∈ idsOfF cs := by
  cases cs with
  | nil => simp [findIdPathF] at h
  | cons y ys =>
      simp only [findIdPathF] at h
      cases hy : findIdPath s y with
      | some q =>
          have := findIdPath_mem s y q hne hy
          simp [idsOfF]
          exact Or.inl this
      | none =>
          rw [hy] at h
          have := findIdPathF_mem s (idx + 1) ys p hne h
          simp [idsOfF]
          exact Or.inr this
end

theorem findIdPath_none_of_not_mem (s : String) (t : DomNode)
    (hne : s ≠ "") (h : s ∉ idsOf t) : findIdPath s t = none := by
  cases hf : findIdPath s t with
  | none => rfl
  | some p => exact absurd (findIdPath_mem s t p hne hf) h

theorem mem_idsOfF_of_get? (cs : DomForest) (j : Nat) (ch : DomNode) (x : String)
    (hj : cs.get? j = some ch) (hx : x ∈ idsOf ch) : x ∈ idsOfF cs := by
  cases cs with
  | nil => simp [DomForest.get?] at hj
  | cons y ys =>
      cases j with
      | zero =>
          simp only [DomForest.get?, Option.some.injEq] at hj
          subst hj
          simp [idsOfF]
          exact Or.inl hx
      | succ j =>
          simp only [DomForest.get?] at hj
          have := mem_idsOfF_of_get? ys j ch x hj hx
          simp [idsOfF]
          exact Or.inr this

theorem mem_idsOf_of_nodeAt (q : DomPath) (t : DomNode) (nd : DomNode) (s : String)
    (hq : nodeAt t q = some nd) (hs : nd.attrIdOf = s) (hne : s ≠ "") : s ∈ idsOf t := by
  induction q generalizing t with
  | nil =>
      simp only [nodeAt, Option.some.injEq] at hq
      subst hq
      cases t with
      | txt n c =>
          simp only [DomNode.attrIdOf] at hs
          exact absurd hs.symm hne
      | elem n tg i c cs =>
          simp only [DomNode.attrIdOf] at hs
          subst hs
          simp [idsOf, hne]
  | cons j p ih =>
      cases t with
      | txt n c => simp [nodeAt] at hq
      | elem n tg i c cs =>
          simp only [nodeAt] at hq
          cases hc : cs.get? j with
          | none => rw [hc] at hq; exact absurd hq (by simp)
          | some ch =>
              rw [hc] at hq
              have := ih ch hq
              simp [idsOf]
              right
              exact mem_idsOfF_of_get? cs j ch s hc this

mutual
theorem findIdPath_complete (s : String) (t : DomNode) (q : DomPath) (nd : DomNode)
    (hnd : (idsOf t).Nodup) (hq : nodeAt t q = some nd) (hs : nd.attrIdOf = s)
    (hne : s ≠ "") : findIdPath s t = some q := by
  cases t with
  | txt n c =>
      cases q with
      | nil =>
          simp only [nodeAt, Option.some.injEq] at hq
          subst hq
          simp only [DomNode.attrIdOf] at hs
          exact absurd hs.symm hne
      | cons j p => simp [nodeAt] at hq
  | elem n tg i c cs =>
      cases q with
      | nil =>
          simp only [nodeAt, Option.some.injEq] at hq
          subst hq
          simp only [DomNode.attrIdOf] at hs
          subst hs
          simp [findIdPath]
      | cons j p =>
          simp only [nodeAt] at hq
          cases hc : cs.get? j with
          | none => rw [hc] at hq; exact absurd hq (by simp)
          | some ch =>
              rw [hc] at hq
              have hmem : s ∈ idsOf ch := mem_idsOf_of_nodeAt p ch nd s hq hs hne
              have hmemF : s ∈ idsOfF cs := mem_idsOfF_of_get? cs j ch s hc hmem
              have hin : i ≠ s := by
                intro he
                rw [he] at hnd
                simp only [idsOf, if_neg hne] at hnd
                rw [List.singleton_append, List.nodup_cons] at hnd
                exact hnd.1 hmemF
              simp only [findIdPath, if_neg hin]
              have hndF : (idsOfF cs).Nodup := by
                simp only [idsOf] at hnd
                exact (List.nodup_append.mp hnd).2.1
              have hrec := findIdPathF_complete s 0 j cs ch p nd hndF hc hq hs hne
              simpa using hrec
theorem findIdPathF_complete (s : String) (idx j : Nat) (cs : DomForest) (ch : DomNode)
    (q : DomPath) (nd : DomNode) (hnd : (idsOfF cs).Nodup) (hj : cs.get? j = some ch)
    (hq : nodeAt ch q = some nd) (hs : nd.attrIdOf = s) (hne : s ≠ "") :
    findIdPathF s idx cs = some ((idx + j) :: q) := by
  cases cs with
  | nil => simp [DomForest.get?] at hj
  | cons y ys =>
      cases j with
      | zero =>
          simp only [DomForest.get?, Option.some.injEq] at hj
          subst hj
          have hndy : (idsOf y).Nodup := (List.nodup_append.mp (by simpa [idsOfF] using hnd)).1
          have hfy := findIdPath_complete s y q nd hndy hq hs hne
          simp [findIdPathF, hfy]
      | succ j =>
          simp only [DomForest.get?] at hj
          have hmem : s ∈ idsOf ch := mem_idsOf_of_nodeAt q ch nd s hq hs hne
          have hmemF : s ∈ idsOfF ys := mem_idsOfF_of_get? ys j ch s hj hmem
          have hnd3 := List.nodup_append.mp (by simpa [idsOfF] using hnd)
          have hnoty : s ∉ idsOf y := fun hy => hnd3.2.2 hy hmemF
          have hy : findIdPath s y = none := findIdPath_none_of_not_mem s y hne hnoty
          have hrec := findIdPathF_complete s (idx + 1) j ys ch q nd hnd3.2.1 hj hq hs hne
          have harith : idx + 1 + j = idx + (j + 1) := by omega
          rw [harith] at hrec
          simp only [findIdPathF, hy, hrec]
end

theorem textNth_countTexts (cs : DomForest) (i : Nat) (c : DomNode)
    (hc : cs.get? i = some c) (ht : c.isText = true) :
    textNth cs (1 + (cs.take i).countTexts) = some i := by
  cases cs with
  | nil => simp [DomForest.get?] at hc
  | cons y ys =>
      cases i with
      | zero =>
          simp only [DomForest.get?, Option.some.injEq] at hc
          subst hc
          simp [DomForest.take, DomForest.countTexts, textNth, ht]
      | succ i =>
          simp only [DomForest.get?] at hc
          have hrec := textNth_countTexts ys i c hc ht
          cases hy : y.isText with
          | false =>
              simp only [DomForest.take, DomForest.countTexts, textNth, hy, if_false,
                Bool.false_eq_true]
              rw [Nat.zero_add, hrec]
              rfl
          | true =>
              simp only [DomForest.take, DomForest.countTexts, textNth, hy, if_true]
              rw [if_neg (show ¬ 1 + (1 + (ys.take i).countTexts) ≤ 1 by omega)]
              rw [show 1 + (1 + (ys.take i).countTexts) - 1
                    = 1 + (ys.take i).countTexts by omega]
              rw [hrec]
              rfl

theorem elemNth_countTag (cs : DomForest) (i : Nat) (cn : Nat) (ctg ca ccl : String)
    (ccs : DomForest) (hc : cs.get? i = some (.elem cn ctg ca ccl ccs)) :
    elemNth ctg cs (1 + (cs.take i).countTag ctg) = some i := by
  cases cs with
  | nil => simp [DomForest.get?] at hc
  | cons y ys =>
      cases i with
      | zero =>
          simp only [DomForest.get?, Option.some.injEq] at hc
          subst hc
          simp [DomForest.take, DomForest.countTag, elemNth]
      | succ i =>
          simp only [DomForest.get?] at hc
          have hrec := elemNth_countTag ys i cn ctg ca ccl ccs hc
          cases y with
          | txt m s =>
              simp only [DomForest.take, DomForest.countTag, elemNth]
              rw [Nat.zero_add, hrec]
              rfl
          | elem m ytg ya ycl ycs =>
              by_cases hyt : ytg = ctg
              · subst hyt
                simp only [DomForest.take, DomForest.countTag, elemNth, eq_self_iff_true,
                  if_true]
                rw [if_neg (show ¬ 1 + (1 + (ys.take i).countTag ytg) ≤ 1 by omega)]
                rw [show 1 + (1 + (ys.take i).countTag ytg) - 1
                      = 1 + (ys.take i).countTag ytg by omega]
                rw [hrec]
                rfl
              · simp only [DomForest.take, DomForest.countTag, elemNth, if_neg hyt]
                rw [Nat.zero_add, hrec]
                rfl

theorem nodeAt_nil (t : DomNode) : nodeAt t [] = some t := by
  cases t <;> rfl

/-- Addressing-stability conditions of a document: distinct nonempty id
attributes (so the absolute id lookup is unambiguous), and no node other
than the root matching the Watched-Root tag-plus-class test (so the `//body`
sentinel denotes only the root). -/
def addrOK (wTag wCls : String) (doc : DomNode) : Prop :=
  (idsOf doc).Nodup ∧
  ∀ p n, nodeAt doc p = some n → isRootLike wTag wCls n = true → p = []

mutual
/-- Computable check that no node of the tree matches the Watched-Root
tag-plus-class test. -/
def noRootLikeN (wTag wCls : String) : DomNode → Bool
  | .elem n t a c cs =>
      !(isRootLike wTag wCls (.elem n t a c cs)) && noRootLikeF wTag wCls cs
  | .txt _ _ => true
def noRootLikeF (wTag wCls : String) : DomForest → Bool
  | .nil => true
  | .cons y ys => noRootLikeN wTag wCls y && noRootLikeF wTag wCls ys
end

/-- Computable sufficient condition for `addrOK`: distinct ids and no proper
descendant of the root matching the root test. -/
def addrOKb (wTag wCls : String) : DomNode → Bool
  | .elem n t a c cs =>
      decide ((idsOf (.elem n t a c cs)).Nodup) && noRootLikeF wTag wCls cs
  | .txt n s => decide ((idsOf (.txt n s)).Nodup)

theorem noRootLikeN_get? (cs : DomForest) (i : Nat) (ch : DomNode) (wTag wCls : String)
    (hF : noRootLikeF wTag wCls cs = true) (hc : cs.get? i = some ch) :
    noRootLikeN wTag wCls ch = true := by
  cases cs with
  | nil => simp [DomForest.get?] at hc
  | cons y ys =>
      simp only [noRootLikeF, Bool.and_eq_true] at hF
      cases i with
      | zero =>
          simp only [DomForest.get?, Option.some.injEq] at hc
          subst hc
          exact hF.1
      | succ i =>
          simp only [DomForest.get?] at hc
          exact noRootLikeN_get? ys i ch wTag wCls hF.2 hc

theorem nodeAt_noRootLike (p : DomPath) :
    ∀ (t n : DomNode) (wTag wCls : String), noRootLikeN wTag wCls t = true →
      nodeAt t p = some n → isRootLike wTag wCls n = false := by
  induction p with
  | nil =>
      intro t n wTag wCls ht hp
      rw [nodeAt_nil, Option.some.injEq] at hp
      subst hp
      cases t with
      | elem m tg a c cs =>
          simp only [noRootLikeN, Bool.and_eq_true, Bool.not_eq_true'] at ht
          exact ht.1
      | txt m s => rfl
  | cons i q ih =>
      intro t n wTag wCls ht hp
      cases t with
      | txt m s => simp [nodeAt] at hp
      | elem m tg a c cs =>
          simp only [nodeAt] at hp
          cases hc : cs.get? i with
          | none => rw [hc] at hp; exact absurd hp (by simp)
          | some ch =>
              rw [hc] at hp
              simp only [noRootLikeN, Bool.and_eq_true] at ht
              exact ih ch n wTag wCls (noRootLikeN_get? cs i ch wTag wCls ht.2 hc) hp

theorem addrOK_of_b (wTag wCls : String) (doc : DomNode)
    (h : addrOKb wTag wCls doc = true) : addrOK wTag wCls doc := by
  cases doc with
  | txt n s =>
      refine ⟨by simpa [addrOKb] using h, ?_⟩
      intro p nd hp hrl
      cases p with
      | nil => rfl
      | cons i q => simp [nodeAt] at hp
  | elem n tg a c cs =>
      simp only [addrOKb, Bool.and_eq_true, decide_eq_true_eq] at h
      refine ⟨h.1, ?_⟩
      intro p nd hp hrl
      cases p with
      | nil => rfl
      | cons i q =>
          exfalso
          simp only [nodeAt] at hp
          cases hc : cs.get? i with
          | none => rw [hc] at hp; exact absurd hp (by simp)
          | some ch =>
              rw [hc] at hp
              have := nodeAt_noRootLike q ch nd wTag wCls
                (noRootLikeN_get? cs i ch wTag wCls h.2 hc) hp
              rw [this] at hrl
              exact absurd hrl (by simp)

theorem xpath_resolve_aux (wTag wCls : String) (doc : DomNode)
    (haddr : addrOK wTag wCls doc) (p : DomPath) :
    ∀ (t : DomNode) (cur : XP) (q : DomPath) (nd : DomNode),
      getNodeFromXPath doc cur = some q → nodeAt doc q = some t →
      nodeAt t p = some nd →
      getNodeFromXPath doc (xpathFrom wTag wCls t cur p) = some (q ++ p) := by
  induction p with
  | nil =>
      intro t cur q nd hcur hq hp
      have : xpathFrom wTag wCls t cur [] = cur := by cases t <;> rfl
      rw [this]
      simpa using hcur
  | cons i p ih =>
      intro t cur q nd hcur hq hp
      cases t with
      | txt n s => simp [nodeAt] at hp
      | elem n tg a c cs =>
          simp only [nodeAt] at hp
          cases hc : cs.get? i with
          | none => rw [hc] at hp; exact absurd hp (by simp)
          | some ch =>
              rw [hc] at hp
              have hqi : nodeAt doc (q ++ [i]) = some ch := by
                rw [nodeAt_append]
                rw [hq]
                simp [nodeAt, hc]
              have hstep : getNodeFromXPath doc (childXP wTag wCls cur cs i ch)
                  = some (q ++ [i]) := by
                unfold childXP
                by_cases hid : ch.attrIdOf = ""
                · rw [if_neg (by simp [hid])]
                  by_cases hrl : isRootLike wTag wCls ch = true
                  · exact absurd (haddr.2 (q ++ [i]) ch hqi hrl) (by simp)
                  · rw [if_neg hrl]
                    cases ch with
                    | txt cn ccont =>
                        simp only [getNodeFromXPath, hcur, hq]
                        rw [textNth_countTexts cs i (.txt cn ccont) hc rfl]
                        rfl
                    | elem cn ctg ca ccl ccs =>
                        simp only [getNodeFromXPath, hcur, hq]
                        rw [elemNth_countTag cs i cn ctg ca ccl ccs hc]
                        rfl
                · rw [if_pos hid]
                  exact findIdPath_complete ch.attrIdOf doc (q ++ [i]) ch haddr.1 hqi rfl hid
              have hrec := ih ch (childXP wTag wCls cur cs i ch) (q ++ [i]) nd hstep hqi hp
              simp only [xpathFrom, hc]
              rw [hrec]
              simp

/-- Claim C3: address round-trip.  In a document satisfying the stability
conditions (`addrOK`) and whose root is identified by its id or by the
Watched-Root tag-plus-class test, resolving the freshly computed address of
any node reachable from the root, with no intervening structural change,
locates exactly the node it was computed from:
`getNodeFromXPath(doc, getXPathFromNode(node))` returns the very path the
address was computed at. -/
theorem getXPath_roundtrip (wTag wCls : String) (doc : DomNode) (p : DomPath)
    (nd : DomNode) (haddr : addrOK wTag wCls doc)
    (hroot : doc.attrIdOf ≠ "" ∨ isRootLike wTag wCls doc = true)
    (hp : nodeAt doc p = some nd) :
    getNodeFromXPath doc (getXPathFromNode wTag wCls doc p) = some p := by
  unfold getXPathFromNode
  have hcur : getNodeFromXPath doc (rootXP wTag wCls doc) = some [] := by
    unfold rootXP
    by_cases hid : doc.attrIdOf = ""
    · rcases hroot with h | h
      · exact absurd hid h
      · rw [if_neg (by simp [hid]), if_pos h]
        rfl
    · rw [if_pos hid]
      exact findIdPath_complete doc.attrIdOf doc [] doc haddr.1 (nodeAt_nil doc) rfl hid
  have hmain := xpath_resolve_aux wTag wCls doc haddr p doc (rootXP wTag wCls doc) [] nd
    hcur (nodeAt_nil doc) hp
  simpa using hmain

/-- Witness for C3 on a concrete three-node document. -/
theorem getXPath_roundtrip_witness :
    getNodeFromXPath
        (.elem 0 "main" "" "cls"
          (.cons (.txt 1 "A") (.cons (.elem 2 "p" "" "" (.cons (.txt 3 "B") .nil)) .nil)))
        (getXPathFromNode "main" "cls"
          (.elem 0 "main" "" "cls"
            (.cons (.txt 1 "A") (.cons (.elem 2 "p" "" "" (.cons (.txt 3 "B") .nil)) .nil)))
          [1, 0]) = some [1, 0] :=
  getXPath_roundtrip "main" "cls"
    (.elem 0 "main" "" "cls"
      (.cons (.txt 1 "A") (.cons (.elem 2 "p" "" "" (.cons (.txt 3 "B") .nil)) .nil)))
    [1, 0] (.txt 3 "B")
    (addrOK_of_b "main" "cls" _ (by decide))
    (Or.inr (by decide)) (by decide)

theorem xpathFrom_snoc (wTag wCls : String) (p : DomPath) :
    ∀ (t : DomNode) (cur : XP) (n : Nat) (ptg pa pc : String) (cs : DomForest)
      (i : Nat) (c : DomNode),
      nodeAt t p = some (.elem n ptg pa pc cs) → cs.get? i = some c →
      xpathFrom wTag wCls t cur (p ++ [i]) =
        childXP wTag wCls (xpathFrom wTag wCls t cur p) cs i c := by
  induction p with
  | nil =>
      intro t cur n ptg pa pc cs i c hpar hc
      rw [nodeAt_nil, Option.some.injEq] at hpar
      subst hpar
      simp [xpathFrom, hc]
  | cons j pp ih =>
      intro t cur n ptg pa pc cs i c hpar hc
      cases t with
      | txt m s => simp [nodeAt] at hpar
      | elem m tg a cl css =>
          simp only [nodeAt] at hpar
          cases hcj : css.get? j with
          | none => rw [hcj] at hpar; exact absurd hpar (by simp)
          | some ch =>
              rw [hcj] at hpar
              simp only [List.cons_append, xpathFrom, hcj]
              exact ih ch (childXP wTag wCls cur css j ch) n ptg pa pc cs i c hpar hc

/-- Claim C5: the address computation rules of `getXPathFromNode`, in the
source's priority order.  For the node `c` at child position `i` of the
parent at path `p`: a non-empty id attribute yields the absolute
identifier-based lookup; otherwise a node matching the Watched Root's
tag-plus-class test yields the document-root sentinel; otherwise a text node
yields the parent's address suffixed with a text step whose 1-based index
counts only the preceding text-node siblings; otherwise an element yields
the parent's address suffixed with its tag name and a 1-based index counting
only the preceding element siblings with the same tag name.  The root itself
is addressed by the same id and root checks. -/
theorem getXPathFromNode_priority_rules (wTag wCls : String) (t : DomNode)
    (p : DomPath) (i : Nat) (n : Nat) (ptg pa pc : String) (cs : DomForest) (c : DomNode)
    (hpar : nodeAt t p = some (.elem n ptg pa pc cs)) (hc : cs.get? i = some c) :
    (c.attrIdOf ≠ "" →
        getXPathFromNode wTag wCls t (p ++ [i]) = .byId c.attrIdOf) ∧
    (c.attrIdOf = "" → isRootLike wTag wCls c = true →
        getXPathFromNode wTag wCls t (p ++ [i]) = .body) ∧
    (c.attrIdOf = "" → isRootLike wTag wCls c = false → c.isText = true →
        getXPathFromNode wTag wCls t (p ++ [i]) =
          .textIdx (getXPathFromNode wTag wCls t p) (1 + (cs.take i).countTexts)) ∧
    (∀ cn ctg ca ccl ccs, c = .elem cn ctg ca ccl ccs → ca = "" →
        isRootLike wTag wCls c = false →
        getXPathFromNode wTag wCls t (p ++ [i]) =
          .elemIdx (getXPathFromNode wTag wCls t p) ctg (1 + (cs.take i).countTag ctg)) := by
  have hsnoc := xpathFrom_snoc wTag wCls p t (rootXP wTag wCls t) n ptg pa pc cs i c hpar hc
  refine ⟨?_, ?_, ?_, ?_⟩
  · intro hid
    unfold getXPathFromNode
    rw [hsnoc]
    unfold childXP
    rw [if_pos hid]
  · intro hid hrl
    unfold getXPathFromNode
    rw [hsnoc]
    unfold childXP
    rw [if_neg (by simp [hid]), if_pos hrl]
  · intro hid hrl htx
    unfold getXPathFromNode
    rw [hsnoc]
    unfold childXP
    rw [if_neg (by simp [hid]), if_neg (by simp [hrl])]
    cases c with
    | txt cn ccont => rfl
    | elem cn ctg ca ccl ccs => exact Bool.noConfusion htx
  · intro cn ctg ca ccl ccs hce hid hrl
    subst hce
    unfold getXPathFromNode
    rw [hsnoc]
    unfold childXP
    rw [if_neg (by simp [DomNode.attrIdOf, hid]), if_neg (by simp [hrl])]

/-- Witness for C5 instantiating the text-node rule at a concrete tree. -/
theorem getXPathFromNode_priority_rules_witness :
    getXPathFromNode "main" "cls"
        (.elem 0 "main" "" "cls"
          (.cons (.txt 1 "A") (.cons (.elem 2 "p" "" "" (.cons (.txt 3 "B") .nil)) .nil)))
        ([1] ++ [0]) =
      .textIdx
        (getXPathFromNode "main" "cls"
          (.elem 0 "main" "" "cls"
            (.cons (.txt 1 "A") (.cons (.elem 2 "p" "" "" (.cons (.txt 3 "B") .nil)) .nil)))
          [1])
        (1 + ((DomForest.cons (.txt 3 "B") .nil).take 0).countTexts) :=
  ((getXPathFromNode_priority_rules "main" "cls"
      (.elem 0 "main" "" "cls"
        (.cons (.txt 1 "A") (.cons (.elem 2 "p" "" "" (.cons (.txt 3 "B") .nil)) .nil)))
      [1] 0 2 "p" "" "" (.cons (.txt 3 "B") .nil) (.txt 3 "B")
      (by decide) (by decide)).2.2.1) (by decide) (by decide) (by decide)

/-- Adjacency discipline of the compiled log: an operation may be followed by
a `TEXT` operation only if the two differ (the source's
`JSON.stringify`-based guard on the immediately preceding emitted
operation). -/
def textDistinct (a b : TOp) : Prop := (∃ xp s, b = .text xp s) → a ≠ b

theorem chain'_pushText (log : List TOp) (op : TOp)
    (h : List.Chain' textDistinct log) : List.Chain' textDistinct (pushText log op) := by
  unfold pushText
  by_cases hl : log.getLast? = some op
  · rw [if_pos hl]; exact h
  · rw [if_neg hl]
    rw [List.chain'_append]
    refine ⟨h, List.chain'_singleton op, ?_⟩
    intro x hx y hy
    simp only [List.head?_cons, Option.mem_def, Option.some.injEq] at hy
    subst hy
    intro _ he
    subst he
    exact hl (by simpa using hx)

theorem chain'_append_nontext (log : List TOp) (op : TOp)
    (hop : ∀ xp s, op ≠ .text xp s) (h : List.Chain' textDistinct log) :
    List.Chain' textDistinct (log ++ [op]) := by
  rw [List.chain'_append]
  refine ⟨h, List.chain'_singleton op, ?_⟩
  intro x hx y hy
  simp only [List.head?_cons, Option.mem_def, Option.some.injEq] at hy
  subst hy
  rintro ⟨xp, s, he⟩
  exact absurd he (hop xp s)

theorem chain'_procRemoved (wTag wCls : String) (targetNid : Nat) (nextSib : Option Nat)
    (rm : List DomNode) :
    ∀ (t : DomNode) (log : List TOp), List.Chain' textDistinct log →
      List.Chain' textDistinct (procRemoved wTag wCls targetNid nextSib t log rm).2 := by
  induction rm with
  | nil => intro t log h; exact h
  | cons rn rest ih =>
      intro t log h
      simp only [procRemoved]
      exact ih _ _ (chain'_append_nontext log _ (by intro xp s hne; cases hne) h)

theorem chain'_procAdded (wTag wCls : String) (targetNid : Nat) (nextSib : Option Nat)
    (ad : List (Nat × DomNode)) :
    ∀ (t : DomNode) (log : List TOp), List.Chain' textDistinct log →
      List.Chain' textDistinct (procAdded wTag wCls targetNid nextSib t log ad).2 := by
  induction ad with
  | nil => intro t log h; exact h
  | cons nv rest ih =>
      intro t log h
      simp only [procAdded]
      exact ih _ _ (chain'_append_nontext log _ (by intro xp s hne; cases hne) h)

theorem chain'_procRecord (wTag wCls : String) (t : DomNode) (log : List TOp) (r : MRec)
    (h : List.Chain' textDistinct log) :
    List.Chain' textDistinct (procRecord wTag wCls t log r).2 := by
  unfold procRecord
  by_cases hcd : r.oldValue ≠ none ∧ r.charData
  · rw [if_pos hcd]
    exact chain'_procAdded wTag wCls _ _ _ _ _
      (chain'_procRemoved wTag wCls _ _ _ _ _ (chain'_pushText log _ h))
  · rw [if_neg hcd]
    exact chain'_procAdded wTag wCls _ _ _ _ _
      (chain'_procRemoved wTag wCls _ _ _ _ _ h)

theorem chain'_flushLoop (wTag wCls : String) (recs : List MRec) :
    ∀ (t : DomNode) (log : List TOp), List.Chain' textDistinct log →
      List.Chain' textDistinct (flushLoop wTag wCls t log recs).2 := by
  induction recs with
  | nil => intro t log h; exact h
  | cons r rest ih =>
      intro t log h
      simp only [flushLoop]
      exact ih _ _ (chain'_procRecord wTag wCls t log r h)

mutual
theorem findByNid_nid (n : Nat) (t : DomNode) (nd : DomNode)
    (h : findByNid n t = some nd) : nd.nid = n := by
  cases t with
  | txt m s =>
      simp only [findByNid] at h
      by_cases hm : m = n
      · rw [if_pos hm, Option.some.injEq] at h
        subst h
        exact hm
      · rw [if_neg hm] at h
        exact absurd h (by simp)
  | elem m tg a c cs =>
      simp only [findByNid] at h
      by_cases hm : m = n
      · rw [if_pos hm, Option.some.injEq] at h
        subst h
        exact hm
      · rw [if_neg hm] at h
        exact findByNidF_nid n cs nd h
theorem findByNidF_nid (n : Nat) (cs : DomForest) (nd : DomNode)
    (h : findByNidF n cs = some nd) : nd.nid = n := by
  cases cs with
  | nil => simp [findByNidF] at h
  | cons y ys =>
      simp only [findByNidF] at h
      cases hy : findByNid n y with
      | some r =>
          rw [hy, Option.some.injEq] at h
          exact h ▸ findByNid_nid n y r hy
      | none =>
          rw [hy] at h
          exact findByNidF_nid n ys nd h
end

mutual
theorem findByNid_setTextNid (n x : Nat) (v : String) (t : DomNode) :
    findByNid n (setTextNid x v t) = (findByNid n t).map (setTextNid x v) := by
  cases t with
  | txt m s =>
      by_cases hx : m = x
      · subst hx
        by_cases hm : m = n
        · subst hm
          simp [setTextNid, findByNid]
        · simp [setTextNid, findByNid, hm]
      · by_cases hm : m = n
        · subst hm
          simp [setTextNid, findByNid, hx]
        · simp [setTextNid, findByNid, hm, hx]
  | elem m tg a c cs =>
      by_cases hm : m = n
      · simp [setTextNid, findByNid, hm]
      · simp only [setTextNid, findByNid, if_neg hm]
        exact findByNidF_setTextNidF n x v cs
theorem findByNidF_setTextNidF (n x : Nat) (v : String) (cs : DomForest) :
    findByNidF n (setTextNidF x v cs) = (findByNidF n cs).map (setTextNid x v) := by
  cases cs with
  | nil => simp [setTextNidF, findByNidF]
  | cons y ys =>
      simp only [setTextNidF, findByNidF]
      rw [findByNid_setTextNid n x v y]
      cases hy : findByNid n y with
      | some r => simp
      | none =>
          simp only [Option.map_none]
          exact findByNidF_setTextNidF n x v ys
end

theorem applyScript_cons_some (t : DomNode) (e : DomEdit) (es : List DomEdit)
    (t1 : DomNode) (r : MRec) (he : applyEdit t e = some (t1, r)) :
    applyScript t (e :: es) = (applyScript t1 es).map (fun pr => (pr.1, r :: pr.2)) := by
  simp only [applyScript, he]
  cases applyScript t1 es with
  | none => rfl
  | some pr => cases pr; rfl

theorem flush_two_text_edits_aux (wTag wCls : String) (t0 : DomNode) (x : Nat)
    (v1 v2 : String) (tn : DomNode) (recs : List MRec)
    (h : applyScript t0 [.setT x v1, .setT x v2] = some (tn, recs)) :
    (flushLoop wTag wCls tn [] recs.reverse).2 =
      [.text (getXPathOfNid wTag wCls tn x) (some v2)] ∧
    textContentOfNid tn x = v2 := by
  cases hf : findByNid x t0 with
  | none =>
      rw [show applyScript t0 [DomEdit.setT x v1, DomEdit.setT x v2] = none by
        simp [applyScript, applyEdit, hf]] at h
      exact absurd h (by simp)
  | some nd =>
      cases nd with
      | elem m tg a c cs =>
          rw [show applyScript t0 [DomEdit.setT x v1, DomEdit.setT x v2] = none by
            simp [applyScript, applyEdit, hf]] at h
          exact absurd h (by simp)
      | txt m s =>
          have hm : m = x := findByNid_nid x t0 (.txt m s) hf
          subst hm
          have h1 : applyEdit t0 (.setT m v1)
              = some (setTextNid m v1 t0, ⟨true, m, some s, [], [], none⟩) := by
            simp [applyEdit, hf]
          have h2 : applyEdit (setTextNid m v1 t0) (.setT m v2)
              = some (setTextNid m v2 (setTextNid m v1 t0),
                  ⟨true, m, some v1, [], [], none⟩) := by
            simp [applyEdit, findByNid_setTextNid, hf, setTextNid]
          rw [applyScript_cons_some _ _ _ _ _ h1, applyScript_cons_some _ _ _ _ _ h2] at h
          simp only [applyScript, Option.map_some', Option.map_some, Option.some.injEq,
            Prod.mk.injEq] at h
          obtain ⟨htn, hrecs⟩ := h
          subst htn
          subst hrecs
          have htc : textContentOfNid (setTextNid m v2 (setTextNid m v1 t0)) m = v2 := by
            unfold textContentOfNid
            rw [findByNid_setTextNid, findByNid_setTextNid, hf]
            simp [setTextNid, textContent]
          refine ⟨?_, htc⟩
          simp [flushLoop, procRecord, procRemoved, procAdded, pushText, htc]

/-- Claim C4: text-operation deduplication.  Two sequential text edits on
the same node before a flush compile to exactly one `TEXT` operation
carrying the final text value; and in general the compiled log satisfies the
pushed-only-if-different discipline: no emitted `TEXT` operation equals the
operation emitted immediately before it. -/
theorem text_op_dedup :
    (∀ (wTag wCls : String) (t0 : DomNode) (x : Nat) (v1 v2 : String)
        (tn : DomNode) (recs : List MRec),
        applyScript t0 [.setT x v1, .setT x v2] = some (tn, recs) →
        (flushLoop wTag wCls tn [] recs.reverse).2 =
          [.text (getXPathOfNid wTag wCls tn x) (some v2)]) ∧
    (∀ (wTag wCls : String) (t : DomNode) (recs : List MRec),
        List.Chain' textDistinct (flushLoop wTag wCls t [] recs).2) := by
  constructor
  · intro wTag wCls t0 x v1 v2 tn recs h
    exact (flush_two_text_edits_aux wTag wCls t0 x v1 v2 tn recs h).1
  · intro wTag wCls t recs
    exact chain'_flushLoop wTag wCls recs t [] List.chain'_nil

/-- Witness for C4 collapsing two concrete edits into one operation. -/
theorem text_op_dedup_witness :
    (flushLoop "main" "cls" (.elem 0 "main" "" "cls" (.cons (.txt 1 "C") .nil)) []
        ([⟨true, 1, some "A", [], [], none⟩, ⟨true, 1, some "B", [], [], none⟩] : List MRec).reverse).2
      = [.text (getXPathOfNid "main" "cls"
            (.elem 0 "main" "" "cls" (.cons (.txt 1 "C") .nil)) 1) (some "C")] :=
  text_op_dedup.1 "main" "cls" (.elem 0 "main" "" "cls" (.cons (.txt 1 "A") .nil)) 1 "B" "C"
    (.elem 0 "main" "" "cls" (.cons (.txt 1 "C") .nil))
    [⟨true, 1, some "A", [], [], none⟩, ⟨true, 1, some "B", [], [], none⟩]
    (by decide)

/-- Identities of the immediate children of a forest. -/
def headNidsF : DomForest → List Nat
  | .nil => []
  | .cons y ys => y.nid :: headNidsF ys

theorem nid_mem_nidsOf (t : DomNode) : t.nid ∈ nidsOf t := by
  cases t with
  | elem n tg a c cs => simp [nidsOf, DomNode.nid]
  | txt n s => simp [nidsOf, DomNode.nid]

theorem mem_nidsOfF_of_headNidsF (cs : DomForest) (n : Nat)
    (h : n ∈ headNidsF cs) : n ∈ nidsOfF cs := by
  cases cs with
  | nil => simp [headNidsF] at h
  | cons y ys =>
      simp only [headNidsF, List.mem_cons] at h
      simp only [nidsOfF, List.mem_append]
      rcases h with h | h
      · exact Or.inl (h ▸ nid_mem_nidsOf y)
      · exact Or.inr (mem_nidsOfF_of_headNidsF ys n h)

theorem headNidsF_nodup (cs : DomForest) (h : (nidsOfF cs).Nodup) :
    (headNidsF cs).Nodup := by
  cases cs with
  | nil => simp [headNidsF]
  | cons y ys =>
      simp only [nidsOfF] at h
      rw [List.nodup_append] at h
      simp only [headNidsF, List.nodup_cons]
      refine ⟨?_, headNidsF_nodup ys h.2.1⟩
      intro hmem
      exact h.2.2 (nid_mem_nidsOf y) (mem_nidsOfF_of_headNidsF ys y.nid hmem)

theorem removeNidF_insChildF (cs : DomForest) (node : DomNode) (ref : Option Nat)
    (c : Nat) (hc : node.nid = c) (hfresh : c ∉ headNidsF cs) :
    removeNidF c (insChildF node ref cs) = cs := by
  cases cs with
  | nil =>
      cases ref with
      | none => simp [insChildF, DomForest.append, removeNidF, hc]
      | some r => simp [insChildF, insRefF, removeNidF, hc]
  | cons y ys =>
      simp only [headNidsF, List.mem_cons, not_or] at hfresh
      have hy : ¬ (y.nid = c) := fun he => hfresh.1 he.symm
      cases ref with
      | none =>
          simp only [insChildF, DomForest.append, removeNidF, if_neg hy]
          congr 1
          simpa [insChildF] using removeNidF_insChildF ys node none c hc hfresh.2
      | some r =>
          simp only [insChildF, insRefF]
          by_cases hr : y.nid = r
          · rw [if_pos hr]
            simp [removeNidF, hc, if_neg hy]
          · rw [if_neg hr]
            simp only [removeNidF, if_neg hy]
            congr 1
            simpa [insChildF] using removeNidF_insChildF ys node (some r) c hc hfresh.2

theorem mem_headNids_of_get? (cs : DomForest) (j : Nat) (child : DomNode)
    (hj : cs.get? j = some child) : child.nid ∈ headNidsF cs := by
  cases cs with
  | nil => simp [DomForest.get?] at hj
  | cons y ys =>
      cases j with
      | zero =>
          simp only [DomForest.get?, Option.some.injEq] at hj
          subst hj
          simp [headNidsF]
      | succ j =>
          simp only [DomForest.get?] at hj
          simp only [headNidsF, List.mem_cons]
          exact Or.inr (mem_headNids_of_get? ys j child hj)

theorem insChildF_removeNidF (cs : DomForest) (j : Nat) (child : DomNode) (c : Nat)
    (hnd : (headNidsF cs).Nodup) (hj : cs.get? j = some child) (hc : child.nid = c) :
    insChildF child ((cs.get? (j+1)).map DomNode.nid) (removeNidF c cs) = cs := by
  cases cs with
  | nil => simp [DomForest.get?] at hj
  | cons y ys =>
      simp only [headNidsF, List.nodup_cons] at hnd
      cases j with
      | zero =>
          simp only [DomForest.get?, Option.some.injEq] at hj
          rw [← hj] at hc ⊢
          rw [show removeNidF c (DomForest.cons y ys) = ys by simp [removeNidF, hc]]
          cases ys with
          | nil => simp [DomForest.get?, insChildF, DomForest.append]
          | cons z zs =>
              simp only [DomForest.get?, Option.map_some', insChildF, insRefF,
                eq_self_iff_true, if_true]
      | succ j =>
          simp only [DomForest.get?] at hj
          have hmem : c ∈ headNidsF ys := hc ▸ mem_headNids_of_get? ys j child hj
          have hyc : ¬ (y.nid = c) := fun he => hnd.1 (he ▸ hmem)
          rw [show removeNidF c (DomForest.cons y ys) = DomForest.cons y (removeNidF c ys) by
            simp [removeNidF, hyc]]
          have ih := insChildF_removeNidF ys j child c hnd.2 hj hc
          cases hns : ys.get? (j+1) with
          | none =>
              rw [hns] at ih
              have hgs : (DomForest.cons y ys).get? (j+1+1) = none := by
                simpa [DomForest.get?] using hns
              rw [hgs]
              simp only [Option.map_none', insChildF, DomForest.append] at ih ⊢
              congr 1
          | some z =>
              rw [hns] at ih
              have hgs : (DomForest.cons y ys).get? (j+1+1) = some z := by
                simpa [DomForest.get?] using hns
              rw [hgs]
              simp only [Option.map_some', insChildF] at ih ⊢
              have hzr : ¬ (y.nid = z.nid) :=
                fun he => hnd.1 (he ▸ mem_headNids_of_get? ys (j+1) z hns)
              simp only [insRefF, if_neg hzr]
              congr 1

mutual
theorem findByNid_none_of_not_mem (p : Nat) (t : DomNode)
    (h : p ∉ nidsOf t) : findByNid p t = none := by
  cases t with
  | txt m s =>
      simp only [nidsOf, List.mem_singleton] at h
      simp only [findByNid, if_neg (fun he : m = p => h he.symm)]
  | elem m tg a c cs =>
      simp only [nidsOf, List.mem_cons, not_or] at h
      simp only [findByNid, if_neg (fun he : m = p => h.1 he.symm)]
      exact findByNidF_none_of_not_mem p cs h.2
theorem findByNidF_none_of_not_mem (p : Nat) (cs : DomForest)
    (h : p ∉ nidsOfF cs) : findByNidF p cs = none := by
  cases cs with
  | nil => rfl
  | cons y ys =>
      simp only [nidsOfF, List.mem_append, not_or] at h
      simp only [findByNidF, findByNid_none_of_not_mem p y h.1]
      exact findByNidF_none_of_not_mem p ys h.2
end

mutual
theorem mem_of_findByNid_isSome (p : Nat) (t : DomNode)
    (h : (findByNid p t).isSome) : p ∈ nidsOf t := by
  cases t with
  | txt m s =>
      simp only [findByNid] at h
      by_cases hm : m = p
      · simp [nidsOf, hm]
      · rw [if_neg hm] at h
        simp at h
  | elem m tg a c cs =>
      simp only [findByNid] at h
      by_cases hm : m = p
      · simp [nidsOf, hm]
      · rw [if_neg hm] at h
        simp only [nidsOf, List.mem_cons]
        exact Or.inr (mem_of_findByNidF_isSome p cs h)
theorem mem_of_findByNidF_isSome (p : Nat) (cs : DomForest)
    (h : (findByNidF p cs).isSome) : p ∈ nidsOfF cs := by
  cases cs with
  | nil => simp [findByNidF] at h
  | cons y ys =>
      simp only [findByNidF] at h
      simp only [nidsOfF, List.mem_append]
      cases hy : findByNid p y with
      | some r => exact Or.inl (mem_of_findByNid_isSome p y (by simp [hy]))
      | none =>
          rw [hy] at h
          exact Or.inr (mem_of_findByNidF_isSome p ys h)
end

mutual
theorem insertBeforeNid_no_target (p : Nat) (node : DomNode) (ref : Option Nat)
    (t : DomNode) (h : p ∉ nidsOf t) : insertBeforeNid p node ref t = t := by
  cases t with
  | txt m s => rfl
  | elem m tg a c cs =>
      simp only [nidsOf, List.mem_cons, not_or] at h
      simp only [insertBeforeNid, if_neg (fun he : m = p => h.1 he.symm)]
      rw [insertBeforeNidF_no_target p node ref cs h.2]
theorem insertBeforeNidF_no_target (p : Nat) (node : DomNode) (ref : Option Nat)
    (cs : DomForest) (h : p ∉ nidsOfF cs) : insertBeforeNidF p node ref cs = cs := by
  cases cs with
  | nil => rfl
  | cons y ys =>
      simp only [nidsOfF, List.mem_append, not_or] at h
      simp only [insertBeforeNidF]
      rw [insertBeforeNid_no_target p node ref y h.1,
        insertBeforeNidF_no_target p node ref ys h.2]
end

mutual
theorem removeChildNid_no_target (p c : Nat) (t : DomNode)
    (h : p ∉ nidsOf t) : removeChildNid p c t = t := by
  cases t with
  | txt m s => rfl
  | elem m tg a cl cs =>
      simp only [nidsOf, List.mem_cons, not_or] at h
      simp only [removeChildNid, if_neg (fun he : m = p => h.1 he.symm)]
      rw [removeChildNidF_no_target p c cs h.2]
theorem removeChildNidF_no_target (p c : Nat) (cs : DomForest)
    (h : p ∉ nidsOfF cs) : removeChildNidF p c cs = cs := by
  cases cs with
  | nil => rfl
  | cons y ys =>
      simp only [nidsOfF, List.mem_append, not_or] at h
      simp only [removeChildNidF]
      rw [removeChildNid_no_target p c y h.1, removeChildNidF_no_target p c ys h.2]
end

mutual
theorem findByNid_isSome_of_mem (p : Nat) (t : DomNode)
    (h : p ∈ nidsOf t) : (findByNid p t).isSome := by
  cases t with
  | txt m s =>
      simp only [nidsOf, List.mem_singleton] at h
      simp [findByNid, h.symm]
  | elem m tg a c cs =>
      by_cases hm : m = p
      · simp [findByNid, hm]
      · simp only [nidsOf, List.mem_cons] at h
        rcases h with h | h
        · exact absurd h.symm hm
        · simp only [findByNid, if_neg hm]
          exact findByNidF_isSome_of_mem p cs h
theorem findByNidF_isSome_of_mem (p : Nat) (cs : DomForest)
    (h : p ∈ nidsOfF cs) : (findByNidF p cs).isSome := by
  cases cs with
  | nil => simp [nidsOfF] at h
  | cons y ys =>
      simp only [nidsOfF, List.mem_append] at h
      simp only [findByNidF]
      rcases h with h | h
      · have := findByNid_isSome_of_mem p y h
        cases hy : findByNid p y with
        | some r => simp
        | none => rw [hy] at this; simp at this
      · cases hy : findByNid p y with
        | some r => simp
        | none => exact findByNidF_isSome_of_mem p ys h
end

mutual
theorem remInsCancel (p c : Nat) (node : DomNode) (ref : Option Nat) (t : DomNode)
    (hfresh : c ∉ nidsOf t) (hc : node.nid = c) :
    removeChildNid p c (insertBeforeNid p node ref t) = t := by
  cases t with
  | txt m s => rfl
  | elem m tg a cl cs =>
      simp only [nidsOf, List.mem_cons, not_or] at hfresh
      by_cases hm : m = p
      · simp only [insertBeforeNid, if_pos hm, removeChildNid, if_pos hm]
        rw [removeNidF_insChildF cs node ref c hc
          (fun hmem => hfresh.2 (mem_nidsOfF_of_headNidsF cs c hmem))]
      · simp only [insertBeforeNid, if_neg hm, removeChildNid, if_neg hm]
        rw [remInsCancelF p c node ref cs hfresh.2 hc]
theorem remInsCancelF (p c : Nat) (node : DomNode) (ref : Option Nat) (cs : DomForest)
    (hfresh : c ∉ nidsOfF cs) (hc : node.nid = c) :
    removeChildNidF p c (insertBeforeNidF p node ref cs) = cs := by
  cases cs with
  | nil => rfl
  | cons y ys =>
      simp only [nidsOfF, List.mem_append, not_or] at hfresh
      simp only [insertBeforeNidF, removeChildNidF]
      rw [remInsCancel p c node ref y hfresh.1 hc, remInsCancelF p c node ref ys hfresh.2 hc]
end

theorem childHere_insChildF (c : Nat) (node : DomNode) (ref : Option Nat)
    (cs : DomForest) (hc : node.nid = c) : childHere c (insChildF node ref cs) = true := by
  cases cs with
  | nil =>
      cases ref with
      | none => simp [insChildF, DomForest.append, childHere, hc]
      | some r => simp [insChildF, insRefF, childHere, hc]
  | cons y ys =>
      cases ref with
      | none =>
          simp only [insChildF, DomForest.append, childHere, Bool.or_eq_true]
          exact Or.inr (by
            simpa [insChildF] using childHere_insChildF c node none ys hc)
      | some r =>
          simp only [insChildF, insRefF]
          by_cases hr : y.nid = r
          · simp [childHere, hc, hr]
          · rw [if_neg hr]
            simp only [childHere, Bool.or_eq_true]
            exact Or.inr (by
              simpa [insChildF] using childHere_insChildF c node (some r) ys hc)

mutual
theorem hasParentIn_insert (p c : Nat) (node : DomNode) (ref : Option Nat) (t : DomNode)
    (pn : Nat) (ptg pa pcl : String) (pcs : DomForest)
    (hfind : findByNid p t = some (.elem pn ptg pa pcl pcs)) (hc : node.nid = c) :
    hasParentIn c (insertBeforeNid p node ref t) = true := by
  cases t with
  | txt m s =>
      simp only [findByNid] at hfind
      by_cases hm : m = p
      · rw [if_pos hm] at hfind
        exact absurd hfind (by simp)
      · rw [if_neg hm] at hfind
        exact absurd hfind (by simp)
  | elem m tg a cl cs =>
      by_cases hm : m = p
      · simp only [insertBeforeNid, if_pos hm, hasParentIn, Bool.or_eq_true]
        exact Or.inl (childHere_insChildF c node ref cs hc)
      · simp only [findByNid, if_neg hm] at hfind
        simp only [insertBeforeNid, if_neg hm, hasParentIn, Bool.or_eq_true]
        exact Or.inr (hasParentInF_insert p c node ref cs pn ptg pa pcl pcs hfind hc)
theorem hasParentInF_insert (p c : Nat) (node : DomNode) (ref : Option Nat) (cs : DomForest)
    (pn : Nat) (ptg pa pcl : String) (pcs : DomForest)
    (hfind : findByNidF p cs = some (.elem pn ptg pa pcl pcs)) (hc : node.nid = c) :
    hasParentInF c (insertBeforeNidF p node ref cs) = true := by
  cases cs with
  | nil => simp [findByNidF] at hfind
  | cons y ys =>
      simp only [findByNidF] at hfind
      simp only [insertBeforeNidF, hasParentInF, Bool.or_eq_true]
      cases hy : findByNid p y with
      | some r =>
          rw [hy, Option.some.injEq] at hfind
          exact Or.inl (hasParentIn_insert p c node ref y pn ptg pa pcl pcs
            (hfind ▸ hy) hc)
      | none =>
          rw [hy] at hfind
          exact Or.inr (hasParentInF_insert p c node ref ys pn ptg pa pcl pcs hfind hc)
end

mutual
theorem insRemCancel (p c : Nat) (j : Nat) (child : DomNode) (t : DomNode)
    (pn : Nat) (ptg pa pcl : String) (pcs : DomForest)
    (hnd : (nidsOf t).Nodup) (hfind : findByNid p t = some (.elem pn ptg pa pcl pcs))
    (hj : pcs.get? j = some child) (hc : child.nid = c) :
    insertBeforeNid p child ((pcs.get? (j+1)).map DomNode.nid) (removeChildNid p c t)
      = t := by
  cases t with
  | txt m s =>
      simp only [findByNid] at hfind
      by_cases hm : m = p
      · rw [if_pos hm] at hfind
        exact absurd hfind (by simp)
      · rw [if_neg hm] at hfind
        exact absurd hfind (by simp)
  | elem m tg a cl cs =>
      simp only [nidsOf, List.nodup_cons] at hnd
      by_cases hm : m = p
      · simp only [findByNid, if_pos hm, Option.some.injEq] at hfind
        have hcs : cs = pcs := by
          injection hfind with h1 h2 h3 h4 h5
        subst hcs
        simp only [removeChildNid, if_pos hm, insertBeforeNid, if_pos hm]
        rw [insChildF_removeNidF cs j child c (headNidsF_nodup cs hnd.2) hj hc]
      · simp only [findByNid, if_neg hm] at hfind
        simp only [removeChildNid, if_neg hm, insertBeforeNid, if_neg hm]
        rw [insRemCancelF p c j child cs pn ptg pa pcl pcs hnd.2 hfind hj hc]
theorem insRemCancelF (p c : Nat) (j : Nat) (child : DomNode) (cs : DomForest)
    (pn : Nat) (ptg pa pcl : String) (pcs : DomForest)
    (hnd : (nidsOfF cs).Nodup) (hfind : findByNidF p cs = some (.elem pn ptg pa pcl pcs))
    (hj : pcs.get? j = some child) (hc : child.nid = c) :
    insertBeforeNidF p child ((pcs.get? (j+1)).map DomNode.nid) (removeChildNidF p c cs)
      = cs := by
  cases cs with
  | nil => simp [findByNidF] at hfind
  | cons y ys =>
      simp only [nidsOfF] at hnd
      rw [List.nodup_append] at hnd
      simp only [findByNidF] at hfind
      simp only [removeChildNidF, insertBeforeNidF]
      cases hy : findByNid p y with
      | some r =>
          rw [hy, Option.some.injEq] at hfind
          have hpy : p ∉ nidsOfF ys := by
            intro hmem
            exact hnd.2.2 (mem_of_findByNid_isSome p y (by simp [hy])) hmem
          rw [removeChildNidF_no_target p c ys hpy]
          rw [insertBeforeNidF_no_target p child _ ys hpy]
          rw [insRemCancel p c j child y pn ptg pa pcl pcs hnd.1 (hfind ▸ hy) hj hc]
      | none =>
          rw [hy] at hfind
          have hpy : p ∉ nidsOf y := by
            intro hmem
            have hs := findByNid_isSome_of_mem p y hmem
            rw [hy] at hs
            simp at hs
          rw [removeChildNid_no_target p c y hpy, insertBeforeNid_no_target p child _ y hpy]
          rw [insRemCancelF p c j child ys pn ptg pa pcl pcs hnd.2.1 hfind hj hc]
end

theorem stripText_nid (t : DomNode) : (stripText t).nid = t.nid := by
  cases t <;> rfl

theorem strip_insRefF (r : Nat) (node : DomNode) (cs : DomForest) :
    stripTextF (insRefF r node cs) = insRefF r (stripText node) (stripTextF cs) := by
  cases cs with
  | nil => rfl
  | cons y ys =>
      simp only [insRefF]
      by_cases hr : y.nid = r
      · have hr2 : (stripText y).nid = r := by rw [stripText_nid]; exact hr
        rw [if_pos hr]
        simp only [stripTextF, insRefF, if_pos hr2]
      · have hr2 : ¬ (stripText y).nid = r := by rw [stripText_nid]; exact hr
        rw [if_neg hr]
        simp only [stripTextF, insRefF, if_neg hr2]
        rw [strip_insRefF r node ys]

theorem strip_appendF (cs ds : DomForest) :
    stripTextF (cs.append ds) = (stripTextF cs).append (stripTextF ds) := by
  cases cs with
  | nil => rfl
  | cons y ys =>
      simp only [DomForest.append, stripTextF]
      rw [strip_appendF ys ds]

theorem strip_insChildF (node : DomNode) (ref : Option Nat) (cs : DomForest) :
    stripTextF (insChildF node ref cs) = insChildF (stripText node) ref (stripTextF cs) := by
  cases ref with
  | none => simp [insChildF, strip_appendF, stripTextF]
  | some r => simp [insChildF, strip_insRefF]

theorem strip_removeNidF (c : Nat) (cs : DomForest) :
    stripTextF (removeNidF c cs) = removeNidF c (stripTextF cs) := by
  cases cs with
  | nil => rfl
  | cons y ys =>
      simp only [removeNidF]
      by_cases hc : y.nid = c
      · have hc2 : (stripText y).nid = c := by rw [stripText_nid]; exact hc
        rw [if_pos hc]
        simp only [stripTextF, removeNidF, if_pos hc2]
      · have hc2 : ¬ (stripText y).nid = c := by rw [stripText_nid]; exact hc
        rw [if_neg hc]
        simp only [stripTextF, removeNidF, if_neg hc2]
        rw [strip_removeNidF c ys]

mutual
theorem strip_insertBeforeNid (p : Nat) (node : DomNode) (ref : Option Nat) (t : DomNode) :
    stripText (insertBeforeNid p node ref t) =
      insertBeforeNid p (stripText node) ref (stripText t) := by
  cases t with
  | txt m s => rfl
  | elem m tg a cl cs =>
      by_cases hm : m = p
      · simp only [insertBeforeNid, if_pos hm, stripText, strip_insChildF]
      · simp only [insertBeforeNid, if_neg hm, stripText]
        rw [strip_insertBeforeNidF p node ref cs]
theorem strip_insertBeforeNidF (p : Nat) (node : DomNode) (ref : Option Nat)
    (cs : DomForest) :
    stripTextF (insertBeforeNidF p node ref cs) =
      insertBeforeNidF p (stripText node) ref (stripTextF cs) := by
  cases cs with
  | nil => rfl
  | cons y ys =>
      simp only [insertBeforeNidF, stripTextF]
      rw [strip_insertBeforeNid p node ref y, strip_insertBeforeNidF p node ref ys]
end

mutual
theorem strip_removeChildNid (p c : Nat) (t : DomNode) :
    stripText (removeChildNid p c t) = removeChildNid p c (stripText t) := by
  cases t with
  | txt m s => rfl
  | elem m tg a cl cs =>
      by_cases hm : m = p
      · simp only [removeChildNid, if_pos hm, stripText, strip_removeNidF]
      · simp only [removeChildNid, if_neg hm, stripText]
        rw [strip_removeChildNidF p c cs]
theorem strip_removeChildNidF (p c : Nat) (cs : DomForest) :
    stripTextF (removeChildNidF p c cs) = removeChildNidF p c (stripTextF cs) := by
  cases cs with
  | nil => rfl
  | cons y ys =>
      simp only [removeChildNidF, stripTextF]
      rw [strip_removeChildNid p c y, strip_removeChildNidF p c ys]
end

theorem childHere_strip (c : Nat) (cs : DomForest) :
    childHere c (stripTextF cs) = childHere c cs := by
  cases cs with
  | nil => rfl
  | cons y ys =>
      simp only [stripTextF, childHere, stripText_nid]
      rw [childHere_strip c ys]

mutual
theorem hasParentIn_strip (c : Nat) (t : DomNode) :
    hasParentIn c (stripText t) = hasParentIn c t := by
  cases t with
  | txt m s => rfl
  | elem m tg a cl cs =>
      simp only [stripText, hasParentIn, childHere_strip]
      rw [hasParentInF_strip c cs]
theorem hasParentInF_strip (c : Nat) (cs : DomForest) :
    hasParentInF c (stripTextF cs) = hasParentInF c cs := by
  cases cs with
  | nil => rfl
  | cons y ys =>
      simp only [stripTextF, hasParentInF]
      rw [hasParentIn_strip c y, hasParentInF_strip c ys]
end

mutual
theorem strip_setTextNid (x : Nat) (v : String) (t : DomNode) :
    stripText (setTextNid x v t) = stripText t := by
  cases t with
  | txt m s =>
      simp only [setTextNid]
      by_cases hx : m = x
      · rw [if_pos hx]
        rfl
      · rw [if_neg hx]
  | elem m tg a cl cs =>
      simp only [setTextNid, stripText]
      rw [strip_setTextNidF x v cs]
theorem strip_setTextNidF (x : Nat) (v : String) (cs : DomForest) :
    stripTextF (setTextNidF x v cs) = stripTextF cs := by
  cases cs with
  | nil => rfl
  | cons y ys =>
      simp only [setTextNidF, stripTextF]
      rw [strip_setTextNid x v y, strip_setTextNidF x v ys]
end

theorem procRemoved_fst (wTag wCls : String) (tn : Nat) (sib : Option Nat)
    (rm : List DomNode) :
    ∀ (t : DomNode) (lu lv : List TOp),
      (procRemoved wTag wCls tn sib t lu rm).1 = (procRemoved wTag wCls tn sib t lv rm).1 := by
  induction rm with
  | nil => intro t lu lv; rfl
  | cons rn rest ih =>
      intro t lu lv
      simp only [procRemoved]
      exact ih _ _ _

theorem procAdded_fst (wTag wCls : String) (tn : Nat) (sib : Option Nat)
    (ad : List (Nat × DomNode)) :
    ∀ (t : DomNode) (lu lv : List TOp),
      (procAdded wTag wCls tn sib t lu ad).1 = (procAdded wTag wCls tn sib t lv ad).1 := by
  induction ad with
  | nil => intro t lu lv; rfl
  | cons nv rest ih =>
      intro t lu lv
      simp only [procAdded]
      exact ih _ _ _

theorem procRecord_fst (wTag wCls : String) (t : DomNode) (log : List TOp) (r : MRec) :
    (procRecord wTag wCls t log r).1 =
      (procAdded wTag wCls r.targetNid r.nextSibNid
        (procRemoved wTag wCls r.targetNid r.nextSibNid t [] r.removed.reverse).1 []
        r.added.reverse).1 := by
  unfold procRecord
  rw [procAdded_fst wTag wCls r.targetNid r.nextSibNid r.added.reverse _ _ []]
  rw [procRemoved_fst wTag wCls r.targetNid r.nextSibNid r.removed.reverse t _ []]

theorem procRemoved_tree_strip (wTag wCls : String) (tn : Nat) (sib : Option Nat)
    (rm : List DomNode) :
    ∀ (u v : DomNode) (lu lv : List TOp), stripText u = stripText v →
      stripText (procRemoved wTag wCls tn sib u lu rm).1 =
        stripText (procRemoved wTag wCls tn sib v lv rm).1 := by
  induction rm with
  | nil => intro u v lu lv h; exact h
  | cons rn rest ih =>
      intro u v lu lv h
      simp only [procRemoved]
      exact ih _ _ _ _ (by rw [strip_insertBeforeNid, strip_insertBeforeNid, h])

theorem procAdded_tree_strip (wTag wCls : String) (tn : Nat) (sib : Option Nat)
    (ad : List (Nat × DomNode)) :
    ∀ (u v : DomNode) (lu lv : List TOp), stripText u = stripText v →
      stripText (procAdded wTag wCls tn sib u lu ad).1 =
        stripText (procAdded wTag wCls tn sib v lv ad).1 := by
  induction ad with
  | nil => intro u v lu lv h; exact h
  | cons nv rest ih =>
      intro u v lu lv h
      simp only [procAdded]
      have hpar : hasParentIn nv.1 u = hasParentIn nv.1 v := by
        rw [← hasParentIn_strip nv.1 u, ← hasParentIn_strip nv.1 v, h]
      apply ih
      by_cases hp : hasParentIn nv.1 u = true
      · rw [if_pos hp, if_pos (hpar ▸ hp)]
        rw [strip_removeChildNid, strip_removeChildNid, h]
      · rw [if_neg hp, if_neg (fun hv => hp (hpar ▸ hv))]
        exact h

theorem procRecord_tree_strip (wTag wCls : String) (r : MRec) (u v : DomNode)
    (lu lv : List TOp) (h : stripText u = stripText v) :
    stripText (procRecord wTag wCls u lu r).1 = stripText (procRecord wTag wCls v lv r).1 := by
  rw [procRecord_fst, procRecord_fst]
  exact procAdded_tree_strip wTag wCls r.targetNid r.nextSibNid r.added.reverse _ _ _ _
    (procRemoved_tree_strip wTag wCls r.targetNid r.nextSibNid r.removed.reverse u v [] [] h)

theorem flushLoop_tree_strip (wTag wCls : String) (recs : List MRec) :
    ∀ (u v : DomNode) (lu lv : List TOp), stripText u = stripText v →
      stripText (flushLoop wTag wCls u lu recs).1 =
        stripText (flushLoop wTag wCls v lv recs).1 := by
  induction recs with
  | nil => intro u v lu lv h; exact h
  | cons r rest ih =>
      intro u v lu lv h
      simp only [flushLoop]
      exact ih _ _ _ _ (procRecord_tree_strip wTag wCls r u v lu lv h)

mutual
theorem nidsOf_setTextNid (x : Nat) (v : String) (t : DomNode) :
    nidsOf (setTextNid x v t) = nidsOf t := by
  cases t with
  | txt m s =>
      simp only [setTextNid]
      by_cases hx : m = x
      · rw [if_pos hx]
        rfl
      · rw [if_neg hx]
  | elem m tg a cl cs =>
      simp only [setTextNid, nidsOf]
      rw [nidsOfF_setTextNidF x v cs]
theorem nidsOfF_setTextNidF (x : Nat) (v : String) (cs : DomForest) :
    nidsOfF (setTextNidF x v cs) = nidsOfF cs := by
  cases cs with
  | nil => rfl
  | cons y ys =>
      simp only [setTextNidF, nidsOfF]
      rw [nidsOf_setTextNid x v y, nidsOfF_setTextNidF x v ys]
end

theorem nidsOfF_removeNidF_sublist (c : Nat) (cs : DomForest) :
    (nidsOfF (removeNidF c cs)).Sublist (nidsOfF cs) := by
  cases cs with
  | nil => exact List.Sublist.refl _
  | cons y ys =>
      simp only [removeNidF]
      by_cases hc : y.nid = c
      · rw [if_pos hc]
        simp only [nidsOfF]
        exact List.sublist_append_right _ _
      · rw [if_neg hc]
        simp only [nidsOfF]
        exact List.Sublist.append (List.Sublist.refl _) (nidsOfF_removeNidF_sublist c ys)

mutual
theorem nidsOf_removeChildNid_sublist (p c : Nat) (t : DomNode) :
    (nidsOf (removeChildNid p c t)).Sublist (nidsOf t) := by
  cases t with
  | txt m s => exact List.Sublist.refl _
  | elem m tg a cl cs =>
      by_cases hm : m = p
      · simp only [removeChildNid, if_pos hm, nidsOf]
        exact List.Sublist.cons₂ m (nidsOfF_removeNidF_sublist c cs)
      · simp only [removeChildNid, if_neg hm, nidsOf]
        exact List.Sublist.cons₂ m (nidsOfF_removeChildNidF_sublist p c cs)
theorem nidsOfF_removeChildNidF_sublist (p c : Nat) (cs : DomForest) :
    (nidsOfF (removeChildNidF p c cs)).Sublist (nidsOfF cs) := by
  cases cs with
  | nil => exact List.Sublist.refl _
  | cons y ys =>
      simp only [removeChildNidF, nidsOfF]
      exact List.Sublist.append (nidsOf_removeChildNid_sublist p c y)
        (nidsOfF_removeChildNidF_sublist p c ys)
end

theorem nidsOfF_appendF (cs ds : DomForest) :
    nidsOfF (cs.append ds) = nidsOfF cs ++ nidsOfF ds := by
  cases cs with
  | nil => rfl
  | cons y ys =>
      simp only [DomForest.append, nidsOfF, nidsOfF_appendF ys ds, List.append_assoc]

theorem nidsOfF_insRefF_perm (r : Nat) (node : DomNode) (cs : DomForest) :
    (nidsOfF (insRefF r node cs)).Perm (nidsOf node ++ nidsOfF cs) := by
  cases cs with
  | nil =>
      simp only [insRefF, nidsOfF]
      exact List.Perm.refl _
  | cons y ys =>
      simp only [insRefF]
      by_cases hr : y.nid = r
      · rw [if_pos hr]
        simp only [nidsOfF]
        exact List.Perm.refl _
      · rw [if_neg hr]
        simp only [nidsOfF]
        refine (List.Perm.append_left _ (nidsOfF_insRefF_perm r node ys)).trans ?_
        rw [← List.append_assoc, ← List.append_assoc]
        exact List.Perm.append_right _ List.perm_append_comm

theorem nidsOfF_insChildF_perm (node : DomNode) (ref : Option Nat) (cs : DomForest) :
    (nidsOfF (insChildF node ref cs)).Perm (nidsOf node ++ nidsOfF cs) := by
  cases ref with
  | none =>
      simp only [insChildF, nidsOfF_appendF]
      simp only [nidsOfF, List.append_nil]
      exact List.perm_append_comm
  | some r => exact nidsOfF_insRefF_perm r node cs

mutual
theorem nidsOf_insert_perm (p : Nat) (node : DomNode) (ref : Option Nat) (t : DomNode)
    (pn : Nat) (ptg pa pcl : String) (pcs : DomForest)
    (hnd : (nidsOf t).Nodup) (hfind : findByNid p t = some (.elem pn ptg pa pcl pcs)) :
    (nidsOf (insertBeforeNid p node ref t)).Perm (nidsOf node ++ nidsOf t) := by
  cases t with
  | txt m s =>
      simp only [findByNid] at hfind
      by_cases hm : m = p
      · rw [if_pos hm] at hfind; exact absurd hfind (by simp)
      · rw [if_neg hm] at hfind; exact absurd hfind (by simp)
  | elem m tg a cl cs =>
      simp only [nidsOf, List.nodup_cons] at hnd
      by_cases hm : m = p
      · simp only [insertBeforeNid, if_pos hm, nidsOf]
        exact (List.Perm.cons m (nidsOfF_insChildF_perm node ref cs)).trans
          List.perm_middle.symm
      · simp only [findByNid, if_neg hm] at hfind
        simp only [insertBeforeNid, if_neg hm, nidsOf]
        exact (List.Perm.cons m
          (nidsOfF_insert_perm p node ref cs pn ptg pa pcl pcs hnd.2 hfind)).trans
          List.perm_middle.symm
theorem nidsOfF_insert_perm (p : Nat) (node : DomNode) (ref : Option Nat) (cs : DomForest)
    (pn : Nat) (ptg pa pcl : String) (pcs : DomForest)
    (hnd : (nidsOfF cs).Nodup) (hfind : findByNidF p cs = some (.elem pn ptg pa pcl pcs)) :
    (nidsOfF (insertBeforeNidF p node ref cs)).Perm (nidsOf node ++ nidsOfF cs) := by
  cases cs with
  | nil => simp [findByNidF] at hfind
  | cons y ys =>
      simp only [nidsOfF] at hnd
      rw [List.nodup_append] at hnd
      simp only [findByNidF] at hfind
      simp only [insertBeforeNidF, nidsOfF]
      cases hy : findByNid p y with
      | some r =>
          rw [hy, Option.some.injEq] at hfind
          have hpy : p ∉ nidsOfF ys := by
            intro hmem
            exact hnd.2.2 (mem_of_findByNid_isSome p y (by simp [hy])) hmem
          rw [insertBeforeNidF_no_target p node ref ys hpy]
          refine (List.Perm.append_right _
            (nidsOf_insert_perm p node ref y pn ptg pa pcl pcs hnd.1 (hfind ▸ hy))).trans ?_
          rw [List.append_assoc]
      | none =>
          rw [hy] at hfind
          have hpy : p ∉ nidsOf y := by
            intro hmem
            have hs := findByNid_isSome_of_mem p y hmem
            rw [hy] at hs
            simp at hs
          rw [insertBeforeNid_no_target p node ref y hpy]
          refine (List.Perm.append_left _
            (nidsOfF_insert_perm p node ref ys pn ptg pa pcl pcs hnd.2.1 hfind)).trans ?_
          rw [← List.append_assoc, ← List.append_assoc]
          exact List.Perm.append_right _ List.perm_append_comm
end

theorem childrenOfNid_inv (t : DomNode) (p : Nat) (cs : DomForest)
    (h : childrenOfNid t p = some cs) :
    ∃ ptg pa pcl, findByNid p t = some (.elem p ptg pa pcl cs) := by
  unfold childrenOfNid at h
  cases hf : findByNid p t with
  | none => rw [hf] at h; exact absurd h (by simp)
  | some nd =>
      rw [hf] at h
      cases nd with
      | txt m s => exact absurd h (by simp)
      | elem m tg a cl cs2 =>
          simp only [Option.some.injEq] at h
          subst h
          have hmp := findByNid_nid p t _ hf
          simp only [DomNode.nid] at hmp
          subst hmp
          exact ⟨tg, a, cl, rfl⟩

theorem idxOfNidF_spec (c : Nat) (cs : DomForest) (j : Nat)
    (h : idxOfNidF c cs = some j) :
    ∃ child, cs.get? j = some child ∧ child.nid = c := by
  cases cs with
  | nil => simp [idxOfNidF] at h
  | cons y ys =>
      simp only [idxOfNidF] at h
      by_cases hy : y.nid = c
      · rw [if_pos hy, Option.some.injEq] at h
        subst h
        exact ⟨y, rfl, hy⟩
      · rw [if_neg hy] at h
        cases hr : idxOfNidF c ys with
        | none => rw [hr] at h; exact absurd h (by simp)
        | some j2 =>
            rw [hr] at h
            simp only [Option.map_some', Option.some.injEq] at h
            subst h
            obtain ⟨child, hc1, hc2⟩ := idxOfNidF_spec c ys j2 hr
            exact ⟨child, by simpa [DomForest.get?] using hc1, hc2⟩

theorem applyEdit_insB_inv (t : DomNode) (p : Nat) (node : DomNode) (ref : Option Nat)
    (t1 : DomNode) (r : MRec) (h : applyEdit t (.insB p node ref) = some (t1, r)) :
    t1 = insertBeforeNid p node ref t ∧
    r = ⟨false, p, none, [(node.nid, node)], [], ref⟩ ∧
    (∃ cs, childrenOfNid t p = some cs ∧ refOkB cs ref = true) ∧
    (∀ n ∈ nidsOf node, n ∉ nidsOf t) ∧ (nidsOf node).Nodup := by
  simp only [applyEdit] at h
  split at h
  · exact absurd h (by simp)
  · rename_i cs hc
    split at h
    · rename_i hcond
      simp only [Option.some.injEq, Prod.mk.injEq] at h
      simp only [Bool.and_eq_true, List.all_eq_true, decide_eq_true_eq] at hcond
      refine ⟨h.1.symm, h.2.symm, ⟨cs, hc, hcond.2⟩, ?_, hcond.1.2⟩
      intro n hn hmem
      have hx := hcond.1.1 n hn
      simp only [Bool.not_eq_true', decide_eq_false_iff_not] at hx
      exact hx hmem
    · exact absurd h (by simp)

theorem applyEdit_remC_inv (t : DomNode) (p c : Nat) (t1 : DomNode) (r : MRec)
    (h : applyEdit t (.remC p c) = some (t1, r)) :
    ∃ cs j child, childrenOfNid t p = some cs ∧ cs.get? j = some child ∧
      child.nid = c ∧ t1 = removeChildNid p c t ∧
      r = ⟨false, p, none, [], [child], (cs.get? (j+1)).map DomNode.nid⟩ := by
  simp only [applyEdit] at h
  split at h
  · exact absurd h (by simp)
  · rename_i cs hc
    split at h
    · exact absurd h (by simp)
    · rename_i j hj
      obtain ⟨child, hch, hcn⟩ := idxOfNidF_spec c cs j hj
      split at h
      · rename_i hch2
        rw [hch2] at hch
        exact absurd hch (by simp)
      · rename_i child2 hch2
        rw [hch2, Option.some.injEq] at hch
        simp only [Option.some.injEq, Prod.mk.injEq] at h
        exact ⟨cs, j, child2, hc, hch2, hch.symm ▸ hcn, h.1.symm, h.2.symm⟩

theorem applyEdit_setT_inv (t : DomNode) (x : Nat) (v : String) (t1 : DomNode) (r : MRec)
    (h : applyEdit t (.setT x v) = some (t1, r)) :
    ∃ m s, findByNid x t = some (.txt m s) ∧ t1 = setTextNid x v t ∧
      r = ⟨true, x, some s, [], [], none⟩ := by
  simp only [applyEdit] at h
  split at h
  · rename_i m s hf
    simp only [Option.some.injEq, Prod.mk.injEq] at h
    exact ⟨m, s, hf, h.1.symm, h.2.symm⟩
  · exact absurd h (by simp)

theorem applyEdit_nodup (t : DomNode) (e : DomEdit) (t1 : DomNode) (r : MRec)
    (hnd : (nidsOf t).Nodup) (h : applyEdit t e = some (t1, r)) :
    (nidsOf t1).Nodup := by
  cases e with
  | insB p node ref =>
      obtain ⟨ht1, _, ⟨cs, hcs, _⟩, hfresh, hndn⟩ := applyEdit_insB_inv t p node ref t1 r h
      obtain ⟨ptg, pa, pcl, hfind⟩ := childrenOfNid_inv t p cs hcs
      subst ht1
      have hperm := nidsOf_insert_perm p node ref t p ptg pa pcl cs hnd hfind
      rw [hperm.nodup_iff]
      rw [List.nodup_append]
      exact ⟨hndn, hnd, fun a ha hb => hfresh a ha hb⟩
  | remC p c =>
      obtain ⟨cs, j, child, _, _, _, ht1, _⟩ := applyEdit_remC_inv t p c t1 r h
      subst ht1
      exact (nidsOf_removeChildNid_sublist p c t).nodup hnd
  | setT x v =>
      obtain ⟨m, s, _, ht1, _⟩ := applyEdit_setT_inv t x v t1 r h
      subst ht1
      rw [nidsOf_setTextNid]
      exact hnd

theorem applyScript_nodup (script : List DomEdit) :
    ∀ (t0 tn : DomNode) (recs : List MRec), (nidsOf t0).Nodup →
      applyScript t0 script = some (tn, recs) → (nidsOf tn).Nodup := by
  induction script with
  | nil =>
      intro t0 tn recs hnd h
      simp only [applyScript, Option.some.injEq, Prod.mk.injEq] at h
      exact h.1 ▸ hnd
  | cons e es ih =>
      intro t0 tn recs hnd h
      cases he : applyEdit t0 e with
      | none =>
          rw [show applyScript t0 (e :: es) = none by simp [applyScript, he]] at h
          exact absurd h (by simp)
      | some pr =>
          obtain ⟨t1, r⟩ := pr
          rw [applyScript_cons_some t0 e es t1 r he] at h
          cases hs : applyScript t1 es with
          | none => rw [hs] at h; exact absurd h (by simp)
          | some pr2 =>
              rw [hs] at h
              simp only [Option.map_some', Option.some.injEq, Prod.ext_iff] at h
              exact h.1 ▸ ih t1 pr2.1 pr2.2 (applyEdit_nodup t0 e t1 r hnd he)
                (by simp [hs])

theorem applyScript_append (s1 s2 : List DomEdit) :
    ∀ (t : DomNode), applyScript t (s1 ++ s2) =
      (applyScript t s1).bind (fun p =>
        (applyScript p.1 s2).map (fun q => (q.1, p.2 ++ q.2))) := by
  induction s1 with
  | nil =>
      intro t
      rw [List.nil_append]
      rw [show applyScript t [] = some (t, []) from rfl]
      rw [Option.some_bind]
      cases applyScript t s2 with
      | none => rfl
      | some pr => cases pr; rfl
  | cons e es ih =>
      intro t
      rw [List.cons_append]
      cases he : applyEdit t e with
      | none =>
          rw [show applyScript t (e :: (es ++ s2)) = none by simp [applyScript, he]]
          rw [show applyScript t (e :: es) = none by simp [applyScript, he]]
          rfl
      | some pr =>
          obtain ⟨t1, r⟩ := pr
          rw [applyScript_cons_some t e (es ++ s2) t1 r he,
              applyScript_cons_some t e es t1 r he]
          rw [ih t1]
          cases applyScript t1 es with
          | none => rfl
          | some pr2 =>
              simp only [Option.some_bind, Option.map_some', Option.map_bind']
              cases applyScript pr2.1 s2 with
              | none => rfl
              | some pr3 => simp

theorem flush_rollback_aux (wTag wCls : String) (script : List DomEdit) :
    ∀ (t0 tn : DomNode) (recs : List MRec),
      (nidsOf t0).Nodup → applyScript t0 script = some (tn, recs) →
      ∀ log, stripText (flushLoop wTag wCls tn log recs.reverse).1 = stripText t0 := by
  induction script using List.reverseRecOn with
  | nil =>
      intro t0 tn recs hnd h log
      simp only [applyScript, Option.some.injEq, Prod.mk.injEq] at h
      obtain ⟨h1, h2⟩ := h
      subst h1
      subst h2
      rfl
  | append_singleton es e ih =>
      intro t0 tn recs hnd h log
      rw [applyScript_append es [e] t0] at h
      cases hs : applyScript t0 es with
      | none => rw [hs] at h; exact absurd h (by simp)
      | some pr =>
          obtain ⟨t1, recs1⟩ := pr
          rw [hs] at h
          rw [Option.some_bind] at h
          have hnd1 : (nidsOf t1).Nodup := applyScript_nodup es t0 t1 recs1 hnd hs
          cases he : applyEdit t1 e with
          | none =>
              rw [show applyScript t1 [e] = none by simp [applyScript, he]] at h
              exact absurd h (by simp)
          | some pr2 =>
              obtain ⟨t2, re⟩ := pr2
              rw [show applyScript t1 [e] = some (t2, [re]) by simp [applyScript, he]] at h
              simp only [Option.map_some', Option.some.injEq, Prod.mk.injEq] at h
              obtain ⟨htn, hrecs⟩ := h
              subst htn
              subst hrecs
              rw [show (recs1 ++ [re]).reverse = re :: recs1.reverse by simp]
              simp only [flushLoop]
              cases e with
              | setT x v =>
                  obtain ⟨m, s, hf, ht2, hre⟩ := applyEdit_setT_inv t1 x v t2 re he
                  have htree : (procRecord wTag wCls t2 log re).1 = t2 := by
                    rw [procRecord_fst, hre]
                    rfl
                  rw [flushLoop_tree_strip wTag wCls recs1.reverse
                    (procRecord wTag wCls t2 log re).1 t1
                    (procRecord wTag wCls t2 log re).2 log
                    (by rw [htree, ht2]; exact strip_setTextNid x v t1)]
                  exact ih t0 t1 recs1 hnd hs log
              | insB p node ref =>
                  obtain ⟨ht2, hre, ⟨cs, hcs, href⟩, hfresh, hndn⟩ :=
                    applyEdit_insB_inv t1 p node ref t2 re he
                  obtain ⟨ptg, pa, pcl, hfind⟩ := childrenOfNid_inv t1 p cs hcs
                  have hfreshn : node.nid ∉ nidsOf t1 := hfresh node.nid (nid_mem_nidsOf node)
                  have htree : (procRecord wTag wCls t2 log re).1 = t1 := by
                    rw [procRecord_fst, hre]
                    simp only [List.reverse_nil, procRemoved, List.reverse_cons,
                      List.nil_append, procAdded]
                    rw [ht2]
                    rw [if_pos (hasParentIn_insert p node.nid node ref t1 p ptg pa pcl cs
                      hfind rfl)]
                    exact remInsCancel p node.nid node ref t1 hfreshn rfl
                  rw [flushLoop_tree_strip wTag wCls recs1.reverse
                    (procRecord wTag wCls t2 log re).1 t1
                    (procRecord wTag wCls t2 log re).2 log (by rw [htree])]
                  exact ih t0 t1 recs1 hnd hs log
              | remC p c =>
                  obtain ⟨cs, j, child, hcs, hj, hcn, ht2, hre⟩ :=
                    applyEdit_remC_inv t1 p c t2 re he
                  obtain ⟨ptg, pa, pcl, hfind⟩ := childrenOfNid_inv t1 p cs hcs
                  have htree : (procRecord wTag wCls t2 log re).1 = t1 := by
                    rw [procRecord_fst, hre]
                    simp only [List.reverse_nil, procRemoved, List.reverse_cons,
                      List.nil_append, procAdded]
                    rw [ht2]
                    exact insRemCancel p c j child t1 p ptg pa pcl cs hnd1 hfind hj hcn
                  rw [flushLoop_tree_strip wTag wCls recs1.reverse
                    (procRecord wTag wCls t2 log re).1 t1
                    (procRecord wTag wCls t2 log re).2 log (by rw [htree])]
                  exact ih t0 t1 recs1 hnd hs log

/-- Claim C1, counterexample: on the batch produced by a single
character-data edit (text "A" changed to "B"), `FlushQueue` leaves the
watched tree with the post-mutation text "B" - the rollback of text content
(`mutation.target.textContent = mutation.oldValue`) is commented out in the
source, so the watched root's text content is not identical to its
pre-mutation state after the pass. -/
theorem flushQueue_text_not_rolled_back :
    applyScript (.elem 0 "main" "" "cls" (.cons (.txt 1 "A") .nil)) [.setT 1 "B"]
      = some (.elem 0 "main" "" "cls" (.cons (.txt 1 "B") .nil),
          [⟨true, 1, some "A", [], [], none⟩]) ∧
    (FlushQueue "main" "cls" ⟨[⟨true, 1, some "A", [], [], none⟩], [], true, true⟩
        (.elem 0 "main" "" "cls" (.cons (.txt 1 "B") .nil))
        (.elem 0 "main" "" "cls" (.cons (.txt 1 "A") .nil))).tree
      = .elem 0 "main" "" "cls" (.cons (.txt 1 "B") .nil) ∧
    (DomNode.elem 0 "main" "" "cls" (.cons (.txt 1 "B") .nil))
      ≠ .elem 0 "main" "" "cls" (.cons (.txt 1 "A") .nil) := by
  refine ⟨by decide, by decide, by decide⟩

/-- Claim C1, amended: for every batch of DOM mutations recorded on the
Watched Root, after the compiler pass in `FlushQueue` runs the Watched
Root's structure is identical to its pre-mutation state - every node
insertion and removal is rolled back exactly - while character-data changes
are not rolled back, so the watched tree is the pre-mutation tree up to text
content (`stripText`). -/
theorem flushQueue_rollback_structure (wTag wCls : String) (t0 tn : DomNode)
    (recs : List MRec) (s : DaemonState) (m : DomNode) (script : List DomEdit)
    (hnd : (nidsOf t0).Nodup) (h : applyScript t0 script = some (tn, recs))
    (hq : s.queue ++ s.obsPending = recs) :
    stripText (FlushQueue wTag wCls s tn m).tree = stripText t0 := by
  unfold FlushQueue
  rw [hq]
  by_cases he : recs.isEmpty
  · rw [if_pos he]
    rw [List.isEmpty_iff] at he
    subst he
    have := flush_rollback_aux wTag wCls script t0 tn [] hnd h []
    simpa [flushLoop] using this
  · rw [if_neg he]
    have haux := flush_rollback_aux wTag wCls script t0 tn recs hnd h []
    cases hsync : SyncToMirror m (flushLoop wTag wCls tn [] recs.reverse).2 with
    | error e =>
        simp only [hsync]
        exact haux
    | ok m1 =>
        simp only [hsync]
        exact haux

/-- Witness for the amended C1 on a concrete removal batch. -/
theorem flushQueue_rollback_structure_witness :
    stripText (FlushQueue "main" "cls"
        ⟨[⟨false, 0, none, [], [.txt 1 "A"], some 2⟩], [], true, true⟩
        (.elem 0 "main" "" "cls" (.cons (.elem 2 "p" "" "" .nil) .nil))
        (.elem 0 "main" "" "cls"
          (.cons (.txt 1 "A") (.cons (.elem 2 "p" "" "" .nil) .nil)))).tree
      = stripText (.elem 0 "main" "" "cls"
          (.cons (.txt 1 "A") (.cons (.elem 2 "p" "" "" .nil) .nil))) :=
  flushQueue_rollback_structure "main" "cls"
    (.elem 0 "main" "" "cls" (.cons (.txt 1 "A") (.cons (.elem 2 "p" "" "" .nil) .nil)))
    (.elem 0 "main" "" "cls" (.cons (.elem 2 "p" "" "" .nil) .nil))
    [⟨false, 0, none, [], [.txt 1 "A"], some 2⟩]
    ⟨[⟨false, 0, none, [], [.txt 1 "A"], some 2⟩], [], true, true⟩
    (.elem 0 "main" "" "cls" (.cons (.txt 1 "A") (.cons (.elem 2 "p" "" "" .nil) .nil)))
    [.remC 0 1] (by decide) (by decide) (by decide)

/- ===== Replay equivalence (C2): node-identity / path coherence ===== -/

theorem mem_nidsOfF_of_get? (cs : DomForest) (j : Nat) (ch : DomNode) (x : Nat)
    (hj : cs.get? j = some ch) (hx : x ∈ nidsOf ch) : x ∈ nidsOfF cs := by
  cases cs with
  | nil => simp [DomForest.get?] at hj
  | cons y ys =>
      simp only [nidsOfF, List.mem_append]
      cases j with
      | zero =>
          simp only [DomForest.get?, Option.some.injEq] at hj
          exact Or.inl (hj ▸ hx)
      | succ j =>
          simp only [DomForest.get?] at hj
          exact Or.inr (mem_nidsOfF_of_get? ys j ch x hj hx)

theorem mem_nidsOf_of_nodeAt (q : DomPath) :
    ∀ (t nd : DomNode) (x : Nat), nodeAt t q = some nd → x ∈ nidsOf nd →
      x ∈ nidsOf t := by
  induction q with
  | nil =>
      intro t nd x hq hx
      rw [nodeAt_nil, Option.some.injEq] at hq
      exact hq ▸ hx
  | cons i p ih =>
      intro t nd x hq hx
      cases t with
      | txt m s => simp [nodeAt] at hq
      | elem m tg a c cs =>
          simp only [nodeAt] at hq
          cases hc : cs.get? i with
          | none => rw [hc] at hq; exact absurd hq (by simp)
          | some ch =>
              rw [hc] at hq
              simp only [nidsOf, List.mem_cons]
              exact Or.inr (mem_nidsOfF_of_get? cs i ch x hc (ih ch nd x hq hx))

theorem nodupF_get? (cs : DomForest) (j : Nat) (ch : DomNode)
    (hnd : (nidsOfF cs).Nodup) (hj : cs.get? j = some ch) : (nidsOf ch).Nodup := by
  cases cs with
  | nil => simp [DomForest.get?] at hj
  | cons y ys =>
      simp only [nidsOfF] at hnd
      rw [List.nodup_append] at hnd
      cases j with
      | zero =>
          simp only [DomForest.get?, Option.some.injEq] at hj
          exact hj ▸ hnd.1
      | succ j =>
          simp only [DomForest.get?] at hj
          exact nodupF_get? ys j ch hnd.2.1 hj

theorem nodup_nodeAt (q : DomPath) :
    ∀ (t nd : DomNode), (nidsOf t).Nodup → nodeAt t q = some nd →
      (nidsOf nd).Nodup := by
  induction q with
  | nil =>
      intro t nd hnd hq
      rw [nodeAt_nil, Option.some.injEq] at hq
      exact hq ▸ hnd
  | cons i p ih =>
      intro t nd hnd hq
      cases t with
      | txt m s => simp [nodeAt] at hq
      | elem m tg a c cs =>
          simp only [nodeAt] at hq
          cases hc : cs.get? i with
          | none => rw [hc] at hq; exact absurd hq (by simp)
          | some ch =>
              rw [hc] at hq
              simp only [nidsOf, List.nodup_cons] at hnd
              exact ih ch nd (nodupF_get? cs i ch hnd.2 hc) hq

mutual
theorem pathOfNid_nodeAt (n : Nat) (t : DomNode) (p : DomPath)
    (h : pathOfNid n t = some p) : ∃ nd, nodeAt t p = some nd ∧ nd.nid = n := by
  cases t with
  | txt m s =>
      simp only [pathOfNid] at h
      by_cases hm : m = n
      · rw [if_pos hm, Option.some.injEq] at h
        subst h
        exact ⟨.txt m s, nodeAt_nil _, hm⟩
      · rw [if_neg hm] at h
        exact absurd h (by simp)
  | elem m tg a c cs =>
      simp only [pathOfNid] at h
      by_cases hm : m = n
      · rw [if_pos hm, Option.some.injEq] at h
        subst h
        exact ⟨.elem m tg a c cs, nodeAt_nil _, hm⟩
      · rw [if_neg hm] at h
        obtain ⟨j, p2, ch, hp, hj, hrec⟩ := pathOfNidF_nodeAt n 0 cs p h
        obtain ⟨nd, hnd, hnid⟩ := hrec
        refine ⟨nd, ?_, hnid⟩
        rw [hp]
        simp only [Nat.zero_add, nodeAt, hj]
        exact hnd
theorem pathOfNidF_nodeAt (n idx : Nat) (cs : DomForest) (q : DomPath)
    (h : pathOfNidF n idx cs = some q) :
    ∃ j p ch, q = (idx + j) :: p ∧ cs.get? j = some ch ∧
      ∃ nd, nodeAt ch p = some nd ∧ nd.nid = n := by
  cases cs with
  | nil => simp [pathOfNidF] at h
  | cons y ys =>
      simp only [pathOfNidF] at h
      cases hy : pathOfNid n y with
      | some p =>
          rw [hy, Option.some.injEq] at h
          obtain ⟨nd, hnd, hnid⟩ := pathOfNid_nodeAt n y p hy
          exact ⟨0, p, y, by simpa using h.symm, rfl, nd, hnd, hnid⟩
      | none =>
          rw [hy] at h
          obtain ⟨j, p, ch, hq, hj, hrec⟩ := pathOfNidF_nodeAt n (idx + 1) ys q h
          refine ⟨j + 1, p, ch, ?_, by simpa [DomForest.get?] using hj, hrec⟩
          rw [hq]
          congr 1
          omega
end

mutual
theorem pathOfNid_none_of_not_mem (n : Nat) (t : DomNode)
    (h : n ∉ nidsOf t) : pathOfNid n t = none := by
  cases t with
  | txt m s =>
      simp only [nidsOf, List.mem_singleton] at h
      simp only [pathOfNid]
      rw [if_neg (fun he => h he.symm)]
  | elem m tg a c cs =>
      simp only [nidsOf, List.mem_cons, not_or] at h
      simp only [pathOfNid]
      rw [if_neg (fun he => h.1 he.symm)]
      exact pathOfNidF_none_of_not_mem n 0 cs h.2
theorem pathOfNidF_none_of_not_mem (n idx : Nat) (cs : DomForest)
    (h : n ∉ nidsOfF cs) : pathOfNidF n idx cs = none := by
  cases cs with
  | nil => rfl
  | cons y ys =>
      simp only [nidsOfF, List.mem_append, not_or] at h
      simp only [pathOfNidF]
      rw [pathOfNid_none_of_not_mem n y h.1]
      exact pathOfNidF_none_of_not_mem n (idx + 1) ys h.2
end

theorem mem_of_pathOfNid_some (n : Nat) (t : DomNode) (p : DomPath)
    (h : pathOfNid n t = some p) : n ∈ nidsOf t := by
  obtain ⟨nd, hnd, hnid⟩ := pathOfNid_nodeAt n t p h
  exact mem_nidsOf_of_nodeAt p t nd n hnd (hnid ▸ nid_mem_nidsOf nd)

theorem pathOfNidF_complete (n : Nat) (cs : DomForest) :
    ∀ (idx j : Nat) (ch : DomNode) (p : DomPath), (nidsOfF cs).Nodup →
      cs.get? j = some ch → pathOfNid n ch = some p →
      pathOfNidF n idx cs = some ((idx + j) :: p) := by
  cases cs with
  | nil => intro idx j ch p _ hj; simp [DomForest.get?] at hj
  | cons y ys =>
      intro idx j ch p hnd hj hp
      simp only [nidsOfF] at hnd
      rw [List.nodup_append] at hnd
      cases j with
      | zero =>
          simp only [DomForest.get?, Option.some.injEq] at hj
          subst hj
          simp only [pathOfNidF, hp, Nat.add_zero]
      | succ j =>
          simp only [DomForest.get?] at hj
          have hnchild : n ∈ nidsOfF ys :=
            mem_nidsOfF_of_get? ys j ch n hj (mem_of_pathOfNid_some n ch p hp)
          have hny : n ∉ nidsOf y := fun hm => hnd.2.2 hm hnchild
          simp only [pathOfNidF, pathOfNid_none_of_not_mem n y hny]
          have := pathOfNidF_complete n ys (idx + 1) j ch p hnd.2.1 hj hp
          rw [this]
          congr 2
          omega

mutual
theorem pathOfNid_complete (n : Nat) (t : DomNode) (q : DomPath) (nd : DomNode)
    (hnd : (nidsOf t).Nodup) (hq : nodeAt t q = some nd) (hn : nd.nid = n) :
    pathOfNid n t = some q := by
  cases t with
  | txt m s =>
      cases q with
      | nil =>
          rw [nodeAt_nil, Option.some.injEq] at hq
          subst hq
          simp only [DomNode.nid] at hn
          simp [pathOfNid, hn]
      | cons i p => simp [nodeAt] at hq
  | elem m tg a c cs =>
      simp only [nidsOf, List.nodup_cons] at hnd
      cases q with
      | nil =>
          rw [nodeAt_nil, Option.some.injEq] at hq
          subst hq
          simp only [DomNode.nid] at hn
          simp [pathOfNid, hn]
      | cons i p =>
          simp only [nodeAt] at hq
          cases hc : cs.get? i with
          | none => rw [hc] at hq; exact absurd hq (by simp)
          | some ch =>
              rw [hc] at hq
              have hmem : n ∈ nidsOfF cs :=
                mem_nidsOfF_of_get? cs i ch n hc
                  (mem_nidsOf_of_nodeAt p ch nd n hq (hn ▸ nid_mem_nidsOf nd))
              have hm : ¬ (m = n) := fun he => hnd.1 (he ▸ hmem)
              simp only [pathOfNid, if_neg hm]
              have hrec := pathOfNid_complete n ch p nd (nodupF_get? cs i ch hnd.2 hc) hq hn
              simpa using pathOfNidF_complete n cs 0 i ch p hnd.2 hc hrec
end

theorem findByNid_self (t : DomNode) : findByNid t.nid t = some t := by
  cases t with
  | elem m tg a c cs => simp [findByNid, DomNode.nid]
  | txt m s => simp [findByNid, DomNode.nid]

theorem findByNidF_route (n : Nat) (cs : DomForest) :
    ∀ (j : Nat) (ch nd : DomNode), (nidsOfF cs).Nodup → cs.get? j = some ch →
      findByNid n ch = some nd → findByNidF n cs = some nd := by
  cases cs with
  | nil => intro j ch nd _ hj; simp [DomForest.get?] at hj
  | cons y ys =>
      intro j ch nd hnd hj hf
      simp only [nidsOfF] at hnd
      rw [List.nodup_append] at hnd
      cases j with
      | zero =>
          simp only [DomForest.get?, Option.some.injEq] at hj
          subst hj
          simp only [findByNidF, hf]
      | succ j =>
          simp only [DomForest.get?] at hj
          have hmem : n ∈ nidsOfF ys :=
            mem_nidsOfF_of_get? ys j ch n hj (mem_of_findByNid_isSome n ch (by simp [hf]))
          have hny : n ∉ nidsOf y := fun hm => hnd.2.2 hm hmem
          simp only [findByNidF, findByNid_none_of_not_mem n y hny]
          exact findByNidF_route n ys j ch nd hnd.2.1 hj hf

mutual
theorem findByNid_complete (n : Nat) (t : DomNode) (q : DomPath) (nd : DomNode)
    (hnd : (nidsOf t).Nodup) (hq : nodeAt t q = some nd) (hn : nd.nid = n) :
    findByNid n t = some nd := by
  cases t with
  | txt m s =>
      cases q with
      | nil =>
          rw [nodeAt_nil, Option.some.injEq] at hq
          subst hq
          simp only [DomNode.nid] at hn
          simp [findByNid, hn]
      | cons i p => simp [nodeAt] at hq
  | elem m tg a c cs =>
      simp only [nidsOf, List.nodup_cons] at hnd
      cases q with
      | nil =>
          rw [nodeAt_nil, Option.some.injEq] at hq
          subst hq
          simp only [DomNode.nid] at hn
          simp [findByNid, hn]
      | cons i p =>
          simp only [nodeAt] at hq
          cases hc : cs.get? i with
          | none => rw [hc] at hq; exact absurd hq (by simp)
          | some ch =>
              rw [hc] at hq
              have hmem : n ∈ nidsOfF cs :=
                mem_nidsOfF_of_get? cs i ch n hc
                  (mem_nidsOf_of_nodeAt p ch nd n hq (hn ▸ nid_mem_nidsOf nd))
              have hm : ¬ (m = n) := fun he => hnd.1 (he ▸ hmem)
              simp only [findByNid, if_neg hm]
              exact findByNidF_route n cs i ch nd hnd.2
                hc (findByNid_complete n ch p nd (nodupF_get? cs i ch hnd.2 hc) hq hn)
end

mutual
/-- Overlay of character data by node identity: each text node whose identity
is in the domain of `g` shows the overlaid string instead of its own.  Every
tree that agrees with a state of the live tree up to pending character-data
values is `ovlT g` of it for some `g`; this is the shape invariant of the
replay proof. -/
def ovlT (g : Nat → Option String) : DomNode → DomNode
  | .elem n t i c cs => .elem n t i c (ovlTF g cs)
  | .txt n s => .txt n ((g n).getD s)
def ovlTF (g : Nat → Option String) : DomForest → DomForest
  | .nil => .nil
  | .cons y ys => .cons (ovlT g y) (ovlTF g ys)
end

/-- Point update of an overlay. -/
def gUpd (g : Nat → Option String) (x : Nat) (v : String) : Nat → Option String :=
  fun y => if y = x then some v else g y

theorem ovlT_nid (g : Nat → Option String) (t : DomNode) : (ovlT g t).nid = t.nid := by
  cases t <;> rfl

theorem ovlT_attrIdOf (g : Nat → Option String) (t : DomNode) :
    (ovlT g t).attrIdOf = t.attrIdOf := by
  cases t <;> rfl

theorem ovlT_isText (g : Nat → Option String) (t : DomNode) :
    (ovlT g t).isText = t.isText := by
  cases t <;> rfl

theorem ovlT_isRootLike (wTag wCls : String) (g : Nat → Option String) (t : DomNode) :
    isRootLike wTag wCls (ovlT g t) = isRootLike wTag wCls t := by
  cases t <;> rfl

theorem ovlTF_get? (g : Nat → Option String) (cs : DomForest) (i : Nat) :
    (ovlTF g cs).get? i = (cs.get? i).map (ovlT g) := by
  cases cs with
  | nil => rfl
  | cons y ys =>
      cases i with
      | zero => rfl
      | succ i => simpa [ovlTF, DomForest.get?] using ovlTF_get? g ys i

theorem ovlTF_take (g : Nat → Option String) (cs : DomForest) (i : Nat) :
    (ovlTF g cs).take i = ovlTF g (cs.take i) := by
  cases cs with
  | nil => rfl
  | cons y ys =>
      cases i with
      | zero => rfl
      | succ i => simp [ovlTF, DomForest.take, ovlTF_take g ys i]

theorem ovlTF_countTexts (g : Nat → Option String) (cs : DomForest) :
    (ovlTF g cs).countTexts = cs.countTexts := by
  cases cs with
  | nil => rfl
  | cons y ys =>
      simp [ovlTF, DomForest.countTexts, ovlT_isText, ovlTF_countTexts g ys]

theorem ovlT_tagMatch (g : Nat → Option String) (y : DomNode) (tg : String) :
    (match ovlT g y with
      | .elem _ t _ _ _ => if t = tg then 1 else 0
      | .txt _ _ => 0) =
    (match y with
      | .elem _ t _ _ _ => if t = tg then 1 else 0
      | .txt _ _ => 0) := by
  cases y <;> rfl

theorem ovlTF_countTag (g : Nat → Option String) (tg : String) (cs : DomForest) :
    (ovlTF g cs).countTag tg = cs.countTag tg := by
  cases cs with
  | nil => rfl
  | cons y ys =>
      simp only [ovlTF, DomForest.countTag, ovlTF_countTag g tg ys]
      rw [ovlT_tagMatch]

theorem ovlTF_append (g : Nat → Option String) (cs ds : DomForest) :
    ovlTF g (cs.append ds) = (ovlTF g cs).append (ovlTF g ds) := by
  cases cs with
  | nil => rfl
  | cons y ys => simp [ovlTF, DomForest.append, ovlTF_append g ys ds]

mutual
theorem nidsOf_ovlT (g : Nat → Option String) (t : DomNode) :
    nidsOf (ovlT g t) = nidsOf t := by
  cases t with
  | elem n tg a c cs => simp [ovlT, nidsOf, nidsOfF_ovlTF g cs]
  | txt n s => rfl
theorem nidsOfF_ovlTF (g : Nat → Option String) (cs : DomForest) :
    nidsOfF (ovlTF g cs) = nidsOfF cs := by
  cases cs with
  | nil => rfl
  | cons y ys => simp [ovlTF, nidsOfF, nidsOf_ovlT g y, nidsOfF_ovlTF g ys]
end

theorem nodeAt_ovlT (g : Nat → Option String) (p : DomPath) :
    ∀ (t : DomNode), nodeAt (ovlT g t) p = (nodeAt t p).map (ovlT g) := by
  induction p with
  | nil => intro t; rw [nodeAt_nil, nodeAt_nil]; rfl
  | cons i q ih =>
      intro t
      cases t with
      | txt n s => rfl
      | elem n tg a c cs =>
          simp only [ovlT, nodeAt, ovlTF_get? g cs i]
          cases cs.get? i with
          | none => rfl
          | some ch => simpa using ih ch

mutual
theorem pathOfNid_ovlT (g : Nat → Option String) (n : Nat) (t : DomNode) :
    pathOfNid n (ovlT g t) = pathOfNid n t := by
  cases t with
  | txt m s => rfl
  | elem m tg a c cs =>
      simp only [ovlT, pathOfNid]
      rw [pathOfNidF_ovlTF g n 0 cs]
theorem pathOfNidF_ovlTF (g : Nat → Option String) (n idx : Nat) (cs : DomForest) :
    pathOfNidF n idx (ovlTF g cs) = pathOfNidF n idx cs := by
  cases cs with
  | nil => rfl
  | cons y ys =>
      simp only [ovlTF, pathOfNidF]
      rw [pathOfNid_ovlT g n y, pathOfNidF_ovlTF g n (idx + 1) ys]
end

mutual
theorem findByNid_ovlT (g : Nat → Option String) (n : Nat) (t : DomNode) :
    findByNid n (ovlT g t) = (findByNid n t).map (ovlT g) := by
  cases t with
  | txt m s =>
      simp only [ovlT, findByNid]
      by_cases hm : m = n
      · rw [if_pos hm, if_pos hm]
        rfl
      · rw [if_neg hm, if_neg hm]
        rfl
  | elem m tg a c cs =>
      simp only [ovlT, findByNid]
      by_cases hm : m = n
      · rw [if_pos hm, if_pos hm]
        rfl
      · rw [if_neg hm, if_neg hm]
        exact findByNidF_ovlTF g n cs
theorem findByNidF_ovlTF (g : Nat → Option String) (n : Nat) (cs : DomForest) :
    findByNidF n (ovlTF g cs) = (findByNidF n cs).map (ovlT g) := by
  cases cs with
  | nil => rfl
  | cons y ys =>
      simp only [ovlTF, findByNidF]
      rw [findByNid_ovlT g n y]
      cases findByNid n y with
      | some r => rfl
      | none => simpa using findByNidF_ovlTF g n ys
end

theorem childHere_ovlTF (g : Nat → Option String) (c : Nat) (cs : DomForest) :
    childHere c (ovlTF g cs) = childHere c cs := by
  cases cs with
  | nil => rfl
  | cons y ys =>
      simp only [ovlTF, childHere]
      rw [ovlT_nid, childHere_ovlTF g c ys]

mutual
theorem hasParentIn_ovlT (g : Nat → Option String) (c : Nat) (t : DomNode) :
    hasParentIn c (ovlT g t) = hasParentIn c t := by
  cases t with
  | txt m s => rfl
  | elem m tg a cl cs =>
      simp only [ovlT, hasParentIn]
      rw [childHere_ovlTF g c cs, hasParentInF_ovlTF g c cs]
theorem hasParentInF_ovlTF (g : Nat → Option String) (c : Nat) (cs : DomForest) :
    hasParentInF c (ovlTF g cs) = hasParentInF c cs := by
  cases cs with
  | nil => rfl
  | cons y ys =>
      simp only [ovlTF, hasParentInF]
      rw [hasParentIn_ovlT g c y, hasParentInF_ovlTF g c ys]
end

mutual
theorem ovlT_agree (g g' : Nat → Option String) (t : DomNode)
    (h : ∀ x ∈ nidsOf t, g x = g' x) : ovlT g t = ovlT g' t := by
  cases t with
  | txt m s =>
      simp only [ovlT]
      rw [h m (by simp [nidsOf])]
  | elem m tg a c cs =>
      simp only [ovlT]
      rw [ovlTF_agree g g' cs (fun x hx => h x (by simp [nidsOf, hx]))]
theorem ovlTF_agree (g g' : Nat → Option String) (cs : DomForest)
    (h : ∀ x ∈ nidsOfF cs, g x = g' x) : ovlTF g cs = ovlTF g' cs := by
  cases cs with
  | nil => rfl
  | cons y ys =>
      simp only [ovlTF]
      rw [ovlT_agree g g' y (fun x hx => h x (by simp [nidsOfF, hx])),
        ovlTF_agree g g' ys (fun x hx => h x (by simp [nidsOfF, hx]))]
end

mutual
theorem ovlT_absent (g : Nat → Option String) (t : DomNode)
    (h : ∀ x ∈ nidsOf t, g x = none) : ovlT g t = t := by
  cases t with
  | txt m s =>
      simp only [ovlT]
      rw [h m (by simp [nidsOf])]
      rfl
  | elem m tg a c cs =>
      simp only [ovlT]
      rw [ovlTF_absent g cs (fun x hx => h x (by simp [nidsOf, hx]))]
theorem ovlTF_absent (g : Nat → Option String) (cs : DomForest)
    (h : ∀ x ∈ nidsOfF cs, g x = none) : ovlTF g cs = cs := by
  cases cs with
  | nil => rfl
  | cons y ys =>
      simp only [ovlTF]
      rw [ovlT_absent g y (fun x hx => h x (by simp [nidsOfF, hx])),
        ovlTF_absent g ys (fun x hx => h x (by simp [nidsOfF, hx]))]
end

theorem ovlT_none (t : DomNode) : ovlT (fun _ => none) t = t :=
  ovlT_absent _ t (fun _ _ => rfl)

mutual
theorem ovlT_ovlT (g h : Nat → Option String) (t : DomNode) :
    ovlT g (ovlT h t) = ovlT (fun x => (g x).or (h x)) t := by
  cases t with
  | txt m s =>
      simp only [ovlT]
      cases hg : g m with
      | some v => simp [hg, Option.or]
      | none => simp [hg, Option.or]
  | elem m tg a c cs =>
      simp only [ovlT]
      rw [ovlTF_ovlTF g h cs]
theorem ovlTF_ovlTF (g h : Nat → Option String) (cs : DomForest) :
    ovlTF g (ovlTF h cs) = ovlTF (fun x => (g x).or (h x)) cs := by
  cases cs with
  | nil => rfl
  | cons y ys =>
      simp only [ovlTF]
      rw [ovlT_ovlT g h y, ovlTF_ovlTF g h ys]
end

mutual
theorem setTextNid_as_ovlT (x : Nat) (v : String) (t : DomNode) :
    setTextNid x v t = ovlT (fun y => if y = x then some v else none) t := by
  cases t with
  | txt m s =>
      simp only [setTextNid, ovlT]
      by_cases hm : m = x
      · rw [if_pos hm, if_pos hm]
        rfl
      · rw [if_neg hm, if_neg hm]
        rfl
  | elem m tg a c cs =>
      simp only [setTextNid, ovlT]
      rw [setTextNidF_as_ovlTF x v cs]
theorem setTextNidF_as_ovlTF (x : Nat) (v : String) (cs : DomForest) :
    setTextNidF x v cs = ovlTF (fun y => if y = x then some v else none) cs := by
  cases cs with
  | nil => rfl
  | cons y ys =>
      simp only [setTextNidF, ovlTF]
      rw [setTextNid_as_ovlT x v y, setTextNidF_as_ovlTF x v ys]
end

mutual
theorem setTextNid_ovlT (x : Nat) (w v : String) (g : Nat → Option String) (t : DomNode) :
    setTextNid x w (ovlT g t) = ovlT (gUpd g x w) (setTextNid x v t) := by
  cases t with
  | txt m s =>
      simp only [ovlT, setTextNid]
      by_cases hm : m = x
      · rw [if_pos hm, if_pos hm]
        simp [ovlT, gUpd, hm]
      · rw [if_neg hm, if_neg hm]
        simp [ovlT, gUpd, hm]
  | elem m tg a c cs =>
      simp only [ovlT, setTextNid]
      rw [setTextNidF_ovlTF x w v g cs]
theorem setTextNidF_ovlTF (x : Nat) (w v : String) (g : Nat → Option String)
    (cs : DomForest) :
    setTextNidF x w (ovlTF g cs) = ovlTF (gUpd g x w) (setTextNidF x v cs) := by
  cases cs with
  | nil => rfl
  | cons y ys =>
      simp only [ovlTF, setTextNidF]
      rw [setTextNid_ovlT x w v g y, setTextNidF_ovlTF x w v g ys]
end

mutual
theorem ovlT_setTextNid (τ : Nat → Option String) (x : Nat) (v : String) (t : DomNode) :
    ovlT τ (setTextNid x v t) = ovlT (gUpd τ x ((τ x).getD v)) t := by
  cases t with
  | txt m s =>
      simp only [setTextNid, ovlT]
      by_cases hm : m = x
      · rw [if_pos hm]
        simp [ovlT, gUpd, hm]
      · rw [if_neg hm]
        simp [ovlT, gUpd, hm]
  | elem m tg a c cs =>
      simp only [setTextNid, ovlT]
      rw [ovlTF_setTextNidF τ x v cs]
theorem ovlTF_setTextNidF (τ : Nat → Option String) (x : Nat) (v : String)
    (cs : DomForest) :
    ovlTF τ (setTextNidF x v cs) = ovlTF (gUpd τ x ((τ x).getD v)) cs := by
  cases cs with
  | nil => rfl
  | cons y ys =>
      simp only [setTextNidF, ovlTF]
      rw [ovlT_setTextNid τ x v y, ovlTF_setTextNidF τ x v ys]
end

theorem ovlTF_insRefF (g : Nat → Option String) (r : Nat) (node : DomNode)
    (cs : DomForest) :
    ovlTF g (insRefF r node cs) = insRefF r (ovlT g node) (ovlTF g cs) := by
  cases cs with
  | nil => rfl
  | cons y ys =>
      simp only [insRefF]
      by_cases hr : y.nid = r
      · rw [if_pos hr]
        simp only [ovlTF, insRefF]
        rw [if_pos (by rw [ovlT_nid]; exact hr)]
      · rw [if_neg hr]
        simp only [ovlTF, insRefF]
        rw [if_neg (by rw [ovlT_nid]; exact hr)]
        rw [ovlTF_insRefF g r node ys]

theorem ovlTF_insChildF (g : Nat → Option String) (node : DomNode) (ref : Option Nat)
    (cs : DomForest) :
    ovlTF g (insChildF node ref cs) = insChildF (ovlT g node) ref (ovlTF g cs) := by
  cases ref with
  | none => simp [insChildF, ovlTF_append, ovlTF]
  | some r => exact ovlTF_insRefF g r node cs

theorem ovlTF_removeNidF (g : Nat → Option String) (c : Nat) (cs : DomForest) :
    ovlTF g (removeNidF c cs) = removeNidF c (ovlTF g cs) := by
  cases cs with
  | nil => rfl
  | cons y ys =>
      rw [show ovlTF g (DomForest.cons y ys)
          = DomForest.cons (ovlT g y) (ovlTF g ys) from rfl]
      by_cases hc : y.nid = c
      · rw [show removeNidF c (DomForest.cons y ys) = ys by rw [removeNidF, if_pos hc]]
        rw [show removeNidF c (DomForest.cons (ovlT g y) (ovlTF g ys)) = ovlTF g ys by
          rw [removeNidF, if_pos (by rw [ovlT_nid]; exact hc)]]
      · rw [show removeNidF c (DomForest.cons y ys)
            = DomForest.cons y (removeNidF c ys) by rw [removeNidF, if_neg hc]]
        rw [show removeNidF c (DomForest.cons (ovlT g y) (ovlTF g ys))
            = DomForest.cons (ovlT g y) (removeNidF c (ovlTF g ys)) by
          rw [removeNidF, if_neg (by rw [ovlT_nid]; exact hc)]]
        rw [show ovlTF g (DomForest.cons y (removeNidF c ys))
            = DomForest.cons (ovlT g y) (ovlTF g (removeNidF c ys)) from rfl]
        rw [ovlTF_removeNidF g c ys]

mutual
theorem ovlT_insertBeforeNid (g : Nat → Option String) (p : Nat) (node : DomNode)
    (ref : Option Nat) (t : DomNode) :
    ovlT g (insertBeforeNid p node ref t) =
      insertBeforeNid p (ovlT g node) ref (ovlT g t) := by
  cases t with
  | txt m s => rfl
  | elem m tg a c cs =>
      simp only [insertBeforeNid]
      by_cases hm : m = p
      · rw [if_pos hm]
        simp only [ovlT, insertBeforeNid, if_pos hm]
        rw [ovlTF_insChildF g node ref cs]
      · rw [if_neg hm]
        simp only [ovlT, insertBeforeNid, if_neg hm]
        rw [ovlTF_insertBeforeNidF g p node ref cs]
theorem ovlTF_insertBeforeNidF (g : Nat → Option String) (p : Nat) (node : DomNode)
    (ref : Option Nat) (cs : DomForest) :
    ovlTF g (insertBeforeNidF p node ref cs) =
      insertBeforeNidF p (ovlT g node) ref (ovlTF g cs) := by
  cases cs with
  | nil => rfl
  | cons y ys =>
      simp only [insertBeforeNidF, ovlTF]
      rw [ovlT_insertBeforeNid g p node ref y, ovlTF_insertBeforeNidF g p node ref ys]
end

mutual
theorem ovlT_removeChildNid (g : Nat → Option String) (p c : Nat) (t : DomNode) :
    ovlT g (removeChildNid p c t) = removeChildNid p c (ovlT g t) := by
  cases t with
  | txt m s => rfl
  | elem m tg a cl cs =>
      simp only [removeChildNid]
      by_cases hm : m = p
      · rw [if_pos hm]
        simp only [ovlT, removeChildNid, if_pos hm]
        rw [ovlTF_removeNidF g c cs]
      · rw [if_neg hm]
        simp only [ovlT, removeChildNid, if_neg hm]
        rw [ovlTF_removeChildNidF g p c cs]
theorem ovlTF_removeChildNidF (g : Nat → Option String) (p c : Nat) (cs : DomForest) :
    ovlTF g (removeChildNidF p c cs) = removeChildNidF p c (ovlTF g cs) := by
  cases cs with
  | nil => rfl
  | cons y ys =>
      simp only [removeChildNidF, ovlTF]
      rw [ovlT_removeChildNid g p c y, ovlTF_removeChildNidF g p c ys]
end

theorem textContentOfNid_of_txt (t : DomNode) (x : Nat) (s : String)
    (h : findByNid x t = some (.txt x s)) : textContentOfNid t x = s := by
  simp [textContentOfNid, h, textContent]

theorem textContentOfNid_ovlT_txt (g : Nat → Option String) (t : DomNode) (x : Nat)
    (s : String) (h : findByNid x t = some (.txt x s)) :
    textContentOfNid (ovlT g t) x = (g x).getD s := by
  simp [textContentOfNid, findByNid_ovlT, h, ovlT, textContent]

theorem childXP_ovlT (wTag wCls : String) (g : Nat → Option String) (cur : XP)
    (cs : DomForest) (i : Nat) (c : DomNode) :
    childXP wTag wCls cur (ovlTF g cs) i (ovlT g c) = childXP wTag wCls cur cs i c := by
  unfold childXP
  rw [ovlT_attrIdOf, ovlT_isRootLike]
  by_cases hid : c.attrIdOf ≠ ""
  · rw [if_pos hid, if_pos hid]
  · rw [if_neg hid, if_neg hid]
    by_cases hrl : isRootLike wTag wCls c
    · rw [if_pos hrl, if_pos hrl]
    · rw [if_neg hrl, if_neg hrl]
      cases c with
      | txt n s =>
          show XP.textIdx cur (1 + ((ovlTF g cs).take i).countTexts)
            = XP.textIdx cur (1 + (cs.take i).countTexts)
          rw [ovlTF_take, ovlTF_countTexts]
      | elem n tg a cl ccs =>
          show XP.elemIdx cur tg (1 + ((ovlTF g cs).take i).countTag tg)
            = XP.elemIdx cur tg (1 + (cs.take i).countTag tg)
          rw [ovlTF_take, ovlTF_countTag]

theorem xpathFrom_ovlT (wTag wCls : String) (g : Nat → Option String) (p : DomPath) :
    ∀ (t : DomNode) (cur : XP),
      xpathFrom wTag wCls (ovlT g t) cur p = xpathFrom wTag wCls t cur p := by
  induction p with
  | nil => intro t cur; cases t <;> rfl
  | cons i q ih =>
      intro t cur
      cases t with
      | txt n s => rfl
      | elem n tg a cl cs =>
          rw [show ovlT g (DomNode.elem n tg a cl cs)
              = DomNode.elem n tg a cl (ovlTF g cs) from rfl]
          simp only [xpathFrom, ovlTF_get? g cs i]
          cases cs.get? i with
          | none => rfl
          | some c =>
              simp only [Option.map_some']
              rw [childXP_ovlT, ih]

theorem rootXP_ovlT (wTag wCls : String) (g : Nat → Option String) (t : DomNode) :
    rootXP wTag wCls (ovlT g t) = rootXP wTag wCls t := by
  unfold rootXP
  rw [ovlT_attrIdOf, ovlT_isRootLike]

theorem getXPathFromNode_ovlT (wTag wCls : String) (g : Nat → Option String)
    (t : DomNode) (p : DomPath) :
    getXPathFromNode wTag wCls (ovlT g t) p = getXPathFromNode wTag wCls t p := by
  unfold getXPathFromNode
  rw [rootXP_ovlT, xpathFrom_ovlT]

theorem getXPathOfNid_ovlT (wTag wCls : String) (g : Nat → Option String)
    (t : DomNode) (n : Nat) :
    getXPathOfNid wTag wCls (ovlT g t) n = getXPathOfNid wTag wCls t n := by
  unfold getXPathOfNid
  rw [pathOfNid_ovlT]
  cases pathOfNid n t with
  | none => rfl
  | some p => simp only [getXPathFromNode_ovlT]

mutual
theorem findIdPath_ovlT (g : Nat → Option String) (s : String) (t : DomNode) :
    findIdPath s (ovlT g t) = findIdPath s t := by
  cases t with
  | txt n c => rfl
  | elem n tg a cl cs =>
      rw [show ovlT g (DomNode.elem n tg a cl cs)
          = DomNode.elem n tg a cl (ovlTF g cs) from rfl]
      simp only [findIdPath]
      rw [findIdPathF_ovlTF g s 0 cs]
theorem findIdPathF_ovlTF (g : Nat → Option String) (s : String) (idx : Nat)
    (cs : DomForest) : findIdPathF s idx (ovlTF g cs) = findIdPathF s idx cs := by
  cases cs with
  | nil => rfl
  | cons y ys =>
      simp only [ovlTF, findIdPathF]
      rw [findIdPath_ovlT g s y, findIdPathF_ovlTF g s (idx + 1) ys]
end

theorem textNth_ovlTF (g : Nat → Option String) (cs : DomForest) :
    ∀ k, textNth (ovlTF g cs) k = textNth cs k := by
  cases cs with
  | nil => intro k; rfl
  | cons y ys =>
      intro k
      rw [show ovlTF g (DomForest.cons y ys)
          = DomForest.cons (ovlT g y) (ovlTF g ys) from rfl]
      rw [textNth, textNth, ovlT_isText]
      by_cases ht : y.isText
      · rw [if_pos ht, if_pos ht]
        by_cases hk : k ≤ 1
        · rw [if_pos hk, if_pos hk]
        · rw [if_neg hk, if_neg hk, textNth_ovlTF g ys]
      · rw [if_neg ht, if_neg ht, textNth_ovlTF g ys]

theorem elemNth_ovlTF (g : Nat → Option String) (tg : String) (cs : DomForest) :
    ∀ k, elemNth tg (ovlTF g cs) k = elemNth tg cs k := by
  cases cs with
  | nil => intro k; rfl
  | cons y ys =>
      intro k
      cases y with
      | txt n s =>
          rw [show ovlTF g (DomForest.cons (DomNode.txt n s) ys)
              = DomForest.cons (DomNode.txt n ((g n).getD s)) (ovlTF g ys) from rfl]
          simp only [elemNth]
          rw [elemNth_ovlTF g tg ys]
      | elem n ytg a cl ycs =>
          rw [show ovlTF g (DomForest.cons (DomNode.elem n ytg a cl ycs) ys)
              = DomForest.cons (DomNode.elem n ytg a cl (ovlTF g ycs)) (ovlTF g ys)
            from rfl]
          simp only [elemNth]
          by_cases htg : ytg = tg
          · rw [if_pos htg, if_pos htg]
            by_cases hk : k ≤ 1
            · rw [if_pos hk, if_pos hk]
            · rw [if_neg hk, if_neg hk, elemNth_ovlTF g tg ys]
          · rw [if_neg htg, if_neg htg, elemNth_ovlTF g tg ys]

theorem getNodeFromXPath_ovlT (g : Nat → Option String) (doc : DomNode) (xp : XP) :
    getNodeFromXPath (ovlT g doc) xp = getNodeFromXPath doc xp := by
  induction xp with
  | byId s => exact findIdPath_ovlT g s doc
  | body => rfl
  | empty => rfl
  | textIdx pa k ih =>
      cases hpa : getNodeFromXPath doc pa with
      | none => simp only [getNodeFromXPath, ih, hpa]
      | some p =>
          simp only [getNodeFromXPath, ih, hpa]
          rw [nodeAt_ovlT]
          cases hnd : nodeAt doc p with
          | none => simp
          | some nd =>
              simp only [Option.map_some']
              cases nd with
              | txt n s => rfl
              | elem n tg a cl cs =>
                  rw [show ovlT g (DomNode.elem n tg a cl cs)
                      = DomNode.elem n tg a cl (ovlTF g cs) from rfl]
                  show (textNth (ovlTF g cs) k).map (fun i => p ++ [i])
                    = (textNth cs k).map (fun i => p ++ [i])
                  rw [textNth_ovlTF]
  | elemIdx pa tg k ih =>
      cases hpa : getNodeFromXPath doc pa with
      | none => simp only [getNodeFromXPath, ih, hpa]
      | some p =>
          simp only [getNodeFromXPath, ih, hpa]
          rw [nodeAt_ovlT]
          cases hnd : nodeAt doc p with
          | none => simp
          | some nd =>
              simp only [Option.map_some']
              cases nd with
              | txt n s => rfl
              | elem n ntg a cl cs =>
                  rw [show ovlT g (DomNode.elem n ntg a cl cs)
                      = DomNode.elem n ntg a cl (ovlTF g cs) from rfl]
                  show (elemNth tg (ovlTF g cs) k).map (fun i => p ++ [i])
                    = (elemNth tg cs k).map (fun i => p ++ [i])
                  rw [elemNth_ovlTF]

mutual
theorem setTextNid_no_target (x : Nat) (v : String) (t : DomNode)
    (h : x ∉ nidsOf t) : setTextNid x v t = t := by
  cases t with
  | txt m s =>
      simp only [nidsOf, List.mem_singleton] at h
      simp only [setTextNid]
      rw [if_neg (fun he => h he.symm)]
  | elem m tg a c cs =>
      simp only [nidsOf, List.mem_cons, not_or] at h
      simp only [setTextNid]
      rw [setTextNidF_no_target x v cs h.2]
theorem setTextNidF_no_target (x : Nat) (v : String) (cs : DomForest)
    (h : x ∉ nidsOfF cs) : setTextNidF x v cs = cs := by
  cases cs with
  | nil => rfl
  | cons y ys =>
      simp only [nidsOfF, List.mem_append, not_or] at h
      simp only [setTextNidF]
      rw [setTextNid_no_target x v y h.1, setTextNidF_no_target x v ys h.2]
end

mutual
theorem setTextNid_self (x : Nat) (w : String) (t : DomNode)
    (hnd : (nidsOf t).Nodup) (h : findByNid x t = some (.txt x w)) :
    setTextNid x w t = t := by
  cases t with
  | txt m s =>
      simp only [findByNid] at h
      by_cases hm : m = x
      · rw [if_pos hm, Option.some.injEq] at h
        injection h with h1 h2
        simp [setTextNid, hm, h2]
      · rw [if_neg hm] at h
        exact absurd h (by simp)
  | elem m tg a c cs =>
      simp only [findByNid] at h
      by_cases hm : m = x
      · rw [if_pos hm] at h
        exact absurd h (by simp)
      · rw [if_neg hm] at h
        simp only [nidsOf, List.nodup_cons] at hnd
        simp only [setTextNid]
        rw [setTextNidF_self x w cs hnd.2 h]
theorem setTextNidF_self (x : Nat) (w : String) (cs : DomForest)
    (hnd : (nidsOfF cs).Nodup) (h : findByNidF x cs = some (.txt x w)) :
    setTextNidF x w cs = cs := by
  cases cs with
  | nil => simp [findByNidF] at h
  | cons y ys =>
      simp only [nidsOfF] at hnd
      rw [List.nodup_append] at hnd
      simp only [findByNidF] at h
      simp only [setTextNidF]
      cases hy : findByNid x y with
      | some r =>
          rw [hy, Option.some.injEq] at h
          subst h
          rw [setTextNid_self x w y hnd.1 hy]
          have hxy : x ∈ nidsOf y := mem_of_findByNid_isSome x y (by simp [hy])
          rw [setTextNidF_no_target x w ys (fun hm => hnd.2.2 hxy hm)]
      | none =>
          rw [hy] at h
          have hxy : x ∉ nidsOf y := by
            intro hm
            have := findByNid_isSome_of_mem x y hm
            rw [hy] at this
            exact absurd this (by simp)
          rw [setTextNid_no_target x w y hxy, setTextNidF_self x w ys hnd.2.1 h]
end

mutual
theorem mem_nidsOf_insert (p : Nat) (node : DomNode) (ref : Option Nat) (t : DomNode)
    (x : Nat) (h : x ∈ nidsOf t) : x ∈ nidsOf (insertBeforeNid p node ref t) := by
  cases t with
  | txt m s => exact h
  | elem m tg a c cs =>
      simp only [nidsOf, List.mem_cons] at h
      by_cases hm : m = p
      · simp only [insertBeforeNid, if_pos hm, nidsOf, List.mem_cons]
        rcases h with h | h
        · exact Or.inl h
        · exact Or.inr ((nidsOfF_insChildF_perm node ref cs).mem_iff.mpr
            (by simp [h]))
      · simp only [insertBeforeNid, if_neg hm, nidsOf, List.mem_cons]
        rcases h with h | h
        · exact Or.inl h
        · exact Or.inr (mem_nidsOfF_insert p node ref cs x h)
theorem mem_nidsOfF_insert (p : Nat) (node : DomNode) (ref : Option Nat) (cs : DomForest)
    (x : Nat) (h : x ∈ nidsOfF cs) : x ∈ nidsOfF (insertBeforeNidF p node ref cs) := by
  cases cs with
  | nil => simp [nidsOfF] at h
  | cons y ys =>
      simp only [nidsOfF, List.mem_append] at h
      simp only [insertBeforeNidF, nidsOfF, List.mem_append]
      rcases h with h | h
      · exact Or.inl (mem_nidsOf_insert p node ref y x h)
      · exact Or.inr (mem_nidsOfF_insert p node ref ys x h)
end

mutual
theorem mem_nidsOf_insert_inv (p : Nat) (node : DomNode) (ref : Option Nat) (t : DomNode)
    (x : Nat) (h : x ∈ nidsOf (insertBeforeNid p node ref t)) :
    x ∈ nidsOf node ∨ x ∈ nidsOf t := by
  cases t with
  | txt m s => exact Or.inr h
  | elem m tg a c cs =>
      by_cases hm : m = p
      · simp only [insertBeforeNid, if_pos hm, nidsOf, List.mem_cons] at h
        rcases h with h | h
        · exact Or.inr (by simp [nidsOf, h])
        · rcases List.mem_append.mp ((nidsOfF_insChildF_perm node ref cs).mem_iff.mp h)
            with h | h
          · exact Or.inl h
          · exact Or.inr (by simp [nidsOf, h])
      · simp only [insertBeforeNid, if_neg hm, nidsOf, List.mem_cons] at h
        rcases h with h | h
        · exact Or.inr (by simp [nidsOf, h])
        · rcases mem_nidsOfF_insert_inv p node ref cs x h with h | h
          · exact Or.inl h
          · exact Or.inr (by simp [nidsOf, h])
theorem mem_nidsOfF_insert_inv (p : Nat) (node : DomNode) (ref : Option Nat)
    (cs : DomForest) (x : Nat) (h : x ∈ nidsOfF (insertBeforeNidF p node ref cs)) :
    x ∈ nidsOf node ∨ x ∈ nidsOfF cs := by
  cases cs with
  | nil => exact Or.inr h
  | cons y ys =>
      simp only [insertBeforeNidF, nidsOfF, List.mem_append] at h
      simp only [nidsOfF, List.mem_append]
      rcases h with h | h
      · rcases mem_nidsOf_insert_inv p node ref y x h with h | h
        · exact Or.inl h
        · exact Or.inr (Or.inl h)
      · rcases mem_nidsOfF_insert_inv p node ref ys x h with h | h
        · exact Or.inl h
        · exact Or.inr (Or.inr h)
end

theorem findByNidF_insChildF_other (x : Nat) (node : DomNode) (ref : Option Nat)
    (cs : DomForest) (hx : x ∉ nidsOf node) :
    findByNidF x (insChildF node ref cs) = findByNidF x cs := by
  cases cs with
  | nil =>
      cases ref with
      | none =>
          simp only [insChildF, DomForest.append, findByNidF]
          rw [findByNid_none_of_not_mem x node hx]
      | some r =>
          simp only [insChildF, insRefF, findByNidF]
          rw [findByNid_none_of_not_mem x node hx]
  | cons y ys =>
      cases ref with
      | none =>
          simp only [insChildF, DomForest.append, findByNidF]
          cases findByNid x y with
          | some r => rfl
          | none =>
              simpa [insChildF] using findByNidF_insChildF_other x node none ys hx
      | some r =>
          simp only [insChildF, insRefF]
          by_cases hr : y.nid = r
          · rw [if_pos hr]
            simp only [findByNidF]
            rw [findByNid_none_of_not_mem x node hx]
          · rw [if_neg hr]
            simp only [findByNidF]
            cases findByNid x y with
            | some r2 => rfl
            | none =>
                simpa [insChildF] using findByNidF_insChildF_other x node (some r) ys hx

theorem findByNidF_insChildF_self (node : DomNode) (ref : Option Nat) (cs : DomForest)
    (hfresh : node.nid ∉ nidsOfF cs) :
    findByNidF node.nid (insChildF node ref cs) = some node := by
  cases cs with
  | nil =>
      cases ref with
      | none => simp [insChildF, DomForest.append, findByNidF, findByNid_self]
      | some r => simp [insChildF, insRefF, findByNidF, findByNid_self]
  | cons y ys =>
      simp only [nidsOfF, List.mem_append, not_or] at hfresh
      have hy : findByNid node.nid y = none := findByNid_none_of_not_mem _ y hfresh.1
      cases ref with
      | none =>
          simp only [insChildF, DomForest.append, findByNidF, hy]
          simpa [insChildF] using findByNidF_insChildF_self node none ys hfresh.2
      | some r =>
          simp only [insChildF, insRefF]
          by_cases hr : y.nid = r
          · rw [if_pos hr]
            simp [findByNidF, findByNid_self]
          · rw [if_neg hr]
            simp only [findByNidF, hy]
            simpa [insChildF] using findByNidF_insChildF_self node (some r) ys hfresh.2

mutual
theorem findByNid_insert_self (p : Nat) (node : DomNode) (ref : Option Nat) (t : DomNode)
    (pn : Nat) (ptg pa pcl : String) (pcs : DomForest)
    (hfind : findByNid p t = some (.elem pn ptg pa pcl pcs))
    (hfresh : node.nid ∉ nidsOf t) :
    findByNid node.nid (insertBeforeNid p node ref t) = some node := by
  cases t with
  | txt m s =>
      simp only [findByNid] at hfind
      by_cases hm : m = p
      · rw [if_pos hm] at hfind; exact absurd hfind (by simp)
      · rw [if_neg hm] at hfind; exact absurd hfind (by simp)
  | elem m tg a c cs =>
      simp only [nidsOf, List.mem_cons, not_or] at hfresh
      have hmn : ¬ (m = node.nid) := fun he => hfresh.1 he.symm
      by_cases hm : m = p
      · simp only [insertBeforeNid, if_pos hm, findByNid, if_neg hmn]
        exact findByNidF_insChildF_self node ref cs hfresh.2
      · simp only [findByNid, if_neg hm] at hfind
        simp only [insertBeforeNid, if_neg hm, findByNid, if_neg hmn]
        exact findByNidF_insert_self p node ref cs pn ptg pa pcl pcs hfind hfresh.2
theorem findByNidF_insert_self (p : Nat) (node : DomNode) (ref : Option Nat)
    (cs : DomForest) (pn : Nat) (ptg pa pcl : String) (pcs : DomForest)
    (hfind : findByNidF p cs = some (.elem pn ptg pa pcl pcs))
    (hfresh : node.nid ∉ nidsOfF cs) :
    findByNidF node.nid (insertBeforeNidF p node ref cs) = some node := by
  cases cs with
  | nil => simp [findByNidF] at hfind
  | cons y ys =>
      simp only [nidsOfF, List.mem_append, not_or] at hfresh
      simp only [findByNidF] at hfind
      simp only [insertBeforeNidF, findByNidF]
      cases hy : findByNid p y with
      | some r =>
          rw [hy, Option.some.injEq] at hfind
          rw [findByNid_insert_self p node ref y pn ptg pa pcl pcs (hfind ▸ hy) hfresh.1]
      | none =>
          rw [hy] at hfind
          have hpy : p ∉ nidsOf y := by
            intro hm
            have := findByNid_isSome_of_mem p y hm
            rw [hy] at this
            exact absurd this (by simp)
          rw [insertBeforeNid_no_target p node ref y hpy]
          rw [findByNid_none_of_not_mem _ y hfresh.1]
          exact findByNidF_insert_self p node ref ys pn ptg pa pcl pcs hfind hfresh.2
end

mutual
theorem findByNid_insert_txt (p x : Nat) (s : String) (node : DomNode) (ref : Option Nat)
    (t : DomNode) (hx : x ∉ nidsOf node)
    (h : findByNid x t = some (.txt x s)) :
    findByNid x (insertBeforeNid p node ref t) = some (.txt x s) := by
  cases t with
  | txt m s2 => exact h
  | elem m tg a c cs =>
      simp only [findByNid] at h
      by_cases hm : m = x
      · rw [if_pos hm] at h
        exact absurd h (by simp)
      · rw [if_neg hm] at h
        by_cases hp : m = p
        · simp only [insertBeforeNid, if_pos hp, findByNid, if_neg hm]
          rw [findByNidF_insChildF_other x node ref cs hx]
          exact h
        · simp only [insertBeforeNid, if_neg hp, findByNid, if_neg hm]
          exact findByNidF_insert_txt p x s node ref cs hx h
theorem findByNidF_insert_txt (p x : Nat) (s : String) (node : DomNode) (ref : Option Nat)
    (cs : DomForest) (hx : x ∉ nidsOf node)
    (h : findByNidF x cs = some (.txt x s)) :
    findByNidF x (insertBeforeNidF p node ref cs) = some (.txt x s) := by
  cases cs with
  | nil => simp [findByNidF] at h
  | cons y ys =>
      simp only [findByNidF] at h
      simp only [insertBeforeNidF, findByNidF]
      cases hy : findByNid x y with
      | some r =>
          rw [hy, Option.some.injEq] at h
          rw [findByNid_insert_txt p x s node ref y hx (h ▸ hy)]
      | none =>
          rw [hy] at h
          have hxy : x ∉ nidsOf y := by
            intro hm
            have := findByNid_isSome_of_mem x y hm
            rw [hy] at this
            exact absurd this (by simp)
          have hins : x ∉ nidsOf (insertBeforeNid p node ref y) := by
            intro hm
            rcases mem_nidsOf_insert_inv p node ref y x hm with hc | hc
            · exact hx hc
            · exact hxy hc
          rw [findByNid_none_of_not_mem x _ hins]
          exact findByNidF_insert_txt p x s node ref ys hx h
end

mutual
theorem findByNid_insert_txt_inv (p x : Nat) (s : String) (node : DomNode)
    (ref : Option Nat) (t : DomNode) (hx : x ∉ nidsOf node)
    (h : findByNid x (insertBeforeNid p node ref t) = some (.txt x s)) :
    findByNid x t = some (.txt x s) := by
  cases t with
  | txt m s2 => exact h
  | elem m tg a c cs =>
      by_cases hm : m = x
      · by_cases hp : m = p
        · simp only [insertBeforeNid, if_pos hp, findByNid, if_pos hm] at h
          exact absurd h (by simp)
        · simp only [insertBeforeNid, if_neg hp, findByNid, if_pos hm] at h
          exact absurd h (by simp)
      · by_cases hp : m = p
        · simp only [insertBeforeNid, if_pos hp, findByNid, if_neg hm] at h
          rw [findByNidF_insChildF_other x node ref cs hx] at h
          simp only [findByNid, if_neg hm]
          exact h
        · simp only [insertBeforeNid, if_neg hp, findByNid, if_neg hm] at h
          simp only [findByNid, if_neg hm]
          exact findByNidF_insert_txt_inv p x s node ref cs hx h
theorem findByNidF_insert_txt_inv (p x : Nat) (s : String) (node : DomNode)
    (ref : Option Nat) (cs : DomForest) (hx : x ∉ nidsOf node)
    (h : findByNidF x (insertBeforeNidF p node ref cs) = some (.txt x s)) :
    findByNidF x cs = some (.txt x s) := by
  cases cs with
  | nil => simp [insertBeforeNidF, findByNidF] at h
  | cons y ys =>
      simp only [insertBeforeNidF, findByNidF] at h
      simp only [findByNidF]
      cases hy : findByNid x (insertBeforeNid p node ref y) with
      | some r =>
          rw [hy, Option.some.injEq] at h
          have := findByNid_insert_txt_inv p x s node ref y hx (h ▸ hy)
          rw [this]
      | none =>
          rw [hy] at h
          have hxy : findByNid x y = none := by
            cases hy2 : findByNid x y with
            | none => rfl
            | some r2 =>
                have hmem : x ∈ nidsOf y := mem_of_findByNid_isSome x y (by simp [hy2])
                have := findByNid_isSome_of_mem x _ (mem_nidsOf_insert p node ref y x hmem)
                rw [hy] at this
                exact absurd this (by simp)
          rw [hxy]
          exact findByNidF_insert_txt_inv p x s node ref ys hx h
end

theorem findByNidF_removeNidF_txt_inv (x c : Nat) (s : String) (cs : DomForest)
    (hnd : (nidsOfF cs).Nodup)
    (h : findByNidF x (removeNidF c cs) = some (.txt x s)) :
    findByNidF x cs = some (.txt x s) := by
  cases cs with
  | nil => simp [removeNidF, findByNidF] at h
  | cons y ys =>
      simp only [nidsOfF] at hnd
      rw [List.nodup_append] at hnd
      by_cases hc : y.nid = c
      · rw [show removeNidF c (DomForest.cons y ys) = ys by
          rw [removeNidF, if_pos hc]] at h
        have hmem : x ∈ nidsOfF ys := by
          have := mem_of_findByNidF_isSome x ys (by simp [h])
          exact this
        have hxy : findByNid x y = none := by
          cases hy : findByNid x y with
          | none => rfl
          | some r =>
              exact absurd hmem (hnd.2.2 (mem_of_findByNid_isSome x y (by simp [hy])))
        simp only [findByNidF, hxy]
        exact h
      · rw [show removeNidF c (DomForest.cons y ys)
            = DomForest.cons y (removeNidF c ys) by rw [removeNidF, if_neg hc]] at h
        simp only [findByNidF] at h
        simp only [findByNidF]
        cases hy : findByNid x y with
        | some r =>
            rw [hy] at h
            exact h
        | none =>
            rw [hy] at h
            exact findByNidF_removeNidF_txt_inv x c s ys hnd.2.1 h

mutual
theorem findByNid_remove_txt_inv (p c x : Nat) (s : String) (t : DomNode)
    (hnd : (nidsOf t).Nodup)
    (h : findByNid x (removeChildNid p c t) = some (.txt x s)) :
    findByNid x t = some (.txt x s) := by
  cases t with
  | txt m s2 => exact h
  | elem m tg a cl cs =>
      simp only [nidsOf, List.nodup_cons] at hnd
      by_cases hm : m = x
      · by_cases hp : m = p
        · simp only [removeChildNid, if_pos hp, findByNid, if_pos hm] at h
          exact absurd h (by simp)
        · simp only [removeChildNid, if_neg hp, findByNid, if_pos hm] at h
          exact absurd h (by simp)
      · by_cases hp : m = p
        · simp only [removeChildNid, if_pos hp, findByNid, if_neg hm] at h
          simp only [findByNid, if_neg hm]
          exact findByNidF_removeNidF_txt_inv x c s cs hnd.2 h
        · simp only [removeChildNid, if_neg hp, findByNid, if_neg hm] at h
          simp only [findByNid, if_neg hm]
          exact findByNidF_remove_txt_inv p c x s cs hnd.2 h
theorem findByNidF_remove_txt_inv (p c x : Nat) (s : String) (cs : DomForest)
    (hnd : (nidsOfF cs).Nodup)
    (h : findByNidF x (removeChildNidF p c cs) = some (.txt x s)) :
    findByNidF x cs = some (.txt x s) := by
  cases cs with
  | nil => simp [removeChildNidF, findByNidF] at h
  | cons y ys =>
      simp only [nidsOfF] at hnd
      rw [List.nodup_append] at hnd
      simp only [removeChildNidF, findByNidF] at h
      simp only [findByNidF]
      cases hy : findByNid x (removeChildNid p c y) with
      | some r =>
          rw [hy, Option.some.injEq] at h
          have := findByNid_remove_txt_inv p c x s y hnd.1 (h ▸ hy)
          rw [this]
      | none =>
          rw [hy] at h
          have hmem : x ∈ nidsOfF ys := by
            have h2 := findByNidF_remove_txt_inv p c x s ys hnd.2.1 h
            exact mem_of_findByNidF_isSome x ys (by simp [h2])
          have hxy : findByNid x y = none := by
            cases hy2 : findByNid x y with
            | none => rfl
            | some r =>
                exact absurd hmem (hnd.2.2 (mem_of_findByNid_isSome x y (by simp [hy2])))
          rw [hxy]
          exact findByNidF_remove_txt_inv p c x s ys hnd.2.1 h
end

mutual
theorem findByNid_removeChild_target (p c : Nat) (t : DomNode)
    (ptg pa pcl : String) (pcs : DomForest)
    (hfind : findByNid p t = some (.elem p ptg pa pcl pcs)) :
    findByNid p (removeChildNid p c t) = some (.elem p ptg pa pcl (removeNidF c pcs)) := by
  cases t with
  | txt m s =>
      simp only [findByNid] at hfind
      by_cases hm : m = p
      · rw [if_pos hm] at hfind; exact absurd hfind (by simp)
      · rw [if_neg hm] at hfind; exact absurd hfind (by simp)
  | elem m tg a cl cs =>
      by_cases hm : m = p
      · simp only [findByNid, if_pos hm, Option.some.injEq] at hfind
        injection hfind with h1 h2 h3 h4 h5
        subst h1
        subst h2
        subst h3
        subst h4
        subst h5
        rw [show removeChildNid m c (DomNode.elem m tg a cl cs)
            = DomNode.elem m tg a cl (removeNidF c cs) by
          simp only [removeChildNid]
          rw [if_true]]
        simp only [findByNid]
        rw [if_true]
      · simp only [findByNid, if_neg hm] at hfind
        simp only [removeChildNid, if_neg hm, findByNid, if_neg hm]
        exact findByNidF_removeChild_target p c cs ptg pa pcl pcs hfind
theorem findByNidF_removeChild_target (p c : Nat) (cs : DomForest)
    (ptg pa pcl : String) (pcs : DomForest)
    (hfind : findByNidF p cs = some (.elem p ptg pa pcl pcs)) :
    findByNidF p (removeChildNidF p c cs)
      = some (.elem p ptg pa pcl (removeNidF c pcs)) := by
  cases cs with
  | nil => simp [findByNidF] at hfind
  | cons y ys =>
      simp only [findByNidF] at hfind
      simp only [removeChildNidF, findByNidF]
      cases hy : findByNid p y with
      | some r =>
          rw [hy, Option.some.injEq] at hfind
          rw [findByNid_removeChild_target p c y ptg pa pcl pcs (hfind ▸ hy)]
      | none =>
          rw [hy] at hfind
          have hpy : p ∉ nidsOf y := by
            intro hm
            have := findByNid_isSome_of_mem p y hm
            rw [hy] at this
            exact absurd this (by simp)
          rw [removeChildNid_no_target p c y hpy, hy]
          exact findByNidF_removeChild_target p c ys ptg pa pcl pcs hfind
end

theorem childHere_get? (r : Nat) (cs : DomForest) (h : childHere r cs = true) :
    ∃ j rch, cs.get? j = some rch ∧ rch.nid = r := by
  cases cs with
  | nil => simp [childHere] at h
  | cons y ys =>
      simp only [childHere, Bool.or_eq_true, beq_iff_eq] at h
      rcases h with h | h
      · exact ⟨0, y, rfl, h⟩
      · obtain ⟨j, rch, hj, hr⟩ := childHere_get? r ys h
        exact ⟨j + 1, rch, by simpa [DomForest.get?] using hj, hr⟩

theorem removeIdxF_eq_removeNidF (cs : DomForest) :
    ∀ (j : Nat) (child : DomNode) (c : Nat), (headNidsF cs).Nodup →
      cs.get? j = some child → child.nid = c → removeIdxF cs j = removeNidF c cs := by
  cases cs with
  | nil => intro j child c _ hj; simp [DomForest.get?] at hj
  | cons y ys =>
      intro j child c hnd hj hc
      simp only [headNidsF, List.nodup_cons] at hnd
      cases j with
      | zero =>
          simp only [DomForest.get?, Option.some.injEq] at hj
          subst hj
          rw [show removeIdxF (DomForest.cons y ys) 0 = ys from rfl]
          rw [removeNidF, if_pos hc]
      | succ j =>
          simp only [DomForest.get?] at hj
          have hmem : c ∈ headNidsF ys := hc ▸ mem_headNids_of_get? ys j child hj
          have hyc : ¬ (y.nid = c) := fun he => hnd.1 (he ▸ hmem)
          rw [show removeIdxF (DomForest.cons y ys) (j+1)
              = DomForest.cons y (removeIdxF ys j) from rfl]
          rw [removeNidF, if_neg hyc]
          rw [removeIdxF_eq_removeNidF ys j child c hnd.2 hj hc]

theorem insertIdxF_eq_insRefF (cs : DomForest) :
    ∀ (j : Nat) (rch node : DomNode) (r : Nat), (headNidsF cs).Nodup →
      cs.get? j = some rch → rch.nid = r →
      insertIdxF cs (some j) node = insRefF r node cs := by
  cases cs with
  | nil => intro j rch node r _ hj; simp [DomForest.get?] at hj
  | cons y ys =>
      intro j rch node r hnd hj hr
      simp only [headNidsF, List.nodup_cons] at hnd
      cases j with
      | zero =>
          simp only [DomForest.get?, Option.some.injEq] at hj
          subst hj
          rw [show insertIdxF (DomForest.cons y ys) (some 0) node
              = DomForest.cons node (DomForest.cons y ys) from rfl]
          rw [insRefF, if_pos hr]
      | succ j =>
          simp only [DomForest.get?] at hj
          have hmem : r ∈ headNidsF ys := hr ▸ mem_headNids_of_get? ys j rch hj
          have hyr : ¬ (y.nid = r) := fun he => hnd.1 (he ▸ hmem)
          rw [show insertIdxF (DomForest.cons y ys) (some (j+1)) node
              = DomForest.cons y (insertIdxF ys (some j) node) from rfl]
          rw [insRefF, if_neg hyr]
          rw [insertIdxF_eq_insRefF ys j rch node r hnd.2 hj hr]

theorem findByNidF_at_child (x : Nat) (cs : DomForest) :
    ∀ (j : Nat) (ch : DomNode), (nidsOfF cs).Nodup → cs.get? j = some ch →
      x ∈ nidsOf ch → findByNidF x cs = findByNid x ch := by
  cases cs with
  | nil => intro j ch _ hj; simp [DomForest.get?] at hj
  | cons y ys =>
      intro j ch hnd hj hx
      simp only [nidsOfF] at hnd
      rw [List.nodup_append] at hnd
      cases j with
      | zero =>
          simp only [DomForest.get?, Option.some.injEq] at hj
          subst hj
          have := findByNid_isSome_of_mem x y hx
          cases hfind : findByNid x y with
          | none => rw [hfind] at this; exact absurd this (by simp)
          | some r => simp only [findByNidF, hfind]
      | succ j =>
          simp only [DomForest.get?] at hj
          have hmem : x ∈ nidsOfF ys := mem_nidsOfF_of_get? ys j ch x hj hx
          have hxy : x ∉ nidsOf y := fun hm => hnd.2.2 hm hmem
          simp only [findByNidF, findByNid_none_of_not_mem x y hxy]
          exact findByNidF_at_child x ys j ch hnd.2.1 hj hx

theorem replaceAtF_setText (x : Nat) (w : String) (p : DomPath) (cs : DomForest) :
    ∀ (j : Nat) (ch : DomNode), (nidsOfF cs).Nodup → cs.get? j = some ch →
      x ∈ nidsOf ch → setTextAtPath ch p w = setTextNid x w ch →
      replaceAtF cs j (fun y => setTextAtPath y p w) = setTextNidF x w cs := by
  cases cs with
  | nil => intro j ch _ hj; simp [DomForest.get?] at hj
  | cons y ys =>
      intro j ch hnd hj hx heq
      simp only [nidsOfF] at hnd
      rw [List.nodup_append] at hnd
      cases j with
      | zero =>
          simp only [DomForest.get?, Option.some.injEq] at hj
          subst hj
          rw [show replaceAtF (DomForest.cons y ys) 0 (fun z => setTextAtPath z p w)
              = DomForest.cons (setTextAtPath y p w) ys from rfl]
          simp only [setTextNidF]
          rw [heq, setTextNidF_no_target x w ys (fun hm => hnd.2.2 hx hm)]
      | succ j =>
          simp only [DomForest.get?] at hj
          have hmem : x ∈ nidsOfF ys := mem_nidsOfF_of_get? ys j ch x hj hx
          have hxy : x ∉ nidsOf y := fun hm => hnd.2.2 hm hmem
          rw [show replaceAtF (DomForest.cons y ys) (j+1) (fun z => setTextAtPath z p w)
              = DomForest.cons y (replaceAtF ys j (fun z => setTextAtPath z p w)) from rfl]
          simp only [setTextNidF]
          rw [setTextNid_no_target x w y hxy]
          rw [replaceAtF_setText x w p ys j ch hnd.2.1 hj hx heq]

theorem replaceAtF_remove (pn c : Nat) (i : Nat) (p : DomPath) (cs : DomForest) :
    ∀ (j : Nat) (ch : DomNode), (nidsOfF cs).Nodup → cs.get? j = some ch →
      pn ∈ nidsOf ch → removeNthChildAt ch p i = removeChildNid pn c ch →
      replaceAtF cs j (fun y => removeNthChildAt y p i) = removeChildNidF pn c cs := by
  cases cs with
  | nil => intro j ch _ hj; simp [DomForest.get?] at hj
  | cons y ys =>
      intro j ch hnd hj hx heq
      simp only [nidsOfF] at hnd
      rw [List.nodup_append] at hnd
      cases j with
      | zero =>
          simp only [DomForest.get?, Option.some.injEq] at hj
          subst hj
          rw [show replaceAtF (DomForest.cons y ys) 0 (fun z => removeNthChildAt z p i)
              = DomForest.cons (removeNthChildAt y p i) ys from rfl]
          simp only [removeChildNidF]
          rw [heq, removeChildNidF_no_target pn c ys (fun hm => hnd.2.2 hx hm)]
      | succ j =>
          simp only [DomForest.get?] at hj
          have hmem : pn ∈ nidsOfF ys := mem_nidsOfF_of_get? ys j ch pn hj hx
          have hxy : pn ∉ nidsOf y := fun hm => hnd.2.2 hm hmem
          rw [show replaceAtF (DomForest.cons y ys) (j+1) (fun z => removeNthChildAt z p i)
              = DomForest.cons y (replaceAtF ys j (fun z => removeNthChildAt z p i))
            from rfl]
          simp only [removeChildNidF]
          rw [removeChildNid_no_target pn c y hxy]
          rw [replaceAtF_remove pn c i p ys j ch hnd.2.1 hj hx heq]

theorem replaceAtF_insert (pn : Nat) (node : DomNode) (ref : Option Nat)
    (iopt : Option Nat) (p : DomPath) (cs : DomForest) :
    ∀ (j : Nat) (ch : DomNode), (nidsOfF cs).Nodup → cs.get? j = some ch →
      pn ∈ nidsOf ch → insertChildAt ch p iopt node = insertBeforeNid pn node ref ch →
      replaceAtF cs j (fun y => insertChildAt y p iopt node)
        = insertBeforeNidF pn node ref cs := by
  cases cs with
  | nil => intro j ch _ hj; simp [DomForest.get?] at hj
  | cons y ys =>
      intro j ch hnd hj hx heq
      simp only [nidsOfF] at hnd
      rw [List.nodup_append] at hnd
      cases j with
      | zero =>
          simp only [DomForest.get?, Option.some.injEq] at hj
          subst hj
          rw [show replaceAtF (DomForest.cons y ys) 0 (fun z => insertChildAt z p iopt node)
              = DomForest.cons (insertChildAt y p iopt node) ys from rfl]
          simp only [insertBeforeNidF]
          rw [heq, insertBeforeNidF_no_target pn node ref ys (fun hm => hnd.2.2 hx hm)]
      | succ j =>
          simp only [DomForest.get?] at hj
          have hmem : pn ∈ nidsOfF ys := mem_nidsOfF_of_get? ys j ch pn hj hx
          have hxy : pn ∉ nidsOf y := fun hm => hnd.2.2 hm hmem
          rw [show replaceAtF (DomForest.cons y ys) (j+1)
                (fun z => insertChildAt z p iopt node)
              = DomForest.cons y (replaceAtF ys j (fun z => insertChildAt z p iopt node))
            from rfl]
          simp only [insertBeforeNidF]
          rw [insertBeforeNid_no_target pn node ref y hxy]
          rw [replaceAtF_insert pn node ref iopt p ys j ch hnd.2.1 hj hx heq]

theorem pathOfNidF_cons_inv (n : Nat) (cs : DomForest) :
    ∀ (idx k : Nat) (p : DomPath), pathOfNidF n idx cs = some (k :: p) →
      ∃ j ch, k = idx + j ∧ cs.get? j = some ch ∧ pathOfNid n ch = some p := by
  cases cs with
  | nil => intro idx k p h; simp [pathOfNidF] at h
  | cons y ys =>
      intro idx k p h
      simp only [pathOfNidF] at h
      cases hy : pathOfNid n y with
      | some p2 =>
          rw [hy, Option.some.injEq] at h
          injection h with h1 h2
          exact ⟨0, y, by omega, rfl, h2 ▸ hy⟩
      | none =>
          rw [hy] at h
          obtain ⟨j, ch, hk, hget, hp⟩ := pathOfNidF_cons_inv n ys (idx + 1) k p h
          exact ⟨j + 1, ch, by omega, by simpa [DomForest.get?] using hget, hp⟩

theorem pathOfNid_elem_cons (n m : Nat) (tg a c : String) (cs : DomForest)
    (j : Nat) (p : DomPath)
    (h : pathOfNid n (.elem m tg a c cs) = some (j :: p)) :
    ¬ (m = n) ∧ ∃ ch, cs.get? j = some ch ∧ pathOfNid n ch = some p := by
  by_cases hm : m = n
  · simp only [pathOfNid, if_pos hm] at h
    exact absurd h (by simp)
  · simp only [pathOfNid, if_neg hm] at h
    obtain ⟨j2, ch, hk, hget, hp⟩ := pathOfNidF_cons_inv n cs 0 j p h
    have : j2 = j := by omega
    subst this
    exact ⟨hm, ch, hget, hp⟩

theorem setTextAtPath_bridge (w : String) (pX : DomPath) :
    ∀ (t : DomNode) (x : Nat) (s : String), (nidsOf t).Nodup →
      pathOfNid x t = some pX → findByNid x t = some (.txt x s) →
      setTextAtPath t pX w = setTextNid x w t := by
  induction pX with
  | nil =>
      intro t x s hnd hp hf
      cases t with
      | txt m s2 =>
          simp only [pathOfNid] at hp
          by_cases hm : m = x
          · rw [show setTextAtPath (DomNode.txt m s2) [] w = DomNode.txt m w from rfl]
            simp only [setTextNid]
            rw [if_pos hm]
          · rw [if_neg hm] at hp
            exact absurd hp (by simp)
      | elem m tg a c cs =>
          simp only [findByNid] at hf
          by_cases hm : m = x
          · rw [if_pos hm] at hf
            exact absurd hf (by simp)
          · simp only [pathOfNid, if_neg hm] at hp
            obtain ⟨j, p2, ch, habs, _⟩ := pathOfNidF_nodeAt x 0 cs [] hp
            exact absurd habs (by simp)
  | cons j p ih =>
      intro t x s hnd hp hf
      cases t with
      | txt m s2 =>
          simp only [pathOfNid] at hp
          by_cases hm : m = x
          · rw [if_pos hm] at hp
            exact absurd hp (by simp)
          · rw [if_neg hm] at hp
            exact absurd hp (by simp)
      | elem m tg a c cs =>
          simp only [nidsOf, List.nodup_cons] at hnd
          obtain ⟨hm, ch, hget, hpch⟩ := pathOfNid_elem_cons x m tg a c cs j p hp
          simp only [findByNid, if_neg hm] at hf
          have hx : x ∈ nidsOf ch := mem_of_pathOfNid_some x ch p hpch
          have hfch : findByNid x ch = some (.txt x s) := by
            rw [← findByNidF_at_child x cs j ch hnd.2 hget hx]
            exact hf
          have heq := ih ch x s (nodupF_get? cs j ch hnd.2 hget) hpch hfch
          rw [show setTextAtPath (DomNode.elem m tg a c cs) (j :: p) w
              = DomNode.elem m tg a c (replaceAtF cs j (fun y => setTextAtPath y p w))
            from rfl]
          rw [show setTextNid x w (DomNode.elem m tg a c cs)
              = DomNode.elem m tg a c (setTextNidF x w cs) from rfl]
          rw [replaceAtF_setText x w p cs j ch hnd.2 hget hx heq]

theorem removeNthChildAt_bridge (pp : DomPath) :
    ∀ (t : DomNode) (pn c : Nat) (ptg pa pcl : String) (pcs : DomForest)
      (j : Nat) (child : DomNode), (nidsOf t).Nodup →
      pathOfNid pn t = some pp → nodeAt t pp = some (.elem pn ptg pa pcl pcs) →
      pcs.get? j = some child → child.nid = c →
      removeNthChildAt t pp j = removeChildNid pn c t := by
  induction pp with
  | nil =>
      intro t pn c ptg pa pcl pcs j child hnd hp hnode hj hc
      rw [nodeAt_nil, Option.some.injEq] at hnode
      subst hnode
      simp only [nidsOf, List.nodup_cons] at hnd
      rw [show removeNthChildAt (DomNode.elem pn ptg pa pcl pcs) [] j
          = DomNode.elem pn ptg pa pcl (removeIdxF pcs j) from rfl]
      rw [show removeChildNid pn c (DomNode.elem pn ptg pa pcl pcs)
          = DomNode.elem pn ptg pa pcl (removeNidF c pcs) by
        simp only [removeChildNid]
        rw [if_true]]
      rw [removeIdxF_eq_removeNidF pcs j child c (headNidsF_nodup pcs hnd.2) hj hc]
  | cons i p ih =>
      intro t pn c ptg pa pcl pcs j child hnd hp hnode hj hc
      cases t with
      | txt m s2 =>
          simp only [pathOfNid] at hp
          by_cases hm : m = pn
          · rw [if_pos hm] at hp
            exact absurd hp (by simp)
          · rw [if_neg hm] at hp
            exact absurd hp (by simp)
      | elem m tg a cl cs =>
          simp only [nidsOf, List.nodup_cons] at hnd
          obtain ⟨hm, ch, hget, hpch⟩ := pathOfNid_elem_cons pn m tg a cl cs i p hp
          simp only [nodeAt, hget] at hnode
          have hx : pn ∈ nidsOf ch := mem_of_pathOfNid_some pn ch p hpch
          have heq := ih ch pn c ptg pa pcl pcs j child
            (nodupF_get? cs i ch hnd.2 hget) hpch hnode hj hc
          rw [show removeNthChildAt (DomNode.elem m tg a cl cs) (i :: p) j
              = DomNode.elem m tg a cl (replaceAtF cs i (fun y => removeNthChildAt y p j))
            from rfl]
          rw [show removeChildNid pn c (DomNode.elem m tg a cl cs)
              = DomNode.elem m tg a cl (removeChildNidF pn c cs) by
            simp only [removeChildNid]
            rw [if_neg hm]]
          rw [replaceAtF_remove pn c j p cs i ch hnd.2 hget hx heq]

theorem insertChildAt_bridge (pp : DomPath) :
    ∀ (t : DomNode) (pn : Nat) (node : DomNode) (ref : Option Nat) (iopt : Option Nat)
      (ptg pa pcl : String) (pcs : DomForest), (nidsOf t).Nodup →
      pathOfNid pn t = some pp → nodeAt t pp = some (.elem pn ptg pa pcl pcs) →
      (match ref with
        | none => iopt = none
        | some r => ∃ j rch, iopt = some j ∧ pcs.get? j = some rch ∧ rch.nid = r) →
      insertChildAt t pp iopt node = insertBeforeNid pn node ref t := by
  induction pp with
  | nil =>
      intro t pn node ref iopt ptg pa pcl pcs hnd hp hnode href
      rw [nodeAt_nil, Option.some.injEq] at hnode
      subst hnode
      simp only [nidsOf, List.nodup_cons] at hnd
      rw [show insertChildAt (DomNode.elem pn ptg pa pcl pcs) [] iopt node
          = DomNode.elem pn ptg pa pcl (insertIdxF pcs iopt node) from rfl]
      rw [show insertBeforeNid pn node ref (DomNode.elem pn ptg pa pcl pcs)
          = DomNode.elem pn ptg pa pcl (insChildF node ref pcs) by
        simp only [insertBeforeNid]
        rw [if_true]]
      cases ref with
      | none =>
          rw [href]
          cases pcs <;> rfl
      | some r =>
          obtain ⟨j, rch, hio, hget, hr⟩ := href
          rw [hio]
          rw [insertIdxF_eq_insRefF pcs j rch node r (headNidsF_nodup pcs hnd.2) hget hr]
          rfl
  | cons i p ih =>
      intro t pn node ref iopt ptg pa pcl pcs hnd hp hnode href
      cases t with
      | txt m s2 =>
          simp only [pathOfNid] at hp
          by_cases hm : m = pn
          · rw [if_pos hm] at hp
            exact absurd hp (by simp)
          · rw [if_neg hm] at hp
            exact absurd hp (by simp)
      | elem m tg a cl cs =>
          simp only [nidsOf, List.nodup_cons] at hnd
          obtain ⟨hm, ch, hget, hpch⟩ := pathOfNid_elem_cons pn m tg a cl cs i p hp
          simp only [nodeAt, hget] at hnode
          have hx : pn ∈ nidsOf ch := mem_of_pathOfNid_some pn ch p hpch
          have heq := ih ch pn node ref iopt ptg pa pcl pcs
            (nodupF_get? cs i ch hnd.2 hget) hpch hnode href
          rw [show insertChildAt (DomNode.elem m tg a cl cs) (i :: p) iopt node
              = DomNode.elem m tg a cl
                  (replaceAtF cs i (fun y => insertChildAt y p iopt node)) from rfl]
          rw [show insertBeforeNid pn node ref (DomNode.elem m tg a cl cs)
              = DomNode.elem m tg a cl (insertBeforeNidF pn node ref cs) by
            simp only [insertBeforeNid]
            rw [if_neg hm]]
          rw [replaceAtF_insert pn node ref iopt p cs i ch hnd.2 hget hx heq]

/-- The tree component of one record's compile pass (independent of the log,
by `procRecord_fst`). -/
def procRecordTree (wTag wCls : String) (t : DomNode) (r : MRec) : DomNode :=
  (procRecord wTag wCls t [] r).1

/-- The operations one record's compile pass appends to the log, given only
the last already-emitted operation (the only part of the log the
consecutive-duplicate check reads). -/
def procRecordOps (wTag wCls : String) (t : DomNode) (last : Option TOp) (r : MRec) :
    List TOp :=
  match last with
  | none => (procRecord wTag wCls t [] r).2
  | some op => ((procRecord wTag wCls t [op] r).2).drop 1

/-- The whole compiled batch of a record list (newest first), as appended by
the flush loop. -/
def flushOps (wTag wCls : String) : DomNode → Option TOp → List MRec → List TOp
  | _, _, [] => []
  | t, last, r :: rest =>
      procRecordOps wTag wCls t last r ++
        flushOps wTag wCls (procRecordTree wTag wCls t r)
          (((procRecordOps wTag wCls t last r).getLast?).or last) rest

/-- The tree after the whole compile loop. -/
def flushTree (wTag wCls : String) : DomNode → List MRec → DomNode
  | t, [] => t
  | t, r :: rest => flushTree wTag wCls (procRecordTree wTag wCls t r) rest

theorem getLast?_append_ne_nil (l1 l2 : List TOp) (h : l2 ≠ []) :
    (l1 ++ l2).getLast? = l2.getLast? := by
  induction l2 using List.reverseRecOn with
  | nil => exact absurd rfl h
  | append_singleton ys a _ =>
      rw [show l1 ++ (ys ++ [a]) = (l1 ++ ys) ++ [a] by rw [List.append_assoc]]
      rw [List.getLast?_concat, List.getLast?_concat]

theorem getLast?_append_or (l1 l2 : List TOp) :
    (l1 ++ l2).getLast? = (l2.getLast?).or l1.getLast? := by
  induction l2 using List.reverseRecOn with
  | nil => simp [Option.or]
  | append_singleton ys a _ =>
      rw [getLast?_append_ne_nil l1 (ys ++ [a]) (by simp), List.getLast?_concat]
      rfl

theorem pushText_shift (l1 l2 : List TOp) (op : TOp) (h : l2 ≠ []) :
    pushText (l1 ++ l2) op = l1 ++ pushText l2 op := by
  unfold pushText
  rw [getLast?_append_ne_nil l1 l2 h]
  by_cases hc : l2.getLast? = some op
  · rw [if_pos hc, if_pos hc]
  · rw [if_neg hc, if_neg hc, List.append_assoc]

theorem pushText_ne_nil (l : List TOp) (op : TOp) (h : l ≠ []) : pushText l op ≠ [] := by
  unfold pushText
  by_cases hc : l.getLast? = some op
  · rw [if_pos hc]
    exact h
  · rw [if_neg hc]
    simp

theorem procRemoved_shift (wTag wCls : String) (tn : Nat) (ns : Option Nat)
    (rm : List DomNode) :
    ∀ (t : DomNode) (l1 l2 : List TOp),
      procRemoved wTag wCls tn ns t (l1 ++ l2) rm
        = ((procRemoved wTag wCls tn ns t l2 rm).1,
            l1 ++ (procRemoved wTag wCls tn ns t l2 rm).2) := by
  induction rm with
  | nil => intro t l1 l2; rfl
  | cons rn rest ih =>
      intro t l1 l2
      simp only [procRemoved]
      rw [List.append_assoc]
      exact ih _ l1 _

theorem procAdded_shift (wTag wCls : String) (tn : Nat) (ns : Option Nat)
    (ad : List (Nat × DomNode)) :
    ∀ (t : DomNode) (l1 l2 : List TOp),
      procAdded wTag wCls tn ns t (l1 ++ l2) ad
        = ((procAdded wTag wCls tn ns t l2 ad).1,
            l1 ++ (procAdded wTag wCls tn ns t l2 ad).2) := by
  induction ad with
  | nil => intro t l1 l2; rfl
  | cons nv rest ih =>
      intro t l1 l2
      simp only [procAdded]
      rw [List.append_assoc]
      exact ih _ l1 _

theorem procRecord_shift (wTag wCls : String) (t : DomNode) (r : MRec)
    (l1 l2 : List TOp) (h : l2 ≠ []) :
    procRecord wTag wCls t (l1 ++ l2) r
      = ((procRecord wTag wCls t l2 r).1, l1 ++ (procRecord wTag wCls t l2 r).2) := by
  unfold procRecord
  by_cases hc : r.oldValue ≠ none ∧ r.charData
  · rw [if_pos hc, if_pos hc]
    simp only [pushText_shift l1 l2 _ h, procRemoved_shift, procAdded_shift]
  · rw [if_neg hc, if_neg hc]
    simp only [procRemoved_shift, procAdded_shift]

theorem procRemoved_extends (wTag wCls : String) (tn : Nat) (ns : Option Nat)
    (rm : List DomNode) (t : DomNode) (log : List TOp) :
    ∃ d, (procRemoved wTag wCls tn ns t log rm).2 = log ++ d := by
  refine ⟨(procRemoved wTag wCls tn ns t [] rm).2, ?_⟩
  have h := procRemoved_shift wTag wCls tn ns rm t log []
  rw [List.append_nil] at h
  rw [h]

theorem procAdded_extends (wTag wCls : String) (tn : Nat) (ns : Option Nat)
    (ad : List (Nat × DomNode)) (t : DomNode) (log : List TOp) :
    ∃ d, (procAdded wTag wCls tn ns t log ad).2 = log ++ d := by
  refine ⟨(procAdded wTag wCls tn ns t [] ad).2, ?_⟩
  have h := procAdded_shift wTag wCls tn ns ad t log []
  rw [List.append_nil] at h
  rw [h]

theorem pushText_extends (log : List TOp) (op : TOp) :
    ∃ d, pushText log op = log ++ d := by
  unfold pushText
  by_cases hc : log.getLast? = some op
  · exact ⟨[], by rw [if_pos hc, List.append_nil]⟩
  · exact ⟨[op], by rw [if_neg hc]⟩

theorem procRecord_extends (wTag wCls : String) (t : DomNode) (r : MRec)
    (log : List TOp) : ∃ d, (procRecord wTag wCls t log r).2 = log ++ d := by
  unfold procRecord
  by_cases hc : r.oldValue ≠ none ∧ r.charData
  · rw [if_pos hc]
    obtain ⟨d1, hd1⟩ := pushText_extends log
      (.text (getXPathOfNid wTag wCls t r.targetNid)
        (some (textContentOfNid t r.targetNid)))
    obtain ⟨d2, hd2⟩ := procRemoved_extends wTag wCls r.targetNid r.nextSibNid
      r.removed.reverse t (pushText log _)
    obtain ⟨d3, hd3⟩ := procAdded_extends wTag wCls r.targetNid r.nextSibNid
      r.added.reverse _ _
    refine ⟨d1 ++ d2 ++ d3, ?_⟩
    rw [hd3, hd2, hd1]
    simp [List.append_assoc]
  · rw [if_neg hc]
    obtain ⟨d2, hd2⟩ := procRemoved_extends wTag wCls r.targetNid r.nextSibNid
      r.removed.reverse t log
    obtain ⟨d3, hd3⟩ := procAdded_extends wTag wCls r.targetNid r.nextSibNid
      r.added.reverse _ _
    refine ⟨d2 ++ d3, ?_⟩
    rw [hd3, hd2]
    simp [List.append_assoc]

theorem procRecord_decomp (wTag wCls : String) (t : DomNode) (r : MRec)
    (log : List TOp) :
    procRecord wTag wCls t log r
      = (procRecordTree wTag wCls t r, log ++ procRecordOps wTag wCls t log.getLast? r) := by
  induction log using List.reverseRecOn with
  | nil =>
      show procRecord wTag wCls t [] r
        = (procRecordTree wTag wCls t r, [] ++ procRecordOps wTag wCls t [].getLast? r)
      rw [show ([] : List TOp).getLast? = none from rfl]
      rw [show procRecordOps wTag wCls t none r = (procRecord wTag wCls t [] r).2 from rfl]
      rw [show procRecordTree wTag wCls t r = (procRecord wTag wCls t [] r).1 from rfl]
      rw [List.nil_append]
  | append_singleton l a _ =>
      rw [procRecord_shift wTag wCls t r l [a] (by simp)]
      rw [List.getLast?_concat]
      rw [show procRecordOps wTag wCls t (some a) r
          = ((procRecord wTag wCls t [a] r).2).drop 1 from rfl]
      obtain ⟨d, hd⟩ := procRecord_extends wTag wCls t r [a]
      have h1 : (procRecord wTag wCls t [a] r).1 = procRecordTree wTag wCls t r := by
        rw [procRecord_fst]
        rw [show procRecordTree wTag wCls t r = (procRecord wTag wCls t [] r).1 from rfl]
        rw [procRecord_fst]
      rw [h1, hd]
      rw [show (([a] : List TOp) ++ d).drop 1 = d from rfl]
      rw [List.append_assoc]

theorem flushLoop_decomp (wTag wCls : String) (recs : List MRec) :
    ∀ (t : DomNode) (log : List TOp),
      flushLoop wTag wCls t log recs
        = (flushTree wTag wCls t recs,
            log ++ flushOps wTag wCls t log.getLast? recs) := by
  induction recs with
  | nil => intro t log; simp [flushLoop, flushTree, flushOps]
  | cons r rest ih =>
      intro t log
      simp only [flushLoop]
      rw [procRecord_decomp wTag wCls t r log]
      rw [ih (procRecordTree wTag wCls t r) (log ++ procRecordOps wTag wCls t log.getLast? r)]
      rw [getLast?_append_or]
      rw [show flushTree wTag wCls t (r :: rest)
          = flushTree wTag wCls (procRecordTree wTag wCls t r) rest from rfl]
      rw [show flushOps wTag wCls t log.getLast? (r :: rest)
          = procRecordOps wTag wCls t log.getLast? r ++
              flushOps wTag wCls (procRecordTree wTag wCls t r)
                (((procRecordOps wTag wCls t log.getLast? r).getLast?).or log.getLast?) rest
        from rfl]
      rw [List.append_assoc]

theorem syncRev_append (l1 l2 : List TOp) :
    ∀ (m : DomNode), syncRev m (l1 ++ l2)
      = (match syncRev m l1 with
          | .ok m1 => syncRev m1 l2
          | .error e => .error e) := by
  induction l1 with
  | nil => intro m; rfl
  | cons op rest ih =>
      intro m
      simp only [List.cons_append, syncRev]
      cases applyOp m op with
      | ok m1 => exact ih m1
      | error e => rfl

theorem procRecord_text (wTag wCls : String) (t : DomNode) (log : List TOp)
    (X : Nat) (s : String) :
    procRecord wTag wCls t log ⟨true, X, some s, [], [], none⟩
      = (t, pushText log
          (.text (getXPathOfNid wTag wCls t X) (some (textContentOfNid t X)))) := by
  unfold procRecord
  rw [if_pos (by exact ⟨by simp, rfl⟩)]
  rfl

theorem procRecordTree_text (wTag wCls : String) (t : DomNode) (X : Nat) (s : String) :
    procRecordTree wTag wCls t ⟨true, X, some s, [], [], none⟩ = t := by
  unfold procRecordTree
  rw [procRecord_text]

theorem procRecordOps_text (wTag wCls : String) (t : DomNode) (last : Option TOp)
    (X : Nat) (s : String) :
    procRecordOps wTag wCls t last ⟨true, X, some s, [], [], none⟩
      = (if last = some (.text (getXPathOfNid wTag wCls t X)
            (some (textContentOfNid t X))) then []
         else [.text (getXPathOfNid wTag wCls t X) (some (textContentOfNid t X))]) := by
  cases last with
  | none =>
      rw [show procRecordOps wTag wCls t none ⟨true, X, some s, [], [], none⟩
          = (procRecord wTag wCls t [] ⟨true, X, some s, [], [], none⟩).2 from rfl]
      rw [procRecord_text]
      rw [if_neg (by simp)]
      rfl
  | some l =>
      rw [show procRecordOps wTag wCls t (some l) ⟨true, X, some s, [], [], none⟩
          = ((procRecord wTag wCls t [l] ⟨true, X, some s, [], [], none⟩).2).drop 1
        from rfl]
      rw [procRecord_text]
      by_cases hc : l = .text (getXPathOfNid wTag wCls t X) (some (textContentOfNid t X))
      · rw [if_pos (by rw [hc])]
        rw [show pushText [l]
              (.text (getXPathOfNid wTag wCls t X) (some (textContentOfNid t X)))
            = [l] by
          unfold pushText
          rw [if_pos (by rw [hc]; rfl)]]
        rfl
      · rw [if_neg (by simpa using hc)]
        rw [show pushText [l]
              (.text (getXPathOfNid wTag wCls t X) (some (textContentOfNid t X)))
            = [l] ++ [.text (getXPathOfNid wTag wCls t X) (some (textContentOfNid t X))] by
          unfold pushText
          rw [if_neg (by simpa using hc)]]
        rfl

theorem procRecord_remove (wTag wCls : String) (t : DomNode) (log : List TOp)
    (p : Nat) (child : DomNode) (ns : Option Nat) :
    procRecord wTag wCls t log ⟨false, p, none, [], [child], ns⟩
      = (insertBeforeNid p child ns t,
          log ++ [.remove
            (getXPathOfNid wTag wCls (insertBeforeNid p child ns t) child.nid)
            (some (getXPathOfNid wTag wCls (insertBeforeNid p child ns t) p))]) := by
  unfold procRecord
  rw [if_neg (by simp)]
  rfl

theorem procRecordTree_remove (wTag wCls : String) (t : DomNode)
    (p : Nat) (child : DomNode) (ns : Option Nat) :
    procRecordTree wTag wCls t ⟨false, p, none, [], [child], ns⟩
      = insertBeforeNid p child ns t := by
  unfold procRecordTree
  rw [procRecord_remove]

theorem procRecordOps_remove (wTag wCls : String) (t : DomNode) (last : Option TOp)
    (p : Nat) (child : DomNode) (ns : Option Nat) :
    procRecordOps wTag wCls t last ⟨false, p, none, [], [child], ns⟩
      = [.remove (getXPathOfNid wTag wCls (insertBeforeNid p child ns t) child.nid)
          (some (getXPathOfNid wTag wCls (insertBeforeNid p child ns t) p))] := by
  cases last with
  | none =>
      rw [show procRecordOps wTag wCls t none ⟨false, p, none, [], [child], ns⟩
          = (procRecord wTag wCls t [] ⟨false, p, none, [], [child], ns⟩).2 from rfl]
      rw [procRecord_remove]
      rfl
  | some l =>
      rw [show procRecordOps wTag wCls t (some l) ⟨false, p, none, [], [child], ns⟩
          = ((procRecord wTag wCls t [l] ⟨false, p, none, [], [child], ns⟩).2).drop 1
        from rfl]
      rw [procRecord_remove]
      rfl

theorem procRecord_add (wTag wCls : String) (t : DomNode) (log : List TOp)
    (p n : Nat) (v : DomNode) (ref : Option Nat) :
    procRecord wTag wCls t log ⟨false, p, none, [(n, v)], [], ref⟩
      = (if hasParentIn n t then removeChildNid p n t else t,
          log ++ [.add ((findByNid n t).getD v)
            (some (getXPathOfNid wTag wCls
              (if hasParentIn n t then removeChildNid p n t else t) p))
            (match ref with
              | none => none
              | some sb => some (getXPathOfNid wTag wCls
                  (if hasParentIn n t then removeChildNid p n t else t) sb))]) := by
  unfold procRecord
  rw [if_neg (by simp)]
  rfl

theorem procRecordTree_add (wTag wCls : String) (t : DomNode)
    (p n : Nat) (v : DomNode) (ref : Option Nat) :
    procRecordTree wTag wCls t ⟨false, p, none, [(n, v)], [], ref⟩
      = (if hasParentIn n t then removeChildNid p n t else t) := by
  unfold procRecordTree
  rw [procRecord_add]

theorem procRecordOps_add (wTag wCls : String) (t : DomNode) (last : Option TOp)
    (p n : Nat) (v : DomNode) (ref : Option Nat) :
    procRecordOps wTag wCls t last ⟨false, p, none, [(n, v)], [], ref⟩
      = [.add ((findByNid n t).getD v)
          (some (getXPathOfNid wTag wCls
            (if hasParentIn n t then removeChildNid p n t else t) p))
          (match ref with
            | none => none
            | some sb => some (getXPathOfNid wTag wCls
                (if hasParentIn n t then removeChildNid p n t else t) sb))] := by
  cases last with
  | none =>
      rw [show procRecordOps wTag wCls t none ⟨false, p, none, [(n, v)], [], ref⟩
          = (procRecord wTag wCls t [] ⟨false, p, none, [(n, v)], [], ref⟩).2 from rfl]
      rw [procRecord_add]
      rfl
  | some l =>
      rw [show procRecordOps wTag wCls t (some l) ⟨false, p, none, [(n, v)], [], ref⟩
          = ((procRecord wTag wCls t [l] ⟨false, p, none, [(n, v)], [], ref⟩).2).drop 1
        from rfl]
      rw [procRecord_add]
      rfl

/-- Address-stability check for one tree: the computable `addrOKb` conditions
plus the root being identified by its id attribute or by the Watched-Root
tag-plus-class test. -/
def stableB (wTag wCls : String) (t : DomNode) : Bool :=
  addrOKb wTag wCls t && (decide (¬ (t.attrIdOf = "")) || isRootLike wTag wCls t)

/-- Address stability along a whole edit script: every intermediate state of
the live tree satisfies `stableB`. -/
def stableAlong (wTag wCls : String) (t : DomNode) : List DomEdit → Bool
  | [] => stableB wTag wCls t
  | e :: es => stableB wTag wCls t &&
      (match applyEdit t e with
        | some tr => stableAlong wTag wCls tr.1 es
        | none => true)

theorem stableAlong_head (wTag wCls : String) (t : DomNode) (s : List DomEdit)
    (h : stableAlong wTag wCls t s = true) : stableB wTag wCls t = true := by
  cases s with
  | nil => exact h
  | cons e es =>
      simp only [stableAlong, Bool.and_eq_true] at h
      exact h.1

theorem stableAlong_prefix (wTag wCls : String) (s1 : List DomEdit) :
    ∀ (s2 : List DomEdit) (t : DomNode),
      stableAlong wTag wCls t (s1 ++ s2) = true → stableAlong wTag wCls t s1 = true := by
  induction s1 with
  | nil =>
      intro s2 t h
      exact stableAlong_head wTag wCls t s2 h
  | cons e es ih =>
      intro s2 t h
      simp only [List.cons_append, stableAlong, Bool.and_eq_true] at h ⊢
      refine ⟨h.1, ?_⟩
      have h2 := h.2
      cases he : applyEdit t e with
      | none => rfl
      | some tr =>
          rw [he] at h2
          exact ih s2 tr.1 h2

theorem stableAlong_applyScript (wTag wCls : String) (s1 : List DomEdit) :
    ∀ (s2 : List DomEdit) (t t1 : DomNode) (r : List MRec),
      stableAlong wTag wCls t (s1 ++ s2) = true → applyScript t s1 = some (t1, r) →
      stableAlong wTag wCls t1 s2 = true := by
  induction s1 with
  | nil =>
      intro s2 t t1 r h hs
      simp only [applyScript, Option.some.injEq, Prod.mk.injEq] at hs
      exact hs.1 ▸ h
  | cons e es ih =>
      intro s2 t t1 r h hs
      cases he : applyEdit t e with
      | none =>
          rw [show applyScript t (e :: es) = none by simp [applyScript, he]] at hs
          exact absurd hs (by simp)
      | some pr =>
          obtain ⟨ta, ra⟩ := pr
          rw [applyScript_cons_some t e es ta ra he] at hs
          cases hs2 : applyScript ta es with
          | none => rw [hs2] at hs; exact absurd hs (by simp)
          | some pr2 =>
              rw [hs2] at hs
              simp only [Option.map_some', Option.some.injEq, Prod.ext_iff] at hs
              simp only [List.cons_append, stableAlong, Bool.and_eq_true, he] at h
              exact hs.1 ▸ ih s2 ta pr2.1 pr2.2 h.2 (by simp [hs2])

theorem stableB_addrOK (wTag wCls : String) (t : DomNode)
    (h : stableB wTag wCls t = true) : addrOK wTag wCls t := by
  simp only [stableB, Bool.and_eq_true] at h
  exact addrOK_of_b wTag wCls t h.1

theorem stableB_root (wTag wCls : String) (t : DomNode)
    (h : stableB wTag wCls t = true) :
    t.attrIdOf ≠ "" ∨ isRootLike wTag wCls t = true := by
  simp only [stableB, Bool.and_eq_true, Bool.or_eq_true, decide_eq_true_eq] at h
  exact h.2

theorem roundtrip_internal (wTag wCls : String) (doc : DomNode) (p : DomPath)
    (nd : DomNode) (haddr : addrOK wTag wCls doc)
    (hroot : doc.attrIdOf ≠ "" ∨ isRootLike wTag wCls doc = true)
    (hp : nodeAt doc p = some nd) :
    getNodeFromXPath doc (getXPathFromNode wTag wCls doc p) = some p := by
  unfold getXPathFromNode
  have hcur : getNodeFromXPath doc (rootXP wTag wCls doc) = some [] := by
    unfold rootXP
    by_cases hid : doc.attrIdOf = ""
    · rcases hroot with h | h
      · exact absurd hid h
      · rw [if_neg (by simp [hid]), if_pos h]
        rfl
    · rw [if_pos hid]
      exact findIdPath_complete doc.attrIdOf doc [] doc haddr.1 (nodeAt_nil doc) rfl hid
  have hmain := xpath_resolve_aux wTag wCls doc haddr p doc (rootXP wTag wCls doc) [] nd
    hcur (nodeAt_nil doc) hp
  simpa using hmain

theorem getXPathOfNid_ovl_eq (wTag wCls : String) (τ : Nat → Option String)
    (t1 : DomNode) (x : Nat) (px : DomPath) (hp : pathOfNid x t1 = some px) :
    getXPathOfNid wTag wCls (ovlT τ t1) x = getXPathFromNode wTag wCls t1 px := by
  unfold getXPathOfNid
  rw [pathOfNid_ovlT, hp]
  show getXPathFromNode wTag wCls (ovlT τ t1) px = getXPathFromNode wTag wCls t1 px
  rw [getXPathFromNode_ovlT]

theorem resolve_on_ovl (wTag wCls : String) (g : Nat → Option String) (t1 : DomNode)
    (px : DomPath) (nd : DomNode) (hst : stableB wTag wCls t1 = true)
    (hnode : nodeAt t1 px = some nd) :
    getNodeFromXPath (ovlT g t1) (getXPathFromNode wTag wCls t1 px) = some px := by
  rw [getNodeFromXPath_ovlT]
  exact roundtrip_internal wTag wCls t1 px nd (stableB_addrOK wTag wCls t1 hst)
    (stableB_root wTag wCls t1 hst) hnode

theorem getXPathOfNid_inj (wTag wCls : String) (τ τ' : Nat → Option String)
    (t1 : DomNode) (x y : Nat) (px py : DomPath) (hst : stableB wTag wCls t1 = true)
    (hpx : pathOfNid x t1 = some px) (hpy : pathOfNid y t1 = some py)
    (heq : getXPathOfNid wTag wCls (ovlT τ t1) x = getXPathOfNid wTag wCls (ovlT τ' t1) y) :
    x = y := by
  obtain ⟨ndx, hndx, hnidx⟩ := pathOfNid_nodeAt x t1 px hpx
  obtain ⟨ndy, hndy, hnidy⟩ := pathOfNid_nodeAt y t1 py hpy
  rw [getXPathOfNid_ovl_eq wTag wCls τ t1 x px hpx,
      getXPathOfNid_ovl_eq wTag wCls τ' t1 y py hpy] at heq
  have hx := resolve_on_ovl wTag wCls (fun _ => none) t1 px ndx hst hndx
  have hy := resolve_on_ovl wTag wCls (fun _ => none) t1 py ndy hst hndy
  rw [heq] at hx
  rw [hx, Option.some.injEq] at hy
  subst hy
  rw [hndx, Option.some.injEq] at hndy
  rw [← hnidx, ← hnidy, hndy]

mutual
theorem pathOfNid_isSome_of_mem (n : Nat) (t : DomNode)
    (h : n ∈ nidsOf t) : (pathOfNid n t).isSome = true := by
  cases t with
  | txt m s =>
      simp only [nidsOf, List.mem_singleton] at h
      simp [pathOfNid, h.symm]
  | elem m tg a c cs =>
      simp only [nidsOf, List.mem_cons] at h
      simp only [pathOfNid]
      by_cases hm : m = n
      · rw [if_pos hm]
        rfl
      · rw [if_neg hm]
        rcases h with h | h
        · exact absurd h.symm hm
        · exact pathOfNidF_isSome_of_mem n 0 cs h
theorem pathOfNidF_isSome_of_mem (n idx : Nat) (cs : DomForest)
    (h : n ∈ nidsOfF cs) : (pathOfNidF n idx cs).isSome = true := by
  cases cs with
  | nil => simp [nidsOfF] at h
  | cons y ys =>
      simp only [nidsOfF, List.mem_append] at h
      simp only [pathOfNidF]
      cases hy : pathOfNid n y with
      | some p => rfl
      | none =>
          rcases h with h | h
          · have := pathOfNid_isSome_of_mem n y h
            rw [hy] at this
            exact absurd this (by simp)
          · exact pathOfNidF_isSome_of_mem n (idx + 1) ys h
end

theorem asChildOf_append (pp : DomPath) (j : Nat) :
    asChildOf pp (pp ++ [j]) = some j := by
  unfold asChildOf
  rw [if_pos ⟨List.take_left pp [j], by simp⟩]
  rw [List.getLast?_concat]

/-- The pending-duplicate marker of the replay invariant: `last` is exactly
the TEXT operation that the compile pass would emit for node `x` on the
current input tree.  A deviation of the mirror tied to such a marker is
repaired when the operation carrying it is replayed later in the batch. -/
def pendingTOp (wTag wCls : String) (input : DomNode) (last : Option TOp) (x : Nat) :
    Prop :=
  last = some (.text (getXPathOfNid wTag wCls input x)
    (some (textContentOfNid input x)))

/-- Deviation discipline: every overlaid text value on a text node of the
state either already equals the input tree's value for that node, or is
covered by the pending TEXT operation recorded in `last`. -/
def devOK (wTag wCls : String) (input : DomNode) (last : Option TOp) (tn : DomNode)
    (g : Nat → Option String) : Prop :=
  ∀ x v, g x = some v → (∃ s, findByNid x tn = some (.txt x s)) →
    (v = textContentOfNid input x ∨ pendingTOp wTag wCls input last x)

theorem findByNid_setText_txt_inv (X x : Nat) (v s2 : String) (t1 : DomNode)
    (hxX : ¬ (x = X)) (h : findByNid x (setTextNid X v t1) = some (.txt x s2)) :
    findByNid x t1 = some (.txt x s2) := by
  rw [findByNid_setTextNid] at h
  cases hf1 : findByNid x t1 with
  | none => rw [hf1] at h; exact absurd h (by simp)
  | some nd =>
      rw [hf1, Option.map_some', Option.some.injEq] at h
      cases nd with
      | elem nn tt ii cc ccs => simp [setTextNid] at h
      | txt mm ss =>
          by_cases hmm : mm = X
          · rw [show setTextNid X v (DomNode.txt mm ss) = DomNode.txt mm v by
              simp [setTextNid, hmm]] at h
            injection h with e1 e2
            exact absurd (e1 ▸ hmm) hxX
          · rw [show setTextNid X v (DomNode.txt mm ss) = DomNode.txt mm ss by
              simp [setTextNid, hmm]] at h
            rw [h]

theorem UpdateMirrorRemove_ok (m : DomNode) (xpp xps : XP) (pp ps : DomPath) (i : Nat)
    (hne : ¬ (xpp = XP.empty ∨ xps = XP.empty))
    (hrp : getNodeFromXPath m xpp = some pp)
    (hrs : getNodeFromXPath m xps = some ps)
    (hac : asChildOf pp ps = some i) :
    UpdateMirrorRemove m (some xpp) xps = .ok (removeNthChildAt m pp i) := by
  simp only [UpdateMirrorRemove, if_neg hne, hrp, hrs, hac]

theorem UpdateMirrorAdd_ok_none (m : DomNode) (xpp : XP) (node : DomNode) (pp : DomPath)
    (en : Nat) (etg ea ecl : String) (ecs : DomForest)
    (hne : ¬ (xpp = XP.empty))
    (hrp : getNodeFromXPath m xpp = some pp)
    (helem : nodeAt m pp = some (.elem en etg ea ecl ecs)) :
    UpdateMirrorAdd m (some xpp) node none = .ok (insertChildAt m pp none node) := by
  simp only [UpdateMirrorAdd, if_neg hne, hrp, helem]

theorem UpdateMirrorAdd_ok_some (m : DomNode) (xpp sxp : XP) (node : DomNode)
    (pp sp : DomPath) (i : Nat) (en : Nat) (etg ea ecl : String) (ecs : DomForest)
    (hne : ¬ (xpp = XP.empty))
    (hrp : getNodeFromXPath m xpp = some pp)
    (helem : nodeAt m pp = some (.elem en etg ea ecl ecs))
    (hsne : ¬ (sxp = XP.empty))
    (hrs : getNodeFromXPath m sxp = some sp)
    (hac : asChildOf pp sp = some i) :
    UpdateMirrorAdd m (some xpp) node (some sxp)
      = .ok (insertChildAt m pp (some i) node) := by
  simp only [UpdateMirrorAdd, if_neg hne, hrp, helem, if_neg hsne, hrs, hac]

theorem syncRev_single (m : DomNode) (op : TOp) (m2 : DomNode)
    (h : applyOp m op = .ok m2) : syncRev m [op] = .ok m2 := by
  show (match applyOp m op with
    | .ok m1 => syncRev m1 []
    | .error e => Except.error e) = .ok m2
  rw [h]
  rfl

theorem replay_aux (wTag wCls : String) (script : List DomEdit) :
    ∀ (t0 tn : DomNode) (recs : List MRec) (τ : Nat → Option String) (last : Option TOp),
      (nidsOf t0).Nodup →
      applyScript t0 script = some (tn, recs) →
      stableAlong wTag wCls t0 script = true →
      (∀ x, τ x ≠ none → x ∈ nidsOf tn) →
      ∃ g, syncRev t0 ((flushOps wTag wCls (ovlT τ tn) last recs.reverse).reverse)
          = .ok (ovlT g tn) ∧
        devOK wTag wCls (ovlT τ tn) last tn g := by
  induction script using List.reverseRecOn with
  | nil =>
      intro t0 tn recs τ last hnd h hst hτ
      simp only [applyScript, Option.some.injEq, Prod.mk.injEq] at h
      obtain ⟨h1, h2⟩ := h
      subst h1
      subst h2
      refine ⟨fun _ => none, ?_, ?_⟩
      · rw [show flushOps wTag wCls (ovlT τ t0) last ([] : List MRec).reverse = []
          from rfl]
        rw [show ([] : List TOp).reverse = [] from rfl, ovlT_none]
        rfl
      · intro x v hg
        exact absurd hg (by simp)
  | append_singleton es e ih =>
      intro t0 tn recs τ last hnd h hst hτ
      rw [applyScript_append es [e] t0] at h
      cases hs : applyScript t0 es with
      | none => rw [hs] at h; exact absurd h (by simp)
      | some pr =>
          obtain ⟨t1, recs1⟩ := pr
          rw [hs, Option.some_bind] at h
          have hnd1 : (nidsOf t1).Nodup := applyScript_nodup es t0 t1 recs1 hnd hs
          have hst1 : stableAlong wTag wCls t0 es = true :=
            stableAlong_prefix wTag wCls es [e] t0 hst
          have hstB1 : stableB wTag wCls t1 = true :=
            stableAlong_head wTag wCls t1 [e]
              (stableAlong_applyScript wTag wCls es [e] t0 t1 recs1 hst hs)
          cases he : applyEdit t1 e with
          | none =>
              rw [show applyScript t1 [e] = none by simp [applyScript, he]] at h
              exact absurd h (by simp)
          | some pr2 =>
              obtain ⟨t2, re⟩ := pr2
              rw [show applyScript t1 [e] = some (t2, [re]) by
                simp [applyScript, he]] at h
              simp only [Option.map_some', Option.some.injEq, Prod.mk.injEq] at h
              obtain ⟨htn, hrecs⟩ := h
              subst htn
              subst hrecs
              rw [show (recs1 ++ [re]).reverse = re :: recs1.reverse by simp]
              cases e with
              | setT X v =>
                  obtain ⟨m, s, hfX0, ht2, hre⟩ := applyEdit_setT_inv t1 X v t2 re he
                  have hmX : m = X := by
                    have := findByNid_nid X t1 _ hfX0
                    simpa [DomNode.nid] using this
                  have hfX : findByNid X t1 = some (.txt X s) := hmX ▸ hfX0
                  subst ht2
                  subst hre
                  have hovl : ovlT τ (setTextNid X v t1)
                      = ovlT (gUpd τ X ((τ X).getD v)) t1 := ovlT_setTextNid τ X v t1
                  have hXmem : X ∈ nidsOf t1 :=
                    mem_of_findByNid_isSome X t1 (by simp [hfX])
                  have hτ2 : ∀ x, (gUpd τ X ((τ X).getD v)) x ≠ none → x ∈ nidsOf t1 := by
                    intro x hx
                    by_cases hxX : x = X
                    · exact hxX ▸ hXmem
                    · have hτx : τ x ≠ none := by simpa [gUpd, hxX] using hx
                      have := hτ x hτx
                      rwa [nidsOf_setTextNid] at this
                  rw [show flushOps wTag wCls (ovlT τ (setTextNid X v t1)) last
                        (⟨true, X, some s, [], [], none⟩ :: recs1.reverse)
                      = procRecordOps wTag wCls (ovlT τ (setTextNid X v t1)) last
                          ⟨true, X, some s, [], [], none⟩ ++
                          flushOps wTag wCls
                            (procRecordTree wTag wCls (ovlT τ (setTextNid X v t1))
                              ⟨true, X, some s, [], [], none⟩)
                            (((procRecordOps wTag wCls (ovlT τ (setTextNid X v t1)) last
                              ⟨true, X, some s, [], [], none⟩).getLast?).or last)
                            recs1.reverse
                    from rfl]
                  rw [procRecordTree_text, procRecordOps_text]
                  by_cases hdrop : last = some (.text
                      (getXPathOfNid wTag wCls (ovlT τ (setTextNid X v t1)) X)
                      (some (textContentOfNid (ovlT τ (setTextNid X v t1)) X)))
                  · rw [if_pos hdrop]
                    obtain ⟨g1, hsync1, hdev1⟩ :=
                      ih t0 t1 recs1 (gUpd τ X ((τ X).getD v)) last hnd hs hst1 hτ2
                    rw [← hovl] at hsync1
                    rw [List.nil_append]
                    rw [show (([] : List TOp).getLast?).or last = last from rfl]
                    refine ⟨gUpd g1 X ((g1 X).getD s), ?_, ?_⟩
                    · rw [hsync1]
                      have hfm1 : findByNid X (ovlT g1 t1)
                          = some (.txt X ((g1 X).getD s)) := by
                        rw [findByNid_ovlT, hfX]
                        rfl
                      have htree : ovlT (gUpd g1 X ((g1 X).getD s)) (setTextNid X v t1)
                          = ovlT g1 t1 := by
                        rw [← setTextNid_ovlT X ((g1 X).getD s) v g1 t1]
                        exact setTextNid_self X _ (ovlT g1 t1)
                          (by rw [nidsOf_ovlT]; exact hnd1) hfm1
                      rw [htree]
                    · intro x v' hg hguard
                      by_cases hxX : x = X
                      · subst hxX
                        exact Or.inr hdrop
                      · have hg1x : g1 x = some v' := by
                          simpa [gUpd, hxX] using hg
                        obtain ⟨s2, hfind2⟩ := hguard
                        have hfind1 : findByNid x t1 = some (.txt x s2) := by
                          rw [findByNid_setTextNid] at hfind2
                          cases hf1 : findByNid x t1 with
                          | none => rw [hf1] at hfind2; exact absurd hfind2 (by simp)
                          | some nd =>
                              rw [hf1, Option.map_some', Option.some.injEq] at hfind2
                              cases nd with
                              | elem nn tt ii cc ccs =>
                                  simp [setTextNid] at hfind2
                              | txt mm ss =>
                                  by_cases hmm : mm = X
                                  · rw [show setTextNid X v (DomNode.txt mm ss)
                                        = DomNode.txt mm v by
                                      simp [setTextNid, hmm]] at hfind2
                                    injection hfind2 with e1 e2
                                    exact absurd (e1 ▸ hmm) hxX
                                  · rw [show setTextNid X v (DomNode.txt mm ss)
                                        = DomNode.txt mm ss by
                                      simp [setTextNid, hmm]] at hfind2
                                    rw [hfind2]
                        rcases hdev1 x v' hg1x ⟨s2, hfind1⟩ with hl | hr
                        · left
                          rw [show ovlT τ (setTextNid X v t1)
                              = ovlT (gUpd τ X ((τ X).getD v)) t1 from hovl]
                          exact hl
                        · right
                          unfold pendingTOp at hr ⊢
                          rw [show ovlT τ (setTextNid X v t1)
                              = ovlT (gUpd τ X ((τ X).getD v)) t1 from hovl]
                          exact hr
                  · rw [if_neg hdrop]
                    rw [show (([(TOp.text
                          (getXPathOfNid wTag wCls (ovlT τ (setTextNid X v t1)) X)
                          (some (textContentOfNid (ovlT τ (setTextNid X v t1)) X)))]
                        : List TOp).getLast?).or last
                      = some (TOp.text
                          (getXPathOfNid wTag wCls (ovlT τ (setTextNid X v t1)) X)
                          (some (textContentOfNid (ovlT τ (setTextNid X v t1)) X)))
                      from rfl]
                    obtain ⟨g1, hsync1, hdev1⟩ :=
                      ih t0 t1 recs1 (gUpd τ X ((τ X).getD v))
                        (some (TOp.text
                          (getXPathOfNid wTag wCls (ovlT τ (setTextNid X v t1)) X)
                          (some (textContentOfNid (ovlT τ (setTextNid X v t1)) X))))
                        hnd hs hst1 hτ2
                    rw [← hovl] at hsync1
                    have hpsome := pathOfNid_isSome_of_mem X t1 hXmem
                    obtain ⟨px, hpx⟩ : ∃ px, pathOfNid X t1 = some px := by
                      cases hp : pathOfNid X t1 with
                      | none => rw [hp] at hpsome; exact absurd hpsome (by simp)
                      | some q => exact ⟨q, rfl⟩
                    obtain ⟨nd0, hndAt, hnid0⟩ := pathOfNid_nodeAt X t1 px hpx
                    have hnd0txt : nd0 = .txt X s := by
                      have hcomp := findByNid_complete X t1 px nd0 hnd1 hndAt hnid0
                      rw [hfX] at hcomp
                      exact (Option.some.inj hcomp).symm
                    subst hnd0txt
                    have hxpeq : getXPathOfNid wTag wCls (ovlT τ (setTextNid X v t1)) X
                        = getXPathFromNode wTag wCls t1 px := by
                      rw [hovl]
                      exact getXPathOfNid_ovl_eq wTag wCls _ t1 X px hpx
                    have hres : getNodeFromXPath (ovlT g1 t1)
                        (getXPathOfNid wTag wCls (ovlT τ (setTextNid X v t1)) X)
                        = some px := by
                      rw [hxpeq]
                      exact resolve_on_ovl wTag wCls g1 t1 px _ hstB1 hndAt
                    have hnemp : getXPathOfNid wTag wCls (ovlT τ (setTextNid X v t1)) X
                        ≠ XP.empty := by
                      intro hemp
                      rw [hemp] at hres
                      exact absurd hres (by simp [getNodeFromXPath])
                    have hfm1 : findByNid X (ovlT g1 t1)
                        = some (.txt X ((g1 X).getD s)) := by
                      rw [findByNid_ovlT, hfX]
                      rfl
                    have hupd : UpdateMirrorText (ovlT g1 t1)
                        (getXPathOfNid wTag wCls (ovlT τ (setTextNid X v t1)) X)
                        (some (textContentOfNid (ovlT τ (setTextNid X v t1)) X))
                        = ovlT (gUpd g1 X (textContentOfNid (ovlT τ (setTextNid X v t1)) X))
                            (setTextNid X v t1) := by
                      unfold UpdateMirrorText
                      rw [if_neg hnemp, hres]
                      show setTextAtPath (ovlT g1 t1) px
                          (textContentOfNid (ovlT τ (setTextNid X v t1)) X)
                        = ovlT (gUpd g1 X (textContentOfNid (ovlT τ (setTextNid X v t1)) X))
                            (setTextNid X v t1)
                      rw [setTextAtPath_bridge
                        (textContentOfNid (ovlT τ (setTextNid X v t1)) X) px
                        (ovlT g1 t1) X ((g1 X).getD s)
                        (by rw [nidsOf_ovlT]; exact hnd1)
                        (by rw [pathOfNid_ovlT]; exact hpx) hfm1]
                      exact setTextNid_ovlT X _ v g1 t1
                    refine ⟨gUpd g1 X (textContentOfNid (ovlT τ (setTextNid X v t1)) X),
                      ?_, ?_⟩
                    · rw [List.reverse_append, syncRev_append, hsync1]
                      show Except.ok (UpdateMirrorText (ovlT g1 t1)
                          (getXPathOfNid wTag wCls (ovlT τ (setTextNid X v t1)) X)
                          (some (textContentOfNid (ovlT τ (setTextNid X v t1)) X)))
                        = Except.ok (ovlT
                            (gUpd g1 X (textContentOfNid (ovlT τ (setTextNid X v t1)) X))
                            (setTextNid X v t1))
                      rw [hupd]
                    · intro x v' hg hguard
                      by_cases hxX : x = X
                      · subst hxX
                        left
                        rw [show gUpd g1 x
                              (textContentOfNid (ovlT τ (setTextNid x v t1)) x) x
                            = some (textContentOfNid (ovlT τ (setTextNid x v t1)) x) by
                          simp [gUpd]] at hg
                        exact (Option.some.inj hg).symm
                      · have hg1x : g1 x = some v' := by
                          simpa [gUpd, hxX] using hg
                        obtain ⟨s2, hfind2⟩ := hguard
                        have hfind1 : findByNid x t1 = some (.txt x s2) :=
                          findByNid_setText_txt_inv X x v s2 t1 hxX hfind2
                        rcases hdev1 x v' hg1x ⟨s2, hfind1⟩ with hl | hr
                        · left
                          rw [hovl]
                          exact hl
                        · exfalso
                          unfold pendingTOp at hr
                          have hinj := Option.some.inj hr
                          have haddr_eq : getXPathOfNid wTag wCls
                              (ovlT τ (setTextNid X v t1)) X
                              = getXPathOfNid wTag wCls
                                  (ovlT (gUpd τ X ((τ X).getD v)) t1) x := by
                            injection hinj with a1 a2
                          have hxmem1 : x ∈ nidsOf t1 :=
                            mem_of_findByNid_isSome x t1 (by simp [hfind1])
                          have hpys := pathOfNid_isSome_of_mem x t1 hxmem1
                          obtain ⟨py, hpy⟩ : ∃ py, pathOfNid x t1 = some py := by
                            cases hp2 : pathOfNid x t1 with
                            | none => rw [hp2] at hpys; exact absurd hpys (by simp)
                            | some q => exact ⟨q, rfl⟩
                          rw [hovl] at haddr_eq
                          have := getXPathOfNid_inj wTag wCls
                            (gUpd τ X ((τ X).getD v)) (gUpd τ X ((τ X).getD v))
                            t1 X x px py hstB1 hpx hpy haddr_eq
                          exact hxX this.symm
              | insB p node ref =>
                  obtain ⟨ht2, hre, ⟨cs, hcs, href⟩, hfresh, hndn⟩ :=
                    applyEdit_insB_inv t1 p node ref t2 re he
                  obtain ⟨ptg, pa, pcl, hfind⟩ := childrenOfNid_inv t1 p cs hcs
                  subst ht2
                  subst hre
                  have hfreshn : node.nid ∉ nidsOf t1 :=
                    hfresh node.nid (nid_mem_nidsOf node)
                  have hfindTn : findByNid node.nid (insertBeforeNid p node ref t1)
                      = some node :=
                    findByNid_insert_self p node ref t1 p ptg pa pcl cs hfind hfreshn
                  have hcancel : removeChildNid p node.nid (insertBeforeNid p node ref t1)
                      = t1 := remInsCancel p node.nid node ref t1 hfreshn rfl
                  have hpar : hasParentIn node.nid (insertBeforeNid p node ref t1)
                      = true :=
                    hasParentIn_insert p node.nid node ref t1 p ptg pa pcl cs hfind rfl
                  have hparOvl : hasParentIn node.nid
                      (ovlT τ (insertBeforeNid p node ref t1)) = true := by
                    rw [hasParentIn_ovlT]
                    exact hpar
                  have hclone : findByNid node.nid
                      (ovlT τ (insertBeforeNid p node ref t1)) = some (ovlT τ node) := by
                    rw [findByNid_ovlT, hfindTn]
                    rfl
                  have hdetach : removeChildNid p node.nid
                      (ovlT τ (insertBeforeNid p node ref t1)) = ovlT τ t1 := by
                    rw [← ovlT_removeChildNid, hcancel]
                  have hagree : ovlT τ t1
                      = ovlT (fun x => if x ∈ nidsOf node then none else τ x) t1 := by
                    apply ovlT_agree
                    intro x hx
                    rw [if_neg (fun hmem => hfresh x hmem hx)]
                  have hτp : ∀ x, (fun y => if y ∈ nidsOf node then none else τ y) x ≠ none
                      → x ∈ nidsOf t1 := by
                    intro x hx
                    by_cases hmem : x ∈ nidsOf node
                    · simp [hmem] at hx
                    · have hτx : τ x ≠ none := by simpa [hmem] using hx
                      rcases mem_nidsOf_insert_inv p node ref t1 x (hτ x hτx) with hh | hh
                      · exact absurd hh hmem
                      · exact hh
                  have hpmem : p ∈ nidsOf t1 :=
                    mem_of_findByNid_isSome p t1 (by simp [hfind])
                  have hppsome := pathOfNid_isSome_of_mem p t1 hpmem
                  obtain ⟨pp, hpp⟩ : ∃ pp, pathOfNid p t1 = some pp := by
                    cases hp2 : pathOfNid p t1 with
                    | none => rw [hp2] at hppsome; exact absurd hppsome (by simp)
                    | some q => exact ⟨q, rfl⟩
                  obtain ⟨ndp, hndpAt, hnidp⟩ := pathOfNid_nodeAt p t1 pp hpp
                  have hndpE : ndp = .elem p ptg pa pcl cs := by
                    have hcomp := findByNid_complete p t1 pp ndp hnd1 hndpAt hnidp
                    rw [hfind] at hcomp
                    exact (Option.some.inj hcomp).symm
                  subst hndpE
                  have hxpp : getXPathOfNid wTag wCls (ovlT τ t1) p
                      = getXPathFromNode wTag wCls t1 pp :=
                    getXPathOfNid_ovl_eq wTag wCls τ t1 p pp hpp
                  cases ref with
                  | none =>
                      obtain ⟨g1, hsync1, hdev1⟩ := ih t0 t1 recs1
                        (fun x => if x ∈ nidsOf node then none else τ x)
                        (some (.add (ovlT τ node)
                          (some (getXPathOfNid wTag wCls (ovlT τ t1) p)) none))
                        hnd hs hst1 hτp
                      rw [← hagree] at hsync1
                      have hresP : getNodeFromXPath (ovlT g1 t1)
                          (getXPathOfNid wTag wCls (ovlT τ t1) p) = some pp := by
                        rw [hxpp]
                        exact resolve_on_ovl wTag wCls g1 t1 pp _ hstB1 hndpAt
                      have hneP : ¬ (getXPathOfNid wTag wCls (ovlT τ t1) p
                          = XP.empty) := by
                        intro hemp
                        rw [hemp] at hresP
                        exact absurd hresP (by simp [getNodeFromXPath])
                      have helem : nodeAt (ovlT g1 t1) pp
                          = some (.elem p ptg pa pcl (ovlTF g1 cs)) := by
                        rw [nodeAt_ovlT, hndpAt]
                        rfl
                      have hbridge : insertChildAt (ovlT g1 t1) pp none (ovlT τ node)
                          = insertBeforeNid p (ovlT τ node) none (ovlT g1 t1) :=
                        insertChildAt_bridge pp (ovlT g1 t1) p (ovlT τ node) none none
                          ptg pa pcl (ovlTF g1 cs)
                          (by rw [nidsOf_ovlT]; exact hnd1)
                          (by rw [pathOfNid_ovlT]; exact hpp)
                          helem rfl
                      have htree : insertBeforeNid p (ovlT τ node) none (ovlT g1 t1)
                          = ovlT (fun x => if x ∈ nidsOf node then τ x else g1 x)
                              (insertBeforeNid p node none t1) := by
                        rw [ovlT_insertBeforeNid]
                        rw [show ovlT (fun x => if x ∈ nidsOf node then τ x else g1 x) node
                            = ovlT τ node by
                          apply ovlT_agree
                          intro x hx
                          rw [if_pos hx]]
                        rw [show ovlT (fun x => if x ∈ nidsOf node then τ x else g1 x) t1
                            = ovlT g1 t1 by
                          apply ovlT_agree
                          intro x hx
                          rw [if_neg (fun hmem => hfresh x hmem hx)]]
                      have happly : applyOp (ovlT g1 t1)
                          (.add (ovlT τ node)
                            (some (getXPathOfNid wTag wCls (ovlT τ t1) p)) none)
                          = .ok (ovlT (fun x => if x ∈ nidsOf node then τ x else g1 x)
                              (insertBeforeNid p node none t1)) := by
                        show UpdateMirrorAdd (ovlT g1 t1)
                            (some (getXPathOfNid wTag wCls (ovlT τ t1) p))
                            (ovlT τ node) none = _
                        rw [UpdateMirrorAdd_ok_none (ovlT g1 t1)
                          (getXPathOfNid wTag wCls (ovlT τ t1) p) (ovlT τ node) pp
                          p ptg pa pcl (ovlTF g1 cs) hneP hresP helem]
                        rw [hbridge, htree]
                      refine ⟨fun x => if x ∈ nidsOf node then τ x else g1 x, ?_, ?_⟩
                      · rw [show flushOps wTag wCls
                            (ovlT τ (insertBeforeNid p node none t1)) last
                            (⟨false, p, none, [(node.nid, node)], [], none⟩
                              :: recs1.reverse)
                          = procRecordOps wTag wCls
                              (ovlT τ (insertBeforeNid p node none t1)) last
                              ⟨false, p, none, [(node.nid, node)], [], none⟩ ++
                              flushOps wTag wCls
                                (procRecordTree wTag wCls
                                  (ovlT τ (insertBeforeNid p node none t1))
                                  ⟨false, p, none, [(node.nid, node)], [], none⟩)
                                (((procRecordOps wTag wCls
                                  (ovlT τ (insertBeforeNid p node none t1)) last
                                  ⟨false, p, none, [(node.nid, node)], [], none⟩
                                  ).getLast?).or last)
                                recs1.reverse
                          from rfl]
                        rw [procRecordTree_add, procRecordOps_add]
                        rw [if_pos hparOvl, hdetach, hclone]
                        rw [show (some (ovlT τ node)).getD node = ovlT τ node from rfl]
                        rw [show (match (none : Option Nat) with
                            | none => (none : Option XP)
                            | some sb => some (getXPathOfNid wTag wCls (ovlT τ t1) sb))
                          = (none : Option XP) from rfl]
                        rw [show ((([(TOp.add (ovlT τ node)
                              (some (getXPathOfNid wTag wCls (ovlT τ t1) p))
                              none)]) : List TOp).getLast?).or last
                          = some (TOp.add (ovlT τ node)
                              (some (getXPathOfNid wTag wCls (ovlT τ t1) p)) none)
                          from rfl]
                        rw [List.reverse_append]
                        rw [show ([TOp.add (ovlT τ node)
                              (some (getXPathOfNid wTag wCls (ovlT τ t1) p)) none]
                            : List TOp).reverse
                          = [TOp.add (ovlT τ node)
                              (some (getXPathOfNid wTag wCls (ovlT τ t1) p)) none]
                          from rfl]
                        rw [syncRev_append]
                        rw [hsync1]
                        exact syncRev_single _ _ _ happly
                      · intro x v hg hguard
                        obtain ⟨s2, hfind2⟩ := hguard
                        by_cases hmem : x ∈ nidsOf node
                        · have hg2 : τ x = some v := by simpa [hmem] using hg
                          left
                          rw [textContentOfNid_ovlT_txt τ _ x s2 hfind2, hg2]
                          rfl
                        · have hg2 : g1 x = some v := by simpa [hmem] using hg
                          have hfind1 : findByNid x t1 = some (.txt x s2) :=
                            findByNid_insert_txt_inv p x s2 node none t1 hmem hfind2
                          rcases hdev1 x v hg2 ⟨s2, hfind1⟩ with hl | hr
                          · left
                            rw [textContentOfNid_ovlT_txt τ _ x s2 hfind2]
                            rw [← hagree] at hdev1
                            rw [textContentOfNid_ovlT_txt
                              (fun y => if y ∈ nidsOf node then none else τ y)
                              t1 x s2 hfind1] at hl
                            rw [if_neg hmem] at hl
                            exact hl
                          · exfalso
                            unfold pendingTOp at hr
                            exact TOp.noConfusion (Option.some.inj hr)
                  | some r =>
                      have hch : childHere r cs = true := by simpa [refOkB] using href
                      obtain ⟨jr, rch, hjr, hrn⟩ := childHere_get? r cs hch
                      have hnodeR : nodeAt t1 (pp ++ [jr]) = some rch := by
                        rw [nodeAt_append, hndpAt, Option.some_bind]
                        simp only [nodeAt, hjr]
                      have hpr : pathOfNid r t1 = some (pp ++ [jr]) :=
                        pathOfNid_complete r t1 (pp ++ [jr]) rch hnd1 hnodeR hrn
                      have hxpr : getXPathOfNid wTag wCls (ovlT τ t1) r
                          = getXPathFromNode wTag wCls t1 (pp ++ [jr]) :=
                        getXPathOfNid_ovl_eq wTag wCls τ t1 r (pp ++ [jr]) hpr
                      obtain ⟨g1, hsync1, hdev1⟩ := ih t0 t1 recs1
                        (fun x => if x ∈ nidsOf node then none else τ x)
                        (some (.add (ovlT τ node)
                          (some (getXPathOfNid wTag wCls (ovlT τ t1) p))
                          (some (getXPathOfNid wTag wCls (ovlT τ t1) r))))
                        hnd hs hst1 hτp
                      rw [← hagree] at hsync1
                      have hresP : getNodeFromXPath (ovlT g1 t1)
                          (getXPathOfNid wTag wCls (ovlT τ t1) p) = some pp := by
                        rw [hxpp]
                        exact resolve_on_ovl wTag wCls g1 t1 pp _ hstB1 hndpAt
                      have hneP : ¬ (getXPathOfNid wTag wCls (ovlT τ t1) p
                          = XP.empty) := by
                        intro hemp
                        rw [hemp] at hresP
                        exact absurd hresP (by simp [getNodeFromXPath])
                      have hresR : getNodeFromXPath (ovlT g1 t1)
                          (getXPathOfNid wTag wCls (ovlT τ t1) r)
                          = some (pp ++ [jr]) := by
                        rw [hxpr]
                        exact resolve_on_ovl wTag wCls g1 t1 (pp ++ [jr]) _ hstB1 hnodeR
                      have hneR : ¬ (getXPathOfNid wTag wCls (ovlT τ t1) r
                          = XP.empty) := by
                        intro hemp
                        rw [hemp] at hresR
                        exact absurd hresR (by simp [getNodeFromXPath])
                      have helem : nodeAt (ovlT g1 t1) pp
                          = some (.elem p ptg pa pcl (ovlTF g1 cs)) := by
                        rw [nodeAt_ovlT, hndpAt]
                        rfl
                      have hbridge : insertChildAt (ovlT g1 t1) pp (some jr) (ovlT τ node)
                          = insertBeforeNid p (ovlT τ node) (some r) (ovlT g1 t1) :=
                        insertChildAt_bridge pp (ovlT g1 t1) p (ovlT τ node) (some r)
                          (some jr) ptg pa pcl (ovlTF g1 cs)
                          (by rw [nidsOf_ovlT]; exact hnd1)
                          (by rw [pathOfNid_ovlT]; exact hpp)
                          helem
                          ⟨jr, ovlT g1 rch, rfl,
                            by rw [ovlTF_get?, hjr]; rfl,
                            by rw [ovlT_nid]; exact hrn⟩
                      have htree : insertBeforeNid p (ovlT τ node) (some r) (ovlT g1 t1)
                          = ovlT (fun x => if x ∈ nidsOf node then τ x else g1 x)
                              (insertBeforeNid p node (some r) t1) := by
                        rw [ovlT_insertBeforeNid]
                        rw [show ovlT (fun x => if x ∈ nidsOf node then τ x else g1 x) node
                            = ovlT τ node by
                          apply ovlT_agree
                          intro x hx
                          rw [if_pos hx]]
                        rw [show ovlT (fun x => if x ∈ nidsOf node then τ x else g1 x) t1
                            = ovlT g1 t1 by
                          apply ovlT_agree
                          intro x hx
                          rw [if_neg (fun hmem => hfresh x hmem hx)]]
                      have happly : applyOp (ovlT g1 t1)
                          (.add (ovlT τ node)
                            (some (getXPathOfNid wTag wCls (ovlT τ t1) p))
                            (some (getXPathOfNid wTag wCls (ovlT τ t1) r)))
                          = .ok (ovlT (fun x => if x ∈ nidsOf node then τ x else g1 x)
                              (insertBeforeNid p node (some r) t1)) := by
                        show UpdateMirrorAdd (ovlT g1 t1)
                            (some (getXPathOfNid wTag wCls (ovlT τ t1) p))
                            (ovlT τ node)
                            (some (getXPathOfNid wTag wCls (ovlT τ t1) r)) = _
                        rw [UpdateMirrorAdd_ok_some (ovlT g1 t1)
                          (getXPathOfNid wTag wCls (ovlT τ t1) p)
                          (getXPathOfNid wTag wCls (ovlT τ t1) r)
                          (ovlT τ node) pp (pp ++ [jr]) jr
                          p ptg pa pcl (ovlTF g1 cs) hneP hresP helem hneR hresR
                          (asChildOf_append pp jr)]
                        rw [hbridge, htree]
                      refine ⟨fun x => if x ∈ nidsOf node then τ x else g1 x, ?_, ?_⟩
                      · rw [show flushOps wTag wCls
                            (ovlT τ (insertBeforeNid p node (some r) t1)) last
                            (⟨false, p, none, [(node.nid, node)], [], some r⟩
                              :: recs1.reverse)
                          = procRecordOps wTag wCls
                              (ovlT τ (insertBeforeNid p node (some r) t1)) last
                              ⟨false, p, none, [(node.nid, node)], [], some r⟩ ++
                              flushOps wTag wCls
                                (procRecordTree wTag wCls
                                  (ovlT τ (insertBeforeNid p node (some r) t1))
                                  ⟨false, p, none, [(node.nid, node)], [], some r⟩)
                                (((procRecordOps wTag wCls
                                  (ovlT τ (insertBeforeNid p node (some r) t1)) last
                                  ⟨false, p, none, [(node.nid, node)], [], some r⟩
                                  ).getLast?).or last)
                                recs1.reverse
                          from rfl]
                        rw [procRecordTree_add, procRecordOps_add]
                        rw [if_pos hparOvl, hdetach, hclone]
                        rw [show (some (ovlT τ node)).getD node = ovlT τ node from rfl]
                        rw [show (match (some r : Option Nat) with
                            | none => (none : Option XP)
                            | some sb => some (getXPathOfNid wTag wCls (ovlT τ t1) sb))
                          = some (getXPathOfNid wTag wCls (ovlT τ t1) r) from rfl]
                        rw [show ((([(TOp.add (ovlT τ node)
                              (some (getXPathOfNid wTag wCls (ovlT τ t1) p))
                              (some (getXPathOfNid wTag wCls (ovlT τ t1) r)))])
                              : List TOp).getLast?).or last
                          = some (TOp.add (ovlT τ node)
                              (some (getXPathOfNid wTag wCls (ovlT τ t1) p))
                              (some (getXPathOfNid wTag wCls (ovlT τ t1) r)))
                          from rfl]
                        rw [List.reverse_append]
                        rw [show ([TOp.add (ovlT τ node)
                              (some (getXPathOfNid wTag wCls (ovlT τ t1) p))
                              (some (getXPathOfNid wTag wCls (ovlT τ t1) r))]
                            : List TOp).reverse
                          = [TOp.add (ovlT τ node)
                              (some (getXPathOfNid wTag wCls (ovlT τ t1) p))
                              (some (getXPathOfNid wTag wCls (ovlT τ t1) r))]
                          from rfl]
                        rw [syncRev_append]
                        rw [hsync1]
                        exact syncRev_single _ _ _ happly
                      · intro x v hg hguard
                        obtain ⟨s2, hfind2⟩ := hguard
                        by_cases hmem : x ∈ nidsOf node
                        · have hg2 : τ x = some v := by simpa [hmem] using hg
                          left
                          rw [textContentOfNid_ovlT_txt τ _ x s2 hfind2, hg2]
                          rfl
                        · have hg2 : g1 x = some v := by simpa [hmem] using hg
                          have hfind1 : findByNid x t1 = some (.txt x s2) :=
                            findByNid_insert_txt_inv p x s2 node (some r) t1 hmem hfind2
                          rcases hdev1 x v hg2 ⟨s2, hfind1⟩ with hl | hr
                          · left
                            rw [textContentOfNid_ovlT_txt τ _ x s2 hfind2]
                            rw [textContentOfNid_ovlT_txt
                              (fun y => if y ∈ nidsOf node then none else τ y)
                              t1 x s2 hfind1] at hl
                            rw [if_neg hmem] at hl
                            exact hl
                          · exfalso
                            unfold pendingTOp at hr
                            exact TOp.noConfusion (Option.some.inj hr)
              | remC p c =>
                  obtain ⟨cs, j, child, hcs, hj, hcn, ht2, hre⟩ :=
                    applyEdit_remC_inv t1 p c t2 re he
                  obtain ⟨ptg, pa, pcl, hfind⟩ := childrenOfNid_inv t1 p cs hcs
                  subst ht2
                  subst hre
                  have hE1 : insertBeforeNid p child ((cs.get? (j+1)).map DomNode.nid)
                      (removeChildNid p c t1) = t1 :=
                    insRemCancel p c j child t1 p ptg pa pcl cs hnd1 hfind hj hcn
                  have hfindTn : findByNid p (removeChildNid p c t1)
                      = some (.elem p ptg pa pcl (removeNidF c cs)) :=
                    findByNid_removeChild_target p c t1 ptg pa pcl cs hfind
                  have hndTn : (nidsOf (removeChildNid p c t1)).Nodup :=
                    (nidsOf_removeChildNid_sublist p c t1).nodup hnd1
                  have hperm0 := nidsOf_insert_perm p child
                    ((cs.get? (j+1)).map DomNode.nid) (removeChildNid p c t1)
                    p ptg pa pcl (removeNidF c cs) hndTn hfindTn
                  rw [hE1] at hperm0
                  have hdisj : ∀ x ∈ nidsOf child, x ∉ nidsOf (removeChildNid p c t1) := by
                    intro x hx hx2
                    exact (List.nodup_append.mp (hperm0.nodup_iff.mp hnd1)).2.2 hx hx2
                  have hovlchild : ovlT τ child = child := by
                    apply ovlT_absent
                    intro x hx
                    cases hτx : τ x with
                    | none => rfl
                    | some w => exact absurd (hτ x (by simp [hτx])) (hdisj x hx)
                  have hE2 : insertBeforeNid p child ((cs.get? (j+1)).map DomNode.nid)
                      (ovlT τ (removeChildNid p c t1)) = ovlT τ t1 := by
                    have hstep : ovlT τ (insertBeforeNid p child
                        ((cs.get? (j+1)).map DomNode.nid) (removeChildNid p c t1))
                        = insertBeforeNid p child ((cs.get? (j+1)).map DomNode.nid)
                          (ovlT τ (removeChildNid p c t1)) := by
                      rw [ovlT_insertBeforeNid, hovlchild]
                    rw [← hstep, hE1]
                  have hτ1 : ∀ x, τ x ≠ none → x ∈ nidsOf t1 := fun x hx =>
                    (nidsOf_removeChildNid_sublist p c t1).subset (hτ x hx)
                  have hpmem : p ∈ nidsOf t1 :=
                    mem_of_findByNid_isSome p t1 (by simp [hfind])
                  have hppsome := pathOfNid_isSome_of_mem p t1 hpmem
                  obtain ⟨pp, hpp⟩ : ∃ pp, pathOfNid p t1 = some pp := by
                    cases hp2 : pathOfNid p t1 with
                    | none => rw [hp2] at hppsome; exact absurd hppsome (by simp)
                    | some q => exact ⟨q, rfl⟩
                  obtain ⟨ndp, hndpAt, hnidp⟩ := pathOfNid_nodeAt p t1 pp hpp
                  have hndpE : ndp = .elem p ptg pa pcl cs := by
                    have hcomp := findByNid_complete p t1 pp ndp hnd1 hndpAt hnidp
                    rw [hfind] at hcomp
                    exact (Option.some.inj hcomp).symm
                  subst hndpE
                  have hnodeChild : nodeAt t1 (pp ++ [j]) = some child := by
                    rw [nodeAt_append, hndpAt, Option.some_bind]
                    simp only [nodeAt, hj]
                  have hpc : pathOfNid child.nid t1 = some (pp ++ [j]) :=
                    pathOfNid_complete child.nid t1 (pp ++ [j]) child hnd1 hnodeChild rfl
                  have hxpp : getXPathOfNid wTag wCls (ovlT τ t1) p
                      = getXPathFromNode wTag wCls t1 pp :=
                    getXPathOfNid_ovl_eq wTag wCls τ t1 p pp hpp
                  have hxpc : getXPathOfNid wTag wCls (ovlT τ t1) child.nid
                      = getXPathFromNode wTag wCls t1 (pp ++ [j]) :=
                    getXPathOfNid_ovl_eq wTag wCls τ t1 child.nid (pp ++ [j]) hpc
                  obtain ⟨g1, hsync1, hdev1⟩ := ih t0 t1 recs1 τ
                    (some (.remove (getXPathOfNid wTag wCls (ovlT τ t1) child.nid)
                      (some (getXPathOfNid wTag wCls (ovlT τ t1) p))))
                    hnd hs hst1 hτ1
                  have hresP : getNodeFromXPath (ovlT g1 t1)
                      (getXPathOfNid wTag wCls (ovlT τ t1) p) = some pp := by
                    rw [hxpp]
                    exact resolve_on_ovl wTag wCls g1 t1 pp _ hstB1 hndpAt
                  have hresC : getNodeFromXPath (ovlT g1 t1)
                      (getXPathOfNid wTag wCls (ovlT τ t1) child.nid)
                      = some (pp ++ [j]) := by
                    rw [hxpc]
                    exact resolve_on_ovl wTag wCls g1 t1 (pp ++ [j]) _ hstB1 hnodeChild
                  have hneP : getXPathOfNid wTag wCls (ovlT τ t1) p ≠ XP.empty := by
                    intro hemp
                    rw [hemp] at hresP
                    exact absurd hresP (by simp [getNodeFromXPath])
                  have hneC : getXPathOfNid wTag wCls (ovlT τ t1) child.nid
                      ≠ XP.empty := by
                    intro hemp
                    rw [hemp] at hresC
                    exact absurd hresC (by simp [getNodeFromXPath])
                  have hbridge : removeNthChildAt (ovlT g1 t1) pp j
                      = removeChildNid p c (ovlT g1 t1) :=
                    removeNthChildAt_bridge pp (ovlT g1 t1) p c ptg pa pcl
                      (ovlTF g1 cs) j (ovlT g1 child)
                      (by rw [nidsOf_ovlT]; exact hnd1)
                      (by rw [pathOfNid_ovlT]; exact hpp)
                      (by rw [nodeAt_ovlT, hndpAt]; rfl)
                      (by rw [ovlTF_get?, hj]; rfl)
                      (by rw [ovlT_nid]; exact hcn)
                  have happly : applyOp (ovlT g1 t1)
                      (.remove (getXPathOfNid wTag wCls (ovlT τ t1) child.nid)
                        (some (getXPathOfNid wTag wCls (ovlT τ t1) p)))
                      = .ok (ovlT g1 (removeChildNid p c t1)) := by
                    show UpdateMirrorRemove (ovlT g1 t1)
                        (some (getXPathOfNid wTag wCls (ovlT τ t1) p))
                        (getXPathOfNid wTag wCls (ovlT τ t1) child.nid)
                      = .ok (ovlT g1 (removeChildNid p c t1))
                    have hnor : ¬ (getXPathOfNid wTag wCls (ovlT τ t1) p = XP.empty ∨
                        getXPathOfNid wTag wCls (ovlT τ t1) child.nid = XP.empty) := by
                      intro hor
                      rcases hor with hor | hor
                      · exact hneP hor
                      · exact hneC hor
                    rw [UpdateMirrorRemove_ok (ovlT g1 t1)
                      (getXPathOfNid wTag wCls (ovlT τ t1) p)
                      (getXPathOfNid wTag wCls (ovlT τ t1) child.nid)
                      pp (pp ++ [j]) j hnor hresP hresC (asChildOf_append pp j)]
                    rw [hbridge, ovlT_removeChildNid]
                  refine ⟨g1, ?_, ?_⟩
                  · rw [show flushOps wTag wCls (ovlT τ (removeChildNid p c t1)) last
                        (⟨false, p, none, [], [child],
                          (cs.get? (j+1)).map DomNode.nid⟩ :: recs1.reverse)
                      = procRecordOps wTag wCls (ovlT τ (removeChildNid p c t1)) last
                          ⟨false, p, none, [], [child],
                            (cs.get? (j+1)).map DomNode.nid⟩ ++
                          flushOps wTag wCls
                            (procRecordTree wTag wCls (ovlT τ (removeChildNid p c t1))
                              ⟨false, p, none, [], [child],
                                (cs.get? (j+1)).map DomNode.nid⟩)
                            (((procRecordOps wTag wCls (ovlT τ (removeChildNid p c t1))
                              last ⟨false, p, none, [], [child],
                                (cs.get? (j+1)).map DomNode.nid⟩).getLast?).or last)
                            recs1.reverse
                      from rfl]
                    rw [procRecordTree_remove, procRecordOps_remove, hE2]
                    rw [show (([(TOp.remove
                          (getXPathOfNid wTag wCls (ovlT τ t1) child.nid)
                          (some (getXPathOfNid wTag wCls (ovlT τ t1) p)))]
                        : List TOp).getLast?).or last
                      = some (TOp.remove
                          (getXPathOfNid wTag wCls (ovlT τ t1) child.nid)
                          (some (getXPathOfNid wTag wCls (ovlT τ t1) p))) from rfl]
                    rw [List.reverse_append]
                    rw [show ([TOp.remove
                          (getXPathOfNid wTag wCls (ovlT τ t1) child.nid)
                          (some (getXPathOfNid wTag wCls (ovlT τ t1) p))]
                        : List TOp).reverse
                      = [TOp.remove (getXPathOfNid wTag wCls (ovlT τ t1) child.nid)
                          (some (getXPathOfNid wTag wCls (ovlT τ t1) p))] from rfl]
                    rw [syncRev_append, hsync1]
                    exact syncRev_single _ _ _ happly
                  · intro x v hg hguard
                    obtain ⟨s2, hfind2⟩ := hguard
                    have hfind1 : findByNid x t1 = some (.txt x s2) :=
                      findByNid_remove_txt_inv p c x s2 t1 hnd1 hfind2
                    rcases hdev1 x v hg ⟨s2, hfind1⟩ with hl | hr
                    · left
                      rw [textContentOfNid_ovlT_txt τ _ x s2 hfind2]
                      rw [textContentOfNid_ovlT_txt τ t1 x s2 hfind1] at hl
                      exact hl
                    · exfalso
                      unfold pendingTOp at hr
                      exact TOp.noConfusion (Option.some.inj hr)

mutual
theorem ovlT_id_of_agree (g : Nat → Option String) (t : DomNode)
    (hnd : (nidsOf t).Nodup)
    (h : ∀ x v, g x = some v → ∀ s, findByNid x t = some (.txt x s) → v = s) :
    ovlT g t = t := by
  cases t with
  | txt m s =>
      simp only [ovlT]
      cases hg : g m with
      | none => rfl
      | some v =>
          rw [h m v hg s (by simp [findByNid])]
          rfl
  | elem m tg a c cs =>
      simp only [nidsOf, List.nodup_cons] at hnd
      simp only [ovlT]
      rw [ovlTF_id_of_agree g cs hnd.2 (by
        intro x v hg s hfind
        have hmx : ¬ (m = x) := by
          intro he
          exact hnd.1 (he ▸ mem_of_findByNidF_isSome x cs (by simp [hfind]))
        exact h x v hg s (by
          simp only [findByNid, if_neg hmx]
          exact hfind))]
theorem ovlTF_id_of_agree (g : Nat → Option String) (cs : DomForest)
    (hnd : (nidsOfF cs).Nodup)
    (h : ∀ x v, g x = some v → ∀ s, findByNidF x cs = some (.txt x s) → v = s) :
    ovlTF g cs = cs := by
  cases cs with
  | nil => rfl
  | cons y ys =>
      simp only [nidsOfF] at hnd
      rw [List.nodup_append] at hnd
      simp only [ovlTF]
      rw [ovlT_id_of_agree g y hnd.1 (by
        intro x v hg s hfind
        exact h x v hg s (by simp only [findByNidF, hfind]))]
      rw [ovlTF_id_of_agree g ys hnd.2.1 (by
        intro x v hg s hfind
        have hxy : findByNid x y = none := by
          cases hy : findByNid x y with
          | none => rfl
          | some rr =>
              exact absurd (mem_of_findByNidF_isSome x ys (by simp [hfind]))
                (hnd.2.2 (mem_of_findByNid_isSome x y (by simp [hy])))
        exact h x v hg s (by simp only [findByNidF, hxy]; exact hfind))]
end

theorem applyScript_nil_recs (script : List DomEdit) :
    ∀ (t0 tn : DomNode), applyScript t0 script = some (tn, []) → tn = t0 := by
  cases script with
  | nil =>
      intro t0 tn h
      simp only [applyScript, Option.some.injEq, Prod.mk.injEq] at h
      exact h.1.symm
  | cons e es =>
      intro t0 tn h
      cases he : applyEdit t0 e with
      | none =>
          rw [show applyScript t0 (e :: es) = none by simp [applyScript, he]] at h
          exact absurd h (by simp)
      | some pr =>
          obtain ⟨t1, r⟩ := pr
          rw [applyScript_cons_some t0 e es t1 r he] at h
          cases hs : applyScript t1 es with
          | none => rw [hs] at h; exact absurd h (by simp)
          | some pr2 =>
              rw [hs] at h
              simp only [Option.map_some', Option.some.injEq, Prod.mk.injEq] at h
              exact absurd h.2 (by simp)

/-- Claim C2: replay equivalence.  For every batch of raw mutations produced
by a script of primitive DOM edits on the watched tree - under the daemon's
addressing-stability conditions at every intermediate state (`stableAlong`)
and distinct node identities - applying the compiled operation log via
`SyncToMirror` inside `FlushQueue` to a mirror document that started as the
watched root's pre-mutation state yields exactly the watched root's
post-mutation state.  The mirror is modelled as the same labelled tree as the
pre-mutation state; no mirror operation ever reads a node identity, so this
is the claim's "structurally identical" up to the labelling. -/
theorem syncToMirror_replay_equiv (wTag wCls : String) (script : List DomEdit)
    (t0 tn : DomNode) (recs : List MRec) (s : DaemonState)
    (hnd : (nidsOf t0).Nodup)
    (h : applyScript t0 script = some (tn, recs))
    (hst : stableAlong wTag wCls t0 script = true)
    (hq : s.queue ++ s.obsPending = recs) :
    (FlushQueue wTag wCls s tn t0).mirror = .ok tn := by
  unfold FlushQueue
  rw [hq]
  by_cases he : recs.isEmpty
  · rw [if_pos he]
    rw [List.isEmpty_iff] at he
    subst he
    rw [applyScript_nil_recs script t0 tn h]
  · rw [if_neg he]
    obtain ⟨g, hsync, hdev⟩ := replay_aux wTag wCls script t0 tn recs
      (fun _ => none) none hnd h hst (by intro x hx; exact absurd rfl hx)
    rw [ovlT_none] at hsync hdev
    have hndn : (nidsOf tn).Nodup := applyScript_nodup script t0 tn recs hnd h
    have hid : ovlT g tn = tn := by
      apply ovlT_id_of_agree g tn hndn
      intro x v hg s hfind
      rcases hdev x v hg ⟨s, hfind⟩ with hl | hr
      · rw [textContentOfNid_of_txt tn x s hfind] at hl
        exact hl
      · exact Option.noConfusion hr
    have hops : (flushLoop wTag wCls tn [] recs.reverse).2
        = flushOps wTag wCls tn none recs.reverse := by
      rw [flushLoop_decomp wTag wCls recs.reverse tn []]
      rfl
    have hsm : SyncToMirror t0 (flushLoop wTag wCls tn [] recs.reverse).2 = .ok tn := by
      unfold SyncToMirror
      rw [hops, hsync, hid]
    simp only [hsm]

theorem syncToMirror_replay_equiv_witness :
    applyScript (.elem 0 "main" "" "cls" (.cons (.txt 1 "A") .nil))
        [.insB 0 (.elem 5 "p" "" "" (.cons (.txt 6 "x") .nil)) none, .setT 6 "y"]
      = some (.elem 0 "main" "" "cls"
            (.cons (.txt 1 "A")
              (.cons (.elem 5 "p" "" "" (.cons (.txt 6 "y") .nil)) .nil)),
          [⟨false, 0, none, [(5, .elem 5 "p" "" "" (.cons (.txt 6 "x") .nil))], [], none⟩,
           ⟨true, 6, some "x", [], [], none⟩]) ∧
    (FlushQueue "main" "cls"
        ⟨[⟨false, 0, none, [(5, .elem 5 "p" "" "" (.cons (.txt 6 "x") .nil))], [], none⟩,
          ⟨true, 6, some "x", [], [], none⟩], [], true, true⟩
        (.elem 0 "main" "" "cls" (.cons (.txt 1 "A")
          (.cons (.elem 5 "p" "" "" (.cons (.txt 6 "y") .nil)) .nil)))
        (.elem 0 "main" "" "cls" (.cons (.txt 1 "A") .nil))).mirror
      = .ok (.elem 0 "main" "" "cls" (.cons (.txt 1 "A")
          (.cons (.elem 5 "p" "" "" (.cons (.txt 6 "y") .nil)) .nil))) :=
  ⟨by decide,
   syncToMirror_replay_equiv "main" "cls"
     [.insB 0 (.elem 5 "p" "" "" (.cons (.txt 6 "x") .nil)) none, .setT 6 "y"]
     (.elem 0 "main" "" "cls" (.cons (.txt 1 "A") .nil))
     (.elem 0 "main" "" "cls" (.cons (.txt 1 "A")
       (.cons (.elem 5 "p" "" "" (.cons (.txt 6 "y") .nil)) .nil)))
     [⟨false, 0, none, [(5, .elem 5 "p" "" "" (.cons (.txt 6 "x") .nil))], [], none⟩,
      ⟨true, 6, some "x", [], [], none⟩]
     ⟨[⟨false, 0, none, [(5, .elem 5 "p" "" "" (.cons (.txt 6 "x") .nil))], [], none⟩,
       ⟨true, 6, some "x", [], [], none⟩], [], true, true⟩
     (by decide) (by decide) (by decide) rfl⟩
